import Mathlib

/-!
# Verification of the apidog-test transcoding subsystem

This file is a shallow embedding, in Lean 4, of the three JavaScript
components of the repository that the specification's claims are about:

* `src/scripts/merge_test_cases.js` — the `TestCaseMerger` class (id
  collection, id reassignment, name-keyed folder merge, ordering sort);
* `src/scripts/node/convert_scenario.js` — the forward `ApidogConverter`
  (YAML scenario → Apidog JSON test case);
* the `ApidogReverseConverter` (Apidog JSON test case → YAML scenario),
  which lives in the same source file as the merger.

JavaScript values manipulated generically by the merger are embedded as a
JSON value type `JVal`; machine numbers are embedded as `Int` (the ids and
counters in the source are integers; floating point never arises on the
verified paths).  Mutable class state (`usedIds`, `nextId`, the index maps)
is threaded explicitly.  Each definition carries a comment naming the
source function it translates.
-/

set_option maxHeartbeats 1000000

namespace Apidog

/-- Embedding of a JSON value (the documents the merger walks are parsed
JSON, so object keys are pairwise distinct in practice; we do not bake that
into the type). `num` carries an `Int`: every number the verified code paths
produce or consume is an integer. -/
inductive JVal where
  | null : JVal
  | bool (b : Bool) : JVal
  | num (n : Int) : JVal
  | str (s : String) : JVal
  | arr (xs : List JVal) : JVal
  | obj (fields : List (String × JVal)) : JVal

mutual

def JVal.decEq : (a b : JVal) → Decidable (a = b)
  | .null, .null => isTrue rfl
  | .null, .bool _ => isFalse (fun h => nomatch h)
  | .null, .num _ => isFalse (fun h => nomatch h)
  | .null, .str _ => isFalse (fun h => nomatch h)
  | .null, .arr _ => isFalse (fun h => nomatch h)
  | .null, .obj _ => isFalse (fun h => nomatch h)
  | .bool _, .null => isFalse (fun h => nomatch h)
  | .bool a, .bool b =>
      if h : a = b then isTrue (by rw [h]) else isFalse (fun hh => h (by injection hh))
  | .bool _, .num _ => isFalse (fun h => nomatch h)
  | .bool _, .str _ => isFalse (fun h => nomatch h)
  | .bool _, .arr _ => isFalse (fun h => nomatch h)
  | .bool _, .obj _ => isFalse (fun h => nomatch h)
  | .num _, .null => isFalse (fun h => nomatch h)
  | .num _, .bool _ => isFalse (fun h => nomatch h)
  | .num a, .num b =>
      if h : a = b then isTrue (by rw [h]) else isFalse (fun hh => h (by injection hh))
  | .num _, .str _ => isFalse (fun h => nomatch h)
  | .num _, .arr _ => isFalse (fun h => nomatch h)
  | .num _, .obj _ => isFalse (fun h => nomatch h)
  | .str _, .null => isFalse (fun h => nomatch h)
  | .str _, .bool _ => isFalse (fun h => nomatch h)
  | .str _, .num _ => isFalse (fun h => nomatch h)
  | .str a, .str b =>
      if h : a = b then isTrue (by rw [h]) else isFalse (fun hh => h (by injection hh))
  | .str _, .arr _ => isFalse (fun h => nomatch h)
  | .str _, .obj _ => isFalse (fun h => nomatch h)
  | .arr _, .null => isFalse (fun h => nomatch h)
  | .arr _, .bool _ => isFalse (fun h => nomatch h)
  | .arr _, .num _ => isFalse (fun h => nomatch h)
  | .arr _, .str _ => isFalse (fun h => nomatch h)
  | .arr xs, .arr ys =>
      match JVal.decEqList xs ys with
      | isTrue h => isTrue (by rw [h])
      | isFalse h => isFalse (fun hh => h (by injection hh))
  | .arr _, .obj _ => isFalse (fun h => nomatch h)
  | .obj _, .null => isFalse (fun h => nomatch h)
  | .obj _, .bool _ => isFalse (fun h => nomatch h)
  | .obj _, .num _ => isFalse (fun h => nomatch h)
  | .obj _, .str _ => isFalse (fun h => nomatch h)
  | .obj _, .arr _ => isFalse (fun h => nomatch h)
  | .obj fs, .obj gs =>
      match JVal.decEqFields fs gs with
      | isTrue h => isTrue (by rw [h])
      | isFalse h => isFalse (fun hh => h (by injection hh))

def JVal.decEqList : (a b : List JVal) → Decidable (a = b)
  | [], [] => isTrue rfl
  | [], _ :: _ => isFalse (fun h => nomatch h)
  | _ :: _, [] => isFalse (fun h => nomatch h)
  | x :: xs, y :: ys =>
      match JVal.decEq x y with
      | isTrue h1 =>
        match JVal.decEqList xs ys with
        | isTrue h2 => isTrue (by rw [h1, h2])
        | isFalse h2 => isFalse (fun hh => h2 (by injection hh))
      | isFalse h1 => isFalse (fun hh => h1 (by injection hh))

def JVal.decEqFields : (a b : List (String × JVal)) → Decidable (a = b)
  | [], [] => isTrue rfl
  | [], _ :: _ => isFalse (fun h => nomatch h)
  | _ :: _, [] => isFalse (fun h => nomatch h)
  | (k, v) :: xs, (k', v') :: ys =>
      match String.decEq k k' with
      | isTrue hk =>
        match JVal.decEq v v' with
        | isTrue h1 =>
          match JVal.decEqFields xs ys with
          | isTrue h2 => isTrue (by rw [hk, h1, h2])
          | isFalse h2 => isFalse (fun hh => h2 (by injection hh))
        | isFalse h1 => isFalse (fun hh => by cases hh; exact h1 rfl)
      | isFalse hk => isFalse (fun hh => by cases hh; exact hk rfl)

end

instance : DecidableEq JVal := JVal.decEq

/-- JavaScript truthiness of a `JVal` (`undefined` is represented by
`Option.none` at use sites; arrays and objects are always truthy). -/
def truthy : JVal → Bool
  | .null => false
  | .bool b => b
  | .num n => n != 0
  | .str s => s ≠ ""
  | .arr _ => true
  | .obj _ => true

/-- `o.k` property access on an embedded object: first binding of the key
(JSON objects have unique keys, so first = only). Non-objects give
`undefined`. -/
def getField : JVal → String → Option JVal
  | .obj fs, k => (fs.find? (fun p => p.1 = k)).map (·.2)
  | _, _ => none

/-- `delete o.k` on an embedded object (used for `delete processedTestCase._folder`). -/
def delField : JVal → String → JVal
  | .obj fs, k => .obj (fs.filter (fun p => p.1 ≠ k))
  | v, _ => v

/-- A `JVal` is a JavaScript primitive (not an object or array).  JavaScript
`Map` keys and `===` compare primitives by value but objects by reference;
our structural model agrees with the source exactly on primitive keys, so
the name/folder hygiene hypotheses below require primitive keys. -/
def isPrim : JVal → Bool
  | .arr _ => false
  | .obj _ => false
  | _ => true

/-! ## The collection merger (`TestCaseMerger`): id collection and reassignment -/

mutual

/-- All numeric values sitting under an `id` key anywhere in a JSON value,
in document order.  This is the notion of "numeric `id` appearing anywhere
in the document" used by the uniqueness claims, and it is exactly the list of
positions `TestCaseMerger.reassignIds` treats as ids
(`key === 'id' && typeof value === 'number'`). -/
def jvalIds : JVal → List Int
  | .obj fs => jvalIdsFields fs
  | .arr xs => jvalIdsList xs
  | _ => []

def jvalIdsList : List JVal → List Int
  | [] => []
  | v :: vs => jvalIds v ++ jvalIdsList vs

def jvalIdsFields : List (String × JVal) → List Int
  | [] => []
  | (k, v) :: fs =>
      (match k, v with
       | "id", .num n => [n]
       | _, _ => []) ++ jvalIds v ++ jvalIdsFields fs

end

mutual

/-- `TestCaseMerger.collectUsedIds`: recursively collect every truthy
numeric `obj.id` into the used-id set.  Note the truthiness test
`obj.id && typeof obj.id === 'number'` in the source: an id equal to `0`
is *not* collected.  For an object the source reads `obj.id` (the unique
binding of the key, since the documents are parsed JSON) and then recurses
into every field value; we fold the `obj.id` read into the per-field walk,
which agrees with the source whenever object keys are distinct. -/
def collectIds : JVal → List Int
  | .obj fs => collectIdsFields fs
  | .arr xs => collectIdsList xs
  | _ => []

def collectIdsList : List JVal → List Int
  | [] => []
  | v :: vs => collectIds v ++ collectIdsList vs

def collectIdsFields : List (String × JVal) → List Int
  | [] => []
  | (k, v) :: fs =>
      (match k, v with
       | "id", .num n => if n ≠ 0 then [n] else []
       | _, _ => []) ++ collectIds v ++ collectIdsFields fs

end

def nextFreeAux : Nat → List Int → Int → Int
  | 0, _, n => n
  | fuel + 1, used, n => if n ∈ used then nextFreeAux fuel used (n + 1) else n

/-- The `while (this.usedIds.has(this.nextId)) this.nextId++;` loop of
`TestCaseMerger.getNextId`: the least value `≥ n` not in `used`.  The loop
iterates at most once per distinct element of `used`, so fuel
`used.length + 1` always suffices (`nextFreeAux_spec`); the fuel only makes
the recursion structural. -/
def nextFree (used : List Int) (n : Int) : Int :=
  nextFreeAux (used.length + 1) used n

/-- `TestCaseMerger.getNextId`: returns the issued id together with the
updated used-id set and the updated `nextId` counter. -/
def getNextId (used : List Int) (next : Int) : Int × List Int × Int :=
  let v := nextFree used next
  (v, v :: used, v + 1)

/-- The mutable state of `TestCaseMerger.reassignIds`: the global used-id
set (`this.usedIds`), the allocator counter (`this.nextId`) and the
per-test-case remapping table (`const idMap = new Map()`). -/
structure RState where
  used : List Int
  next : Int
  idMap : List (Int × Int)

deriving DecidableEq

/-- `idMap.get(v)` on the remapping table (keys are distinct: entries are
only added for keys not yet present). -/
def lookupMap (m : List (Int × Int)) (v : Int) : Option Int :=
  (m.find? (fun p => p.1 = v)).map (·.2)

/-- The body of the `key === 'id' && typeof value === 'number'` branch of
`reassignRecursive`: either remap a colliding id through the per-test-case
table (minting via `getNextId` on first sight) or keep a fresh id and add
it to the used set. -/
def reassignId (s : RState) (n : Int) : Int × RState :=
  if n ∈ s.used then
    match lookupMap s.idMap n with
    | some w => (w, s)
    | none =>
        let r := getNextId s.used s.next
        (r.1, { used := r.2.1, next := r.2.2, idMap := (n, r.1) :: s.idMap })
  else
    (n, { s with used := n :: s.used })

mutual

/-- `reassignRecursive` of `TestCaseMerger.reassignIds`: rebuild the value,
replacing every numeric value under an `id` key according to `reassignId`
and recursing everywhere else. -/
def reassignVal : RState → JVal → JVal × RState
  | s, .obj fs => let r := reassignFields s fs; (.obj r.1, r.2)
  | s, .arr xs => let r := reassignList s xs; (.arr r.1, r.2)
  | s, v => (v, s)

def reassignList : RState → List JVal → List JVal × RState
  | s, [] => ([], s)
  | s, v :: vs =>
      let r1 := reassignVal s v
      let r2 := reassignList r1.2 vs
      (r1.1 :: r2.1, r2.2)

def reassignFields : RState → List (String × JVal) → List (String × JVal) × RState
  | s, [] => ([], s)
  | s, (k, v) :: fs =>
      match k, v with
      | "id", .num n =>
          let r1 := reassignId s n
          let r2 := reassignFields r1.2 fs
          (("id", .num r1.1) :: r2.1, r2.2)
      | _, _ =>
          let r1 := reassignVal s v
          let r2 := reassignFields r1.2 fs
          ((k, r1.1) :: r2.1, r2.2)

end

/-- `TestCaseMerger.reassignIds(testCase)`: run the recursive walk with a
fresh per-test-case remapping table. -/
def reassignIds (used : List Int) (next : Int) (tc : JVal) : JVal × RState :=
  reassignVal { used := used, next := next, idMap := [] } tc

/-! ## The collection merger: the merge of `mergeIntoApidog`

`mergeIntoApidog` reads and writes exactly these parts of the loaded
document: `apiTestCaseCollection[0].items` (the root-level test cases),
`apiTestCaseCollection[0].children` (the folders, each with a `name` and an
`items` array), and — through `collectUsedIds` — every other byte of the
document.  We embed the document in that shape: `rootItems`, `folders`
(name field, items, and the folder's remaining fields), and `rest` (the
entire remainder of the JSON document, which the merge never modifies but
whose ids are collected).  A folder or root with a missing/non-array
`items` is normalised by the source to `[]` before use, which the `List`
representation reflects. -/
structure MFolder where
  /-- The folder's `name` field; `none` when the field is missing
  (a JavaScript `undefined` map key). -/
  fname : Option JVal
  items : List JVal
  /-- The folder's remaining fields (`description`, nested `children`, …):
  never consulted by the merge but traversed by `collectUsedIds`. -/
  frest : List (String × JVal)

deriving DecidableEq

structure MDoc where
  rootItems : List JVal
  folders : List MFolder
  /-- Everything in the loaded document outside
  `apiTestCaseCollection[0].items/children` (other fields of the root
  collection, the `apiCollection`, …). -/
  rest : JVal

deriving DecidableEq

/-- Ids of a folder as `collectUsedIds` sees them (name is a bare value,
not under an `id` key, so it contributes none). -/
def collectFolder (f : MFolder) : List Int :=
  collectIdsFields f.frest ++ collectIdsList f.items

/-- `collectUsedIds(apidogData)` over the embedded document. -/
def collectDoc (d : MDoc) : List Int :=
  collectIds d.rest ++ collectIdsList d.rootItems ++ d.folders.flatMap collectFolder

/-- All numeric-`id` values anywhere in the document (the quantity the
uniqueness claim is about; unlike `collectDoc` this includes ids equal to
`0`, which JavaScript truthiness makes `collectUsedIds` skip). -/
def docIds (d : MDoc) : List Int :=
  jvalIds d.rest ++ jvalIdsList d.rootItems ++
    d.folders.flatMap (fun f => jvalIdsFields f.frest ++ jvalIdsList f.items)

/-- A key of the `existingTestCasesByFolder` map / of a per-folder test-case
map.  JavaScript `Map` keys here are either `null` (the root entry),
`undefined` (an item or folder without a `name`), or the value of a `name`
or `_folder` field.  `none` stands for `undefined`; `some JVal.null` for
`null`. -/
abbrev MKey := Option JVal

/-- The `name` of an item, as used for map keys (`item.name`). -/
def nameKey (v : JVal) : MKey := getField v "name"

/-- `Map.prototype.set`: replace the binding if the key is present,
otherwise append. -/
def setAssoc {α : Type} [DecidableEq MKey] (m : List (MKey × α)) (k : MKey) (v : α) :
    List (MKey × α) :=
  if m.any (fun p => p.1 = k) then
    m.map (fun p => if p.1 = k then (k, v) else p)
  else
    m ++ [(k, v)]

/-- `Map.prototype.get` (first binding; `setAssoc` keeps keys distinct). -/
def getAssoc {α : Type} (m : List (MKey × α)) (k : MKey) : Option α :=
  (m.find? (fun p => p.1 = k)).map (·.2)

/-- A per-container map from test-case name to index, as built by
`item.forEach((item, index) => map.set(item.name, index))` (later duplicate
names overwrite earlier ones). -/
abbrev NameMap := List (MKey × Nat)

def mkNameMapAux (items : List JVal) (start : Nat) (m : NameMap) : NameMap :=
  match items with
  | [] => m
  | it :: rest => mkNameMapAux rest (start + 1) (setAssoc m (nameKey it) start)

def mkNameMap (items : List JVal) : NameMap := mkNameMapAux items 0 []

/-- The initial `existingTestCasesByFolder` maps: the root map under key
`null`, then one map per folder under the folder's `name` (duplicate folder
names make the later folder's map overwrite the earlier one — the source of
the cross-folder contamination the idempotence counterexample exploits). -/
def buildMaps (d : MDoc) : List (MKey × NameMap) :=
  d.folders.foldl (fun acc f => setAssoc acc f.fname (mkNameMap f.items))
    [(some JVal.null, mkNameMap d.rootItems)]

/-- JavaScript array element assignment `items[i] = x`: in range it
replaces; past the end it pads with holes (which `JSON.stringify` renders
as `null`) and appends. -/
def jsArraySet (l : List JVal) (i : Nat) (x : JVal) : List JVal :=
  if i < l.length then l.set i x
  else l ++ List.replicate (i - l.length) JVal.null ++ [x]

/-- The sort key `a.ordering || 0` (the `ordering` fields produced by the
converter are numbers; a non-numeric `ordering` would flow into JavaScript
subtraction coercion, which no claim exercises, so it keys as the default
`0` here). -/
def orderKey (v : JVal) : Int :=
  match getField v "ordering" with
  | some (.num k) => if k ≠ 0 then k else 0
  | _ => 0

/-- Stable insertion of an element in front of the first strictly greater
key.  A stable sort's output is uniquely determined by the comparator and
the input order, so this insertion sort produces exactly the array
`Array.prototype.sort` (stable per ES2019) yields; insertion sort is used
only because it is structurally recursive. -/
def insertOrdered (x : JVal) : List JVal → List JVal
  | [] => [x]
  | y :: ys => if orderKey y < orderKey x then y :: insertOrdered x ys else x :: y :: ys

/-- The stable `items.sort((a, b) => (a.ordering||0) - (b.ordering||0))`.
Each element is inserted in front of the already-sorted suffix's first
equal-or-greater key, so equal keys keep their input order. -/
def jsSortByOrdering : List JVal → List JVal
  | [] => []
  | x :: xs => insertOrdered x (jsSortByOrdering xs)

/-- State threaded through the per-test-case loop of `mergeIntoApidog`. -/
structure MState where
  doc : MDoc
  maps : List (MKey × NameMap)
  used : List Int
  next : Int

/-- The `_folder` of a processed test case: `processedTestCase._folder || null`. -/
def folderOf (tc : JVal) : JVal :=
  match getField tc "_folder" with
  | some v => if truthy v then v else JVal.null
  | none => JVal.null

/-- `findOrCreateFolder(folderName)`: index of the first folder whose
`name === folderName`, creating `{name, description: "", children: [],
items: []}` at the end when absent. -/
def findOrCreateFolder (folders : List MFolder) (fkey : JVal) :
    Nat × MFolder × List MFolder :=
  match folders.findIdx? (fun f => f.fname = some fkey) with
  | some i =>
      (i, (folders[i]?).getD { fname := some fkey, items := [], frest := [] }, folders)
  | none =>
      let nf : MFolder := { fname := some fkey, items := [],
                            frest := [("description", .str ""), ("children", .arr [])] }
      (folders.length, nf, folders ++ [nf])

/-- Place a processed test case into a container: the update/insert step of
the merge loop (`targetCollection.items[index] = …` or
`targetCollection.items.push(…)` + `testCasesMap.set`). -/
def placeItem (items : List JVal) (m : NameMap) (tc : JVal) : List JVal × NameMap :=
  match getAssoc m (nameKey tc) with
  | some i => (jsArraySet items i tc, m)
  | none => (items ++ [tc], setAssoc m (nameKey tc) items.length)

/-- One iteration of the `for (const { file, data } of this.testCases)`
loop of `mergeIntoApidog`. -/
def mergeOne (s : MState) (tc : JVal) : MState :=
  let r := reassignIds s.used s.next tc
  let tc1 := r.1
  let fk := folderOf tc1
  let tc2 := delField tc1 "_folder"
  if truthy fk then
    let fc := findOrCreateFolder s.doc.folders fk
    let maps1 := if s.maps.any (fun p => p.1 = some fk) then s.maps
                 else setAssoc s.maps (some fk) []
    let m := (getAssoc maps1 (some fk)).getD []
    let pl := placeItem fc.2.1.items m tc2
    { doc := { s.doc with folders := fc.2.2.set fc.1 { fc.2.1 with items := pl.1 } },
      maps := setAssoc maps1 (some fk) pl.2,
      used := r.2.used, next := r.2.next }
  else
    let m := (getAssoc s.maps (some JVal.null)).getD []
    let pl := placeItem s.doc.rootItems m tc2
    { doc := { s.doc with rootItems := pl.1 },
      maps := setAssoc s.maps (some JVal.null) pl.2,
      used := r.2.used, next := r.2.next }

/-- The final ordering sort of `mergeIntoApidog` (root items and each
folder's items). -/
def sortDoc (d : MDoc) : MDoc :=
  { d with rootItems := jsSortByOrdering d.rootItems,
           folders := d.folders.map (fun f => { f with items := jsSortByOrdering f.items }) }

/-- `TestCaseMerger.mergeIntoApidog`: collect the used ids of the existing
document, fold the incoming test cases through `mergeOne`, then sort.  The
allocator starts at `nextId = 10000000` (the constructor). -/
def merge (d : MDoc) (tcs : List JVal) : MDoc :=
  let s0 : MState := { doc := d, maps := buildMaps d, used := collectDoc d, next := 10000000 }
  sortDoc (tcs.foldl mergeOne s0).doc

/-- The names of all items in the document, root first then folder by
folder (one entry per item, so its length is the total item count). -/
def allNames (d : MDoc) : List MKey :=
  d.rootItems.map nameKey ++ d.folders.flatMap (fun f => f.items.map nameKey)

/-- Total number of test-case items in the document. -/
def totalItems (d : MDoc) : Nat :=
  d.rootItems.length + (d.folders.map (fun f => f.items.length)).sum

/-- Discriminator for the `key === 'id' && typeof value === 'number'` test
common to the three merger traversals. -/
def isIdNum (k : String) (v : JVal) : Bool :=
  k = "id" && (match v with | .num _ => true | _ => false)

/-- Keys of the per-test-case remapping table. -/
def mapDom (m : List (Int × Int)) : List Int := m.map (·.1)

/-! ## Reassignment invariants for id uniqueness (claim C1) -/

/-- What one reassignment pass guarantees when its input ids `ins` are
fresh for the remap table: the used set grows, the remap table only gains
input ids, and the output ids `outs` are pairwise distinct, recorded in the
final used set, and disjoint from the initial used set. -/
def ReassignOut (s : RState) (ins outs : List Int) (s' : RState) : Prop :=
  s.used ⊆ s'.used ∧
  (∀ x ∈ mapDom s'.idMap, x ∈ mapDom s.idMap ∨ x ∈ ins) ∧
  outs.Nodup ∧
  (∀ b ∈ outs, b ∈ s'.used ∧ b ∉ s.used)

/-! ## Reassignment consistency (claim C2) -/

/-- Lookup stability: every binding of the smaller remap table is still
what the bigger table answers. -/
def Submap (m m' : List (Int × Int)) : Prop :=
  ∀ p ∈ m, lookupMap m' p.1 = some p.2

/-- Invariant tying a reassignment state to the used set `u₀` that the
test-case walk started from: replacements recorded in the remap table are
fresh relative to `u₀` and recorded in the used set, and table keys are
distinct. -/
def GoodR (u₀ : List Int) (s : RState) : Prop :=
  u₀ ⊆ s.used ∧ (∀ p ∈ s.idMap, p.2 ∉ u₀ ∧ p.2 ∈ s.used) ∧ (mapDom s.idMap).Nodup

/-- Relation between an input id occurrence `a` and its output `b`, judged
against the final remap table `m` and final used set `u`. -/
def POut (u₀ : List Int) (m : List (Int × Int)) (u : List Int) (a b : Int) : Prop :=
  (a ∈ u₀ → lookupMap m a = some b ∧ b ∉ u₀) ∧
  (a ∉ u₀ → a ∉ mapDom m → b = a) ∧
  b ∈ u

/-- Output bundle of one consistency-tracking reassignment pass. -/
def ConsistOut (u₀ : List Int) (s : RState) (ins outs : List Int) (s' : RState) : Prop :=
  GoodR u₀ s' ∧ s.used ⊆ s'.used ∧ Submap s.idMap s'.idMap ∧
  mapDom s.idMap ⊆ mapDom s'.idMap ∧
  List.Forall₂ (POut u₀ s'.idMap s'.used) ins outs

/-- Per-folder contribution to `docIds`. -/
def folderIds (f : MFolder) : List Int :=
  jvalIdsFields f.frest ++ jvalIdsList f.items

/-- Coherence of a per-container name map: every binding indexes an item of
that name, every item's name is a key, and keys are pairwise distinct. -/
def MapOK (m : NameMap) (items : List JVal) : Prop :=
  (∀ p ∈ m, ∃ h : p.2 < items.length, nameKey items[p.2] = p.1) ∧
  (∀ it ∈ items, nameKey it ∈ m.map Prod.fst) ∧
  (m.map Prod.fst).Nodup

/-- The folder-name hygiene the idempotence claim needs: folder names are
pairwise distinct and never the JSON `null` that keys the root map. -/
def DocOK (doc : MDoc) : Prop :=
  (doc.folders.map MFolder.fname).Nodup ∧
  some JVal.null ∉ doc.folders.map MFolder.fname

/-- Coherence of the whole `existingTestCasesByFolder` table: the root map
is registered under `null` and matches the root items, every folder's map is
registered under its name and matches its items, and there are no stray
keys. -/
def MapsOK (doc : MDoc) (maps : List (MKey × NameMap)) : Prop :=
  (∃ m, getAssoc maps (some JVal.null) = some m ∧ MapOK m doc.rootItems) ∧
  (∀ j, (hj : j < doc.folders.length) → ∃ m,
      getAssoc maps (doc.folders[j].fname) = some m ∧ MapOK m (doc.folders[j].items)) ∧
  (∀ k m', getAssoc maps k = some m' →
      k = some JVal.null ∨ ∃ f ∈ doc.folders, f.fname = k)

/-- One step of the fold that builds `existingTestCasesByFolder`. -/
def buildStep (a : List (MKey × NameMap)) (f : MFolder) : List (MKey × NameMap) :=
  setAssoc a f.fname (mkNameMap f.items)

/-- Hygiene of an incoming test case: its `name` and `_folder` values, when
present, are primitive, so id reassignment does not disturb the keys the
merge loop files it under. -/
def Hyg (tc : JVal) : Bool :=
  ((getField tc "name").all isPrim) && ((getField tc "_folder").all isPrim)

/-- The test case's name is present in the container the merge loop files it
under, keyed by the original test case's own `name`/`_folder` (which `Hyg`
makes survive id reassignment). -/
def Placed (d : MDoc) (tc : JVal) : Prop :=
  if truthy (folderOf tc) then
    ∃ f ∈ d.folders, f.fname = some (folderOf tc) ∧ nameKey tc ∈ f.items.map nameKey
  else nameKey tc ∈ d.rootItems.map nameKey

/-- Two documents with the same container skeleton: equal root name lists,
and folder-by-folder equal names and item name lists. -/
def Shape (d ref : MDoc) : Prop :=
  d.rootItems.map nameKey = ref.rootItems.map nameKey ∧
  List.Forall₂ (fun f g => f.fname = g.fname ∧ f.items.map nameKey = g.items.map nameKey)
    d.folders ref.folders

/-! ## The scenario converter (`convert_scenario.js`) and its reverse
(`merge_test_cases.js`, `ApidogReverseConverter`)

Scope of the embedding: scenario steps are modeled with the fields the
claims exercise.  Optional YAML fields the claims never mention (`auth`,
`user_agent`, `request_body_override`, `request_form_data_override`,
custom pre/post processors on http steps, `folder`, datasets, options) are
absent from the modeled step records; each JS block guarded by the
presence of such a field is a no-op on the modeled inputs, so the
translation is exact on them.  JS `undefined` and `null` are both `none` /
`JVal.null`; the code under study only distinguishes them through
truthiness and `!== undefined` checks, which the model reproduces. -/

/-- `x || d` for an optional string (JS falsiness of `undefined` and `""`). -/
def optStrOr (o : Option String) (d : String) : String :=
  match o with
  | some s => if s ≠ "" then s else d
  | none => d

/-- `x || null` for an optional string. -/
def optTruthy (o : Option String) : Option String :=
  match o with
  | some s => if s ≠ "" then some s else none
  | none => none

/-- `x || d` for an optional JS number (`0` is falsy). -/
def numOr (o : Option Int) (d : Int) : Int :=
  match o with
  | some k => if k ≠ 0 then k else d
  | none => d

/-- `n || d` on a present JS number. -/
def numOrI (n d : Int) : Int := if n ≠ 0 then n else d

/-- `v || d` on JSON values. -/
def jvalOr (v d : JVal) : JVal := if truthy v then v else d

/-- `s || d` on strings. -/
def strOr (s d : String) : String := if s ≠ "" then s else d

/-- `String(v)` on the scalar values scenario conditions carry (condition
values in the YAML scenarios are scalars; arrays/objects would stringify
through `Object.prototype.toString`, which no claim exercises). -/
def jsToString : JVal → String
  | .str s => s
  | .num n => toString n
  | .bool b => if b then "true" else "false"
  | .null => "null"
  | .arr _ => ""
  | .obj _ => ""

/-- Normalize line endings to `\r\n`
(`.replace(/\r\n/g,'\n').replace(/\r/g,'\n').replace(/\n/g,'\r\n')`). -/
def toCRLF (s : String) : String :=
  ((s.replace "\r\n" "\n").replace "\r" "\n").replace "\n" "\r\n"

/-- Normalize line endings to `\n` (the reverse converter's
`.replace(/\r\n/g,'\n').replace(/\r/g,'\n')`). -/
def fromCRLF (s : String) : String :=
  (s.replace "\r\n" "\n").replace "\r" "\n"

/-- Mutable state of `ApidogConverter`: the `nextId` counter; `uuid` is a
fresh-name supply standing in for `crypto.randomUUID()` (no claim depends
on the generated text, only on its role as an opaque id). -/
structure CSt where
  nextId : Int
  uuid : Nat

deriving DecidableEq

/-- `generateId() { return ++this.nextId; }` -/
def generateId (s : CSt) : Int × CSt :=
  (s.nextId + 1, { s with nextId := s.nextId + 1 })

def freshUuid (s : CSt) : String × CSt :=
  ("uuid-" ++ toString s.uuid, { s with uuid := s.uuid + 1 })

/-- An entry of an Apidog `parameters.query/header/cookie/path` array.  The
cookie-only `isDelete: false` bookkeeping field and the `schema` blob of
form-data parameters are cosmetic and not modeled. -/
structure Param where
  pid : String
  name : String
  required : Bool
  enable : Bool
  value : JVal
  ptype : String
  descr : String

deriving DecidableEq

/-- A `*_params_override` entry `{name, value}` of a scenario step
(`value: null` models both JSON `null` and an absent value). -/
structure Override where
  name : String
  value : JVal

deriving DecidableEq

/-- `findIndex` + `splice(index, 1)`: remove the first match. -/
def eraseFirst {α : Type} (p : α → Bool) : List α → List α
  | [] => []
  | x :: xs => if p x then xs else x :: eraseFirst p xs

/-- `find` + in-place mutation: rewrite the first match. -/
def updateFirst {α : Type} (p : α → Bool) (f : α → α) : List α → List α
  | [] => []
  | x :: xs => if p x then f x :: xs else x :: updateFirst p f xs

/-- The parameter pushed for an override naming no existing parameter. -/
def mkCustomParam (idn : Int) (n : String) (v : JVal) : Param :=
  { pid := "custom_" ++ toString idn, name := n, required := false, enable := true,
    value := v, ptype := "string", descr := "" }

/-- Exact name match (`p.name === paramName`, query/path/cookie loops). -/
def nameEqCS (pn qn : String) : Bool := pn = qn

/-- Case-insensitive name match
(`p.name && p.name.toLowerCase() === paramName.toLowerCase()`, header loops). -/
def nameEqCI (pn qn : String) : Bool := pn ≠ "" && pn.toLower = qn.toLower

/-- One iteration of a `for (const override of step.*_params_override)`
loop: `null`/`undefined` deletes the first matching parameter, otherwise
the first matching parameter is updated in place (value + `enable: true`),
otherwise a fresh `custom_<id>` parameter is appended. -/
def applyOverride (keyEq : String → String → Bool) (st : CSt) (ps : List Param)
    (o : Override) : List Param × CSt :=
  if o.value = JVal.null then
    (eraseFirst (fun p => keyEq p.name o.name) ps, st)
  else if ps.any (fun p => keyEq p.name o.name) then
    (updateFirst (fun p => keyEq p.name o.name)
      (fun p => { p with value := o.value, enable := true }) ps, st)
  else
    let g := generateId st
    (ps ++ [mkCustomParam g.1 o.name o.value], g.2)

def applyOverrides (keyEq : String → String → Bool) (st : CSt) (ps : List Param) :
    List Override → List Param × CSt
  | [] => (ps, st)
  | o :: os =>
      let r := applyOverride keyEq st ps o
      applyOverrides keyEq r.2 r.1 os

/-- A scenario assertion as written in the YAML (`name`, `subject`,
`comparison`/`operator`, `value`, `path`). -/
structure Assertion where
  aname : Option String
  subject : Option String
  comparison : Option String
  operator : Option String
  value : JVal
  path : Option String

deriving DecidableEq

/-- The `data` of a converted assertion post-processor.  The constant
`multipleValue: []` and `continueExtractorSettings` blob are cosmetic;
`extractSettings.expression` is kept as `expression`. -/
structure AssertData where
  aname : String
  subject : String
  comparison : String
  value : JVal
  path : String
  expression : String

deriving DecidableEq

/-- A converted pre/post processor. -/
inductive Proc where
  | assertion (d : AssertData) (defaultEnable enable : Bool)
  | customScript (data : String) (defaultEnable enable : Bool)
  | placeholder
  | other (ptype : String) (data : JVal) (defaultEnable enable : Bool)

deriving DecidableEq

/-- One assertion of `convertAssertions`. -/
def convertAssertion (a : Assertion) : Proc :=
  .assertion
    { aname := optStrOr a.aname ""
      subject := optStrOr a.subject "responseJson"
      comparison := optStrOr a.comparison (optStrOr a.operator "equal")
      value := jvalOr a.value (.str "")
      path := optStrOr a.path ""
      expression := optStrOr a.path "" }
    false true

def convertAssertions (l : List Assertion) : List Proc := l.map convertAssertion

/-- `convertPreProcessors([])`: the default placeholder processor (the
modeled scenarios carry no custom pre-processors). -/
def defaultPreProcessors : List Proc := [Proc.placeholder]

/-- `mergePostProcessors(step.assertions || [], [])`: assertions first; the
modeled scenarios carry no custom post-processors, whose conversion the
source would append afterwards. -/
def mergePostProcessors (asserts : List Assertion) : List Proc :=
  convertAssertions asserts

/-- An indexed API definition (`item.api`).  `respIds` are the response ids
as `parseInt` reads them; `requestBody` and `auth` pass through unmodeled
(the modeled endpoints have none, making those blocks no-ops). -/
structure ApiData where
  aid : Option Int
  method : Option String
  path : Option String
  respIds : List Int
  query : List Param
  header : List Param
  cookie : List Param
  pathParams : List Param

deriving DecidableEq

/-- A value stored in the `operator` field of a converted `if` node.  The
else-branch operator is read in JavaScript as `map[op] || 'notEqual'` from
a plain object literal, so the lookup falls through to `Object.prototype`:
for `op` naming one of its members (`toString`, `valueOf`, `constructor`,
`__proto__`, …) the inherited member is returned — a function (for
`__proto__`, the prototype object), truthy, not an operator string.
`protoFn` records such an inherited member by its name. -/
inductive OperatorVal where
  | str (s : String)
  | protoFn (qn : String)

deriving DecidableEq

structure IfParams where
  keyVariable : String
  operator : OperatorVal
  valueVariable : String

deriving DecidableEq

/-- The `parameters` block built for an `if` step itself (`ifParamsOf`):
all three fields are strings, each read through an `x || default`. -/
structure CondParams where
  keyVariable : String
  operator : String
  valueVariable : String

deriving DecidableEq

/-- The string-operator parameters of an `if` node, as stored on the node. -/
def CondParams.toIf (p : CondParams) : IfParams :=
  { keyVariable := p.keyVariable, operator := .str p.operator,
    valueVariable := p.valueVariable }

/-- The converted `httpApiCase`.  Constant blobs (`advancedSettings`,
`commonParameters`, `inherit*`, `options`, `moduleId`, `auth`,
`requestBody`) are cosmetic on the modeled inputs and omitted. -/
structure HttpApiCase where
  hcId : Int
  hcName : String
  method : String
  path : String
  responseId : Int
  query : List Param
  header : List Param
  cookie : List Param
  pathParams : List Param
  preProcessors : List Proc
  postProcessors : List Proc
  apiId : Option Int

deriving DecidableEq

/-- A converted (Apidog JSON) test-scenario step; also the shape of the
steps of the source file's indexed test cases.  `http` steps of arbitrary
JSON input may lack their `httpApiCase`.  `customHttp` steps occur in no
claim's scenario and are not modeled. -/
inductive JStep where
  | http (name : String) (number : Int) (bindId : Int) (hc : Option HttpApiCase)
  | testCaseRef (rid : String) (disable : Bool) (parameters : JVal) (relatedId : Int)
      (name : String) (number : Int)
  | delay (did : String) (number : Int) (timeout : Int)
  | script (sid : String) (disable : Bool) (data : String) (defaultEnable enable : Bool)
      (name : String) (number : Int)
  | ifStep (iid : String) (params : IfParams) (children : List JStep) (number : Int)
  | elseStep (eid : String) (children : List JStep) (number : Int)

mutual

def jstepDecEq : (a b : JStep) → Decidable (a = b)
  | .http n1 u1 b1 h1, .http n2 u2 b2 h2 =>
      match decEq n1 n2, decEq u1 u2, decEq b1 b2, decEq h1 h2 with
      | isTrue e1, isTrue e2, isTrue e3, isTrue e4 => isTrue (by rw [e1, e2, e3, e4])
      | isFalse ne, _, _, _ => isFalse (fun h => by cases h; exact ne rfl)
      | _, isFalse ne, _, _ => isFalse (fun h => by cases h; exact ne rfl)
      | _, _, isFalse ne, _ => isFalse (fun h => by cases h; exact ne rfl)
      | _, _, _, isFalse ne => isFalse (fun h => by cases h; exact ne rfl)
  | .testCaseRef r1 d1 p1 l1 n1 u1, .testCaseRef r2 d2 p2 l2 n2 u2 =>
      match decEq r1 r2, decEq d1 d2, decEq p1 p2, decEq l1 l2, decEq n1 n2, decEq u1 u2 with
      | isTrue e1, isTrue e2, isTrue e3, isTrue e4, isTrue e5, isTrue e6 =>
          isTrue (by rw [e1, e2, e3, e4, e5, e6])
      | isFalse ne, _, _, _, _, _ => isFalse (fun h => by cases h; exact ne rfl)
      | _, isFalse ne, _, _, _, _ => isFalse (fun h => by cases h; exact ne rfl)
      | _, _, isFalse ne, _, _, _ => isFalse (fun h => by cases h; exact ne rfl)
      | _, _, _, isFalse ne, _, _ => isFalse (fun h => by cases h; exact ne rfl)
      | _, _, _, _, isFalse ne, _ => isFalse (fun h => by cases h; exact ne rfl)
      | _, _, _, _, _, isFalse ne => isFalse (fun h => by cases h; exact ne rfl)
  | .delay d1 n1 t1, .delay d2 n2 t2 =>
      match decEq d1 d2, decEq n1 n2, decEq t1 t2 with
      | isTrue e1, isTrue e2, isTrue e3 => isTrue (by rw [e1, e2, e3])
      | isFalse ne, _, _ => isFalse (fun h => by cases h; exact ne rfl)
      | _, isFalse ne, _ => isFalse (fun h => by cases h; exact ne rfl)
      | _, _, isFalse ne => isFalse (fun h => by cases h; exact ne rfl)
  | .script s1 d1 a1 f1 e1 n1 u1, .script s2 d2 a2 f2 e2 n2 u2 =>
      match decEq s1 s2, decEq d1 d2, decEq a1 a2, decEq f1 f2, decEq e1 e2,
          decEq n1 n2, decEq u1 u2 with
      | isTrue q1, isTrue q2, isTrue q3, isTrue q4, isTrue q5, isTrue q6, isTrue q7 =>
          isTrue (by rw [q1, q2, q3, q4, q5, q6, q7])
      | isFalse ne, _, _, _, _, _, _ => isFalse (fun h => by cases h; exact ne rfl)
      | _, isFalse ne, _, _, _, _, _ => isFalse (fun h => by cases h; exact ne rfl)
      | _, _, isFalse ne, _, _, _, _ => isFalse (fun h => by cases h; exact ne rfl)
      | _, _, _, isFalse ne, _, _, _ => isFalse (fun h => by cases h; exact ne rfl)
      | _, _, _, _, isFalse ne, _, _ => isFalse (fun h => by cases h; exact ne rfl)
      | _, _, _, _, _, isFalse ne, _ => isFalse (fun h => by cases h; exact ne rfl)
      | _, _, _, _, _, _, isFalse ne => isFalse (fun h => by cases h; exact ne rfl)
  | .ifStep i1 p1 c1 n1, .ifStep i2 p2 c2 n2 =>
      match decEq i1 i2, decEq p1 p2, jstepDecEqList c1 c2, decEq n1 n2 with
      | isTrue e1, isTrue e2, isTrue e3, isTrue e4 => isTrue (by rw [e1, e2, e3, e4])
      | isFalse ne, _, _, _ => isFalse (fun h => by cases h; exact ne rfl)
      | _, isFalse ne, _, _ => isFalse (fun h => by cases h; exact ne rfl)
      | _, _, isFalse ne, _ => isFalse (fun h => by cases h; exact ne rfl)
      | _, _, _, isFalse ne => isFalse (fun h => by cases h; exact ne rfl)
  | .elseStep i1 c1 n1, .elseStep i2 c2 n2 =>
      match decEq i1 i2, jstepDecEqList c1 c2, decEq n1 n2 with
      | isTrue e1, isTrue e2, isTrue e3 => isTrue (by rw [e1, e2, e3])
      | isFalse ne, _, _ => isFalse (fun h => by cases h; exact ne rfl)
      | _, isFalse ne, _ => isFalse (fun h => by cases h; exact ne rfl)
      | _, _, isFalse ne => isFalse (fun h => by cases h; exact ne rfl)
  | .http _ _ _ _, .testCaseRef _ _ _ _ _ _ => isFalse (fun h => nomatch h)
  | .http _ _ _ _, .delay _ _ _ => isFalse (fun h => nomatch h)
  | .http _ _ _ _, .script _ _ _ _ _ _ _ => isFalse (fun h => nomatch h)
  | .http _ _ _ _, .ifStep _ _ _ _ => isFalse (fun h => nomatch h)
  | .http _ _ _ _, .elseStep _ _ _ => isFalse (fun h => nomatch h)
  | .testCaseRef _ _ _ _ _ _, .http _ _ _ _ => isFalse (fun h => nomatch h)
  | .testCaseRef _ _ _ _ _ _, .delay _ _ _ => isFalse (fun h => nomatch h)
  | .testCaseRef _ _ _ _ _ _, .script _ _ _ _ _ _ _ => isFalse (fun h => nomatch h)
  | .testCaseRef _ _ _ _ _ _, .ifStep _ _ _ _ => isFalse (fun h => nomatch h)
  | .testCaseRef _ _ _ _ _ _, .elseStep _ _ _ => isFalse (fun h => nomatch h)
  | .delay _ _ _, .http _ _ _ _ => isFalse (fun h => nomatch h)
  | .delay _ _ _, .testCaseRef _ _ _ _ _ _ => isFalse (fun h => nomatch h)
  | .delay _ _ _, .script _ _ _ _ _ _ _ => isFalse (fun h => nomatch h)
  | .delay _ _ _, .ifStep _ _ _ _ => isFalse (fun h => nomatch h)
  | .delay _ _ _, .elseStep _ _ _ => isFalse (fun h => nomatch h)
  | .script _ _ _ _ _ _ _, .http _ _ _ _ => isFalse (fun h => nomatch h)
  | .script _ _ _ _ _ _ _, .testCaseRef _ _ _ _ _ _ => isFalse (fun h => nomatch h)
  | .script _ _ _ _ _ _ _, .delay _ _ _ => isFalse (fun h => nomatch h)
  | .script _ _ _ _ _ _ _, .ifStep _ _ _ _ => isFalse (fun h => nomatch h)
  | .script _ _ _ _ _ _ _, .elseStep _ _ _ => isFalse (fun h => nomatch h)
  | .ifStep _ _ _ _, .http _ _ _ _ => isFalse (fun h => nomatch h)
  | .ifStep _ _ _ _, .testCaseRef _ _ _ _ _ _ => isFalse (fun h => nomatch h)
  | .ifStep _ _ _ _, .delay _ _ _ => isFalse (fun h => nomatch h)
  | .ifStep _ _ _ _, .script _ _ _ _ _ _ _ => isFalse (fun h => nomatch h)
  | .ifStep _ _ _ _, .elseStep _ _ _ => isFalse (fun h => nomatch h)
  | .elseStep _ _ _, .http _ _ _ _ => isFalse (fun h => nomatch h)
  | .elseStep _ _ _, .testCaseRef _ _ _ _ _ _ => isFalse (fun h => nomatch h)
  | .elseStep _ _ _, .delay _ _ _ => isFalse (fun h => nomatch h)
  | .elseStep _ _ _, .script _ _ _ _ _ _ _ => isFalse (fun h => nomatch h)
  | .elseStep _ _ _, .ifStep _ _ _ _ => isFalse (fun h => nomatch h)

def jstepDecEqList : (a b : List JStep) → Decidable (a = b)
  | [], [] => isTrue rfl
  | _ :: _, [] => isFalse (fun h => nomatch h)
  | [], _ :: _ => isFalse (fun h => nomatch h)
  | x :: xs, y :: ys =>
      match jstepDecEq x y, jstepDecEqList xs ys with
      | isTrue e1, isTrue e2 => isTrue (by rw [e1, e2])
      | isFalse ne, _ => isFalse (fun h => by cases h; exact ne rfl)
      | _, isFalse ne => isFalse (fun h => by cases h; exact ne rfl)

end

instance : DecidableEq JStep := jstepDecEq

/-- An indexed source test case (`item.name && item.steps`). -/
structure TCase where
  tid : Option Int
  tname : String
  tsteps : List JStep

deriving DecidableEq

/-- The converter's indexes: `apiByPath` values in insertion order, the
`apiDefinitions` name map (single items: the duplicate-name array entries
arise only for ambiguous endpoint names), and the test-case maps. -/
structure Idx where
  byPathItems : List ApiData
  defs : List (String × ApiData)
  tcByName : List (String × TCase)
  tcById : List (Int × TCase)

deriving DecidableEq

def lookupStr {α : Type} (m : List (String × α)) (k : String) : Option α :=
  (m.find? (fun p => p.1 = k)).map (·.2)

def lookupInt {α : Type} (m : List (Int × α)) (k : Int) : Option α :=
  (m.find? (fun p => p.1 = k)).map (·.2)

/-! ### YAML-side scenario steps -/

/-- A YAML http step.  `qov` is `query_params_override` ([] meaning absent:
the guarded loop is then a no-op either way); `drv`/`rv` are
`disable_response_validation` / `response_validation`. -/
structure YHttp where
  number : Option Int
  name : Option String
  path : Option String
  method : Option String
  qov : List Override
  assertions : List Assertion
  drv : Option Bool
  rv : Option Bool

deriving DecidableEq

/-- The old-format `condition` block of an `if` step (`variable` is a Lean
keyword, hence `varName`). -/
structure YCond where
  varName : Option String
  operator : Option String
  value : JVal

deriving DecidableEq

/-- The new-format `parameters` block of an `if` step. -/
structure YIfParams where
  keyVariable : Option String
  operator : Option String
  valueVariable : JVal

deriving DecidableEq

structure YLink where
  number : Option Int
  link_to : Option String
  link_step : Option Int
  link_step_number : Option Int
  qov : List Override

deriving DecidableEq

/-- A `testCaseRef` step (`ref_name` covers the `refName` spelling, which
the source reads through the same `||` chain). -/
structure YRef where
  number : Option Int
  name : Option String
  ref_name : Option String
  ref_id : Option Int
  disable : Option Bool
  parameters : JVal

deriving DecidableEq

/-- A `script` step (`default_enable` covers the `defaultEnable` spelling,
read through the same `!== undefined` chain). -/
structure YScript where
  number : Option Int
  name : Option String
  data : Option String
  enable : Option Bool
  default_enable : Option Bool
  disable : Option Bool

deriving DecidableEq

/-- A YAML scenario step; `ydelay` carries `number`, `timeout`, `duration`
(the `wait` type alias converts identically).  Steps of unknown type are
silently skipped by every dispatch loop and not modeled. -/
inductive YStep where
  | http (d : YHttp)
  | yif (number : Option Int) (params : Option YIfParams) (condition : Option YCond)
      (children : List YStep)
  | yelse (number : Option Int) (children : List YStep)
  | link (d : YLink)
  | tcref (d : YRef)
  | ydelay (number timeout duration : Option Int)
  | yscript (d : YScript)

/-! ### Forward conversion -/

def stepNameOf (n : Option String) (num : Int) : String :=
  optStrOr n ("Step " ++ toString num)

/-- `findApiByMethodAndPath`: first `apiByPath` value with the exact path
and (when a method is desired) the same lower-cased method. -/
def findApiByMethodAndPath (idx : Idx) (stepMethod : Option String) (apiPath : String) :
    Option ApiData :=
  idx.byPathItems.find? (fun it =>
    it.path = some apiPath &&
      (match stepMethod with
       | none => true
       | some d => (optStrOr it.method "").toLower = d.toLower))

/-- `findApiByNameAndPath` on the modeled steps (no `folder` field): the
name lookup in `apiDefinitions`; the array branch only fires for
duplicate endpoint names, which the index of an ambiguity-free collection
never stores. -/
def findApiByNameAndPath (idx : Idx) (name : String) : Option ApiData :=
  lookupStr idx.defs name

/-- `step.disable_response_validation !== undefined ? … :
(step.response_validation === false)`. -/
def disableRVOf (drv rv : Option Bool) : Bool :=
  match drv with
  | some b => b
  | none => rv = some false

/-- `apiId: api.id ? parseInt(api.id) : undefined`. -/
def apiIdOf (aid : Option Int) : Option Int :=
  match aid with
  | some k => if k ≠ 0 then some k else none
  | none => none

/-- `ApidogConverter.convertHttpStep` on a modeled step whose endpoint
resolves: responseId first (a fresh id when validation is on and the
endpoint lists no responses), then the case id, then the override loops
(only query overrides occur on modeled steps). -/
def convertResolvedHttpStep (st : CSt) (y : YHttp) (api : ApiData) : JStep × CSt :=
  let stepNumber := numOr y.number 1
  let stepName := stepNameOf y.name stepNumber
  let r0 : Int × CSt :=
    if disableRVOf y.drv y.rv then (0, st)
    else match api.respIds with
      | r :: _ => (r, st)
      | [] => generateId st
  let g1 := generateId r0.2
  let q := applyOverrides nameEqCS g1.2 api.query y.qov
  (.http stepName stepNumber ((api.aid).getD 0) (some
    { hcId := g1.1, hcName := stepName,
      method := optStrOr api.method "get", path := optStrOr api.path "/",
      responseId := r0.1,
      query := q.1, header := api.header, cookie := api.cookie,
      pathParams := api.pathParams,
      preProcessors := defaultPreProcessors,
      postProcessors := mergePostProcessors y.assertions,
      apiId := apiIdOf api.aid }), q.2)

/-- `ApidogConverter.createBasicHttpStep` on a modeled step (no API
definition found): empty parameter lists, a fresh responseId unless
validation is disabled. -/
def createBasicHttpStep (st : CSt) (y : YHttp) : JStep × CSt :=
  let stepNumber := numOr y.number 1
  let stepName := stepNameOf y.name stepNumber
  let r0 : Int × CSt :=
    if disableRVOf y.drv y.rv then (0, st) else generateId st
  let g1 := generateId r0.2
  let q := applyOverrides nameEqCS g1.2 [] y.qov
  (.http stepName stepNumber 0 (some
    { hcId := g1.1, hcName := stepName,
      method := (optStrOr y.method "get").toLower, path := optStrOr y.path "/",
      responseId := r0.1,
      query := q.1, header := [], cookie := [], pathParams := [],
      preProcessors := defaultPreProcessors,
      postProcessors := mergePostProcessors y.assertions,
      apiId := none }), q.2)

/-- `ApidogConverter.convertHttpStep`: disambiguate by explicit path first,
fall back to the name, fall back to a basic step. -/
def convertHttpStep (st : CSt) (idx : Idx) (y : YHttp) : JStep × CSt :=
  let stepNumber := numOr y.number 1
  let stepName := stepNameOf y.name stepNumber
  let stepPath := optTruthy y.path
  let stepMethod := optTruthy y.method
  let apiItem0 : Option ApiData :=
    match stepPath with
    | some p => findApiByMethodAndPath idx stepMethod p
    | none => none
  let apiItem : Option ApiData :=
    match apiItem0 with
    | some a => some a
    | none => findApiByNameAndPath idx stepName
  match apiItem with
  | some api => convertResolvedHttpStep st y api
  | none => createBasicHttpStep st y

/-- `ApidogConverter.convertDelayStep`. -/
def convertDelayStep (st : CSt) (number timeout duration : Option Int) : JStep × CSt :=
  let n := numOr number 1
  let t := numOr timeout (numOr duration 1000)
  let g := generateId st
  (.delay (toString g.1) n t, g.2)

/-- `ApidogConverter.convertScriptStep`. -/
def convertScriptStep (st : CSt) (d : YScript) : JStep × CSt :=
  let n := numOr d.number 1
  let nm := optStrOr d.name ""
  let sdata := toCRLF (optStrOr d.data "")
  let en := d.enable.getD true
  let de := d.default_enable.getD true
  let dis := d.disable.getD false
  let g := generateId st
  (.script (toString g.1) dis sdata de en nm n, g.2)

/-- `parseInt(testCase.id)` followed by the `if (!relatedId)` truthiness
test: an absent id (`NaN`) and `0` both fail it. -/
def parseIdOpt (o : Option Int) : Option Int :=
  match o with
  | some k => if k ≠ 0 then some k else none
  | none => none

/-- `step.ref_name || step.refName || step.name` (name part). -/
def refNameOf (d : YRef) : Option String :=
  match optTruthy d.ref_name with
  | some s => some s
  | none => optTruthy d.name

/-- `step.ref_id || step.refId`, as the `if (refId)` truthiness test sees
it. -/
def refIdOf (d : YRef) : Option Int :=
  match d.ref_id with
  | some k => if k ≠ 0 then some k else none
  | none => none

/-- The id/name resolution of `convertTestCaseRefStep`: `(relatedId?,
testCaseName)` before the placeholder fallback. -/
def resolveRef (idx : Idx) (d : YRef) (stepName : String) : Option Int × String :=
  match refIdOf d with
  | some rid =>
      match lookupInt idx.tcById rid with
      | some tc => (parseIdOpt tc.tid, strOr tc.tname stepName)
      | none => (none, stepName)
  | none =>
      match refNameOf d with
      | some rn =>
          match lookupStr idx.tcByName rn with
          | some tc => (parseIdOpt tc.tid, strOr tc.tname rn)
          | none => (none, stepName)
      | none => (none, stepName)

/-- `ApidogConverter.convertTestCaseRefStep`: resolve by id, else by name;
an unresolved reference still yields a record, with a freshly generated
placeholder `relatedId`. -/
def convertTestCaseRefStep (st : CSt) (idx : Idx) (d : YRef) : JStep × CSt :=
  let n := numOr d.number 1
  let stepName := stepNameOf d.name n
  let found := resolveRef idx d stepName
  let r1 : Int × CSt :=
    match found.1 with
    | some k => (k, st)
    | none => generateId st
  let u := freshUuid r1.2
  (.testCaseRef u.1 (d.disable.getD false) d.parameters r1.1 found.2 n, u.2)

def jstepNumber : JStep → Int
  | .http _ n _ _ => n
  | .testCaseRef _ _ _ _ _ n => n
  | .delay _ n _ => n
  | .script _ _ _ _ _ _ n => n
  | .ifStep _ _ _ n => n
  | .elseStep _ _ n => n

def setJStepNumber : JStep → Int → JStep
  | .http a _ b c, m => .http a m b c
  | .testCaseRef a b c d e _, m => .testCaseRef a b c d e m
  | .delay a _ b, m => .delay a m b
  | .script a b c d e f _, m => .script a b c d e f m
  | .ifStep a b c _, m => .ifStep a b c m
  | .elseStep a b _, m => .elseStep a b m

mutual

/-- `ApidogConverter.findStepByNumber`: first the step's own number, then
its nested children, then the rest of the list. -/
def findStepByNumber : List JStep → Int → Option JStep
  | [], _ => none
  | s :: rest, t =>
      match findStepOne s t with
      | some r => some r
      | none => findStepByNumber rest t

def findStepOne : JStep → Int → Option JStep
  | .ifStep i p c n, t =>
      if n = t then some (.ifStep i p c n) else findStepByNumber c t
  | .elseStep i c n, t =>
      if n = t then some (.elseStep i c n) else findStepByNumber c t
  | s, t => if jstepNumber s = t then some s else none

end

/-- The single-step branch of `convertLinkedSteps`: deep copy (identity
on values), relabel with the calling step's number (`copiedStep.number =
step.number || copiedStep.number`), and apply the link step's query
overrides when the copy is an http step with its case. -/
def linkCopyStep (st : CSt) (qov : List Override) (ls : JStep) (n : Int) :
    List JStep × CSt :=
  let c1 := setJStepNumber ls n
  match c1 with
  | .http nm0 num0 bid (some hc) =>
      let r := applyOverrides nameEqCS st hc.query qov
      ([.http nm0 num0 bid (some { hc with query := r.1 })], r.2)
  | _ => ([c1], st)

/-- `step.link_step || step.link_step_number` (a present `0` in
`link_step` falls through; a resulting `0` still passes the
`!== undefined && !== null` test). -/
def linkStepNumberOf (y : YLink) : Option Int :=
  match y.link_step with
  | some k => if k ≠ 0 then some k else y.link_step_number
  | none => y.link_step_number

/-- `ApidogConverter.convertLinkedSteps`.  The deep copy
(`JSON.parse(JSON.stringify(...))`) is the identity on values; the
`customHttp` branch concerns a step type the modeled documents do not
contain. -/
def convertLinkedSteps (st : CSt) (idx : Idx) (y : YLink) : List JStep × CSt :=
  match optTruthy y.link_to with
  | none => ([], st)
  | some nm =>
      match lookupStr idx.tcByName nm with
      | none => ([], st)
      | some tc =>
          match linkStepNumberOf y with
          | some target =>
              match findStepByNumber tc.tsteps target with
              | none => ([], st)
              | some ls => linkCopyStep st y.qov ls (numOr y.number (jstepNumber ls))
          | none => (tc.tsteps, st)

/-- The member names of `Object.prototype`: an index read `map[op]` on an
object literal finds these when `op` is no own key, and every one of them
is truthy (a function, or for `__proto__` the prototype object itself). -/
def objectProtoKeys : List String :=
  ["constructor", "hasOwnProperty", "isPrototypeOf", "propertyIsEnumerable",
   "toLocaleString", "toString", "valueOf", "__defineGetter__", "__defineSetter__",
   "__lookupGetter__", "__lookupSetter__", "__proto__"]

/-- `invertOperator` of `convertIfStep`: `map[op] || 'notEqual'` on the
else-branch operator table.  An own key yields its table value; a name of
an `Object.prototype` member yields the inherited member, which is truthy,
so the `|| 'notEqual'` default does not apply to it; only an `op` found
nowhere on the prototype chain reads `undefined` and falls back to
`'notEqual'`. -/
def invertOperator (op : String) : OperatorVal :=
  if op = "equal" then .str "notEqual"
  else if op = "not_equal" then .str "equal"
  else if op = "notEqual" then .str "equal"
  else if op = "greater" then .str "lessOrEqual"
  else if op = "less" then .str "greaterOrEqual"
  else if op = "greaterOrEqual" then .str "less"
  else if op = "lessOrEqual" then .str "greater"
  else if op = "contains" then .str "notContains"
  else if op = "notContains" then .str "contains"
  else if op = "exists" then .str "notExists"
  else if op = "notExists" then .str "exists"
  else if op ∈ objectProtoKeys then .protoFn op
  else .str "notEqual"

/-- The `parameters` of a converted `if` step (new format first, else the
old `condition` block). -/
def ifParamsOf (params : Option YIfParams) (condition : Option YCond) : CondParams :=
  match params with
  | some p =>
      { keyVariable := optStrOr p.keyVariable "",
        operator := optStrOr p.operator "equal",
        valueVariable := if truthy p.valueVariable then jsToString p.valueVariable else "" }
  | none =>
      match condition with
      | some c =>
          { keyVariable := optStrOr c.varName "",
            operator := optStrOr c.operator "equal",
            valueVariable := if truthy c.value then jsToString c.value else "" }
      | none => { keyVariable := "", operator := "equal", valueVariable := "" }

mutual

/-- The `yamlData.steps` loop of `ApidogConverter.convert`. -/
def convertStepList (st : CSt) (idx : Idx) : List YStep → List JStep × CSt
  | [] => ([], st)
  | y :: rest =>
      let r1 := convertTopStep st idx y
      let r2 := convertStepList r1.2 idx rest
      (r1.1 ++ r2.1, r2.2)

def convertTopStep (st : CSt) (idx : Idx) : YStep → List JStep × CSt
  | .link d => convertLinkedSteps st idx d
  | .tcref d =>
      let r := convertTestCaseRefStep st idx d
      ([r.1], r.2)
  | .http d =>
      let r := convertHttpStep st idx d
      ([r.1], r.2)
  | .yif n p c ch =>
      let prm := ifParamsOf p c
      let r := convertIfChildren st idx (numOr n 1) prm ch
      let g := generateId r.2
      ([.ifStep (toString g.1) prm.toIf r.1 (numOr n 1)], g.2)
  | .yelse n ch =>
      let r := convertElseChildren st idx ch
      let g := generateId r.2
      ([.elseStep (toString g.1) r.1 (numOr n 1)], g.2)
  | .yscript d =>
      let r := convertScriptStep st d
      ([r.1], r.2)
  | .ydelay n t du =>
      let r := convertDelayStep st n t du
      ([r.1], r.2)

/-- The children loop of `ApidogConverter.convertIfStep` (the `else` child
is rebuilt as an `if` node with the parent's inverted condition). -/
def convertIfChildren (st : CSt) (idx : Idx) (stepNumber : Int) (prm : CondParams) :
    List YStep → List JStep × CSt
  | [] => ([], st)
  | c :: rest =>
      let r1 : List JStep × CSt :=
        match c with
        | .http d =>
            let r := convertHttpStep st idx d
            ([r.1], r.2)
        | .yif n p cc ch =>
            let prm' := ifParamsOf p cc
            let r := convertIfChildren st idx (numOr n 1) prm' ch
            let g := generateId r.2
            ([.ifStep (toString g.1) (CondParams.toIf prm') r.1 (numOr n 1)], g.2)
        | .tcref d =>
            let r := convertTestCaseRefStep st idx d
            ([r.1], r.2)
        | .ydelay n t du =>
            let r := convertDelayStep st n t du
            ([r.1], r.2)
        | .link d => convertLinkedSteps st idx d
        | .yscript d =>
            let r := convertScriptStep st d
            ([r.1], r.2)
        | .yelse en ech =>
            let re := convertElseChildren st idx ech
            let g := generateId re.2
            ([.ifStep (toString g.1)
                { keyVariable := prm.keyVariable,
                  operator := invertOperator prm.operator,
                  valueVariable := prm.valueVariable }
                re.1 (numOr en (stepNumber + 1))], g.2)
      let r2 := convertIfChildren r1.2 idx stepNumber prm rest
      (r1.1 ++ r2.1, r2.2)

/-- The children loop shared by the `else` branch of `convertIfStep` and by
`convertElseStep` (a nested `else` is silently dropped). -/
def convertElseChildren (st : CSt) (idx : Idx) : List YStep → List JStep × CSt
  | [] => ([], st)
  | c :: rest =>
      let r1 : List JStep × CSt :=
        match c with
        | .http d =>
            let r := convertHttpStep st idx d
            ([r.1], r.2)
        | .yif n p cc ch =>
            let prm' := ifParamsOf p cc
            let r := convertIfChildren st idx (numOr n 1) prm' ch
            let g := generateId r.2
            ([.ifStep (toString g.1) (CondParams.toIf prm') r.1 (numOr n 1)], g.2)
        | .tcref d =>
            let r := convertTestCaseRefStep st idx d
            ([r.1], r.2)
        | .ydelay n t du =>
            let r := convertDelayStep st n t du
            ([r.1], r.2)
        | .link d => convertLinkedSteps st idx d
        | .yscript d =>
            let r := convertScriptStep st d
            ([r.1], r.2)
        | .yelse _ _ => ([], st)
      let r2 := convertElseChildren r1.2 idx rest
      (r1.1 ++ r2.1, r2.2)

end

set_option allowUnsafeReducibility true in
attribute [semireducible] convertIfChildren

set_option allowUnsafeReducibility true in
attribute [semireducible] convertElseChildren

/-- `ApidogConverter.convertIfStep`: children first, then the node's own
id (a wrapper over the mutual children loop). -/
def convertIfStep (st : CSt) (idx : Idx) (number : Option Int) (params : Option YIfParams)
    (condition : Option YCond) (children : List YStep) : JStep × CSt :=
  let n := numOr number 1
  let prm := ifParamsOf params condition
  let r := convertIfChildren st idx n prm children
  let g := generateId r.2
  (.ifStep (toString g.1) prm.toIf r.1 n, g.2)

/-- `ApidogConverter.convertElseStep` (top-level `else`). -/
def convertElseStep (st : CSt) (idx : Idx) (number : Option Int)
    (children : List YStep) : JStep × CSt :=
  let r := convertElseChildren st idx children
  let g := generateId r.2
  (.elseStep (toString g.1) r.1 (numOr number 1), g.2)

/-- The scenario-level conversion of `ApidogConverter.convert`, restricted
to its step list (the surrounding test-case envelope of options, datasets
and ids carries no claimed property).  The converter starts with
`nextId = 10000000`. -/
def convertScenarioSteps (idx : Idx) (ys : List YStep) : List JStep :=
  (convertStepList { nextId := 10000000, uuid := 0 } idx ys).1

/-! ### Reverse conversion (`ApidogReverseConverter`) -/

/-- A reverse-converted assertion. -/
structure RAssertion where
  name : String
  subject : String
  comparison : String
  value : JVal
  path : String

deriving DecidableEq

/-- A reverse-converted pre/post processor entry. -/
structure RProcessor where
  ptype : String
  enable : Bool
  default_enable : Bool
  data : JVal

deriving DecidableEq

/-- `ApidogReverseConverter.convertPostProcessorsToAssertions`. -/
def convertPostProcessorsToAssertions (ps : List Proc) : List RAssertion :=
  ps.filterMap fun p =>
    match p with
    | .assertion d _ _ =>
        some { name := strOr d.aname "",
               subject := strOr d.subject "responseJson",
               comparison := strOr d.comparison "equal",
               value := jvalOr d.value (.str ""),
               path := strOr d.path (strOr d.expression "") }
    | _ => none

/-- `ApidogReverseConverter.convertPostProcessors`: assertions are skipped,
`customScript` data is CRLF-normalized. -/
def revPostProcessors (ps : List Proc) : List RProcessor :=
  ps.filterMap fun p =>
    match p with
    | .assertion _ _ _ => none
    | .customScript s de en =>
        some { ptype := "customScript", enable := en, default_enable := de,
               data := .str (fromCRLF s) }
    | .placeholder =>
        some { ptype := "placeholder", enable := false, default_enable := false,
               data := .obj [] }
    | .other t dt de en =>
        if t = "customScript" then
          some { ptype := t, enable := en, default_enable := de,
                 data := jvalOr dt (.obj []) }
        else
          some { ptype := strOr t "unknown", enable := en, default_enable := de,
                 data := jvalOr dt (.obj []) }

/-- `ApidogReverseConverter.convertPreProcessors`: `placeholder` and
`inheritProcessors` entries are skipped. -/
def revPreProcessors (ps : List Proc) : List RProcessor :=
  ps.filterMap fun p =>
    match p with
    | .placeholder => none
    | .customScript s de en =>
        some { ptype := "customScript", enable := en, default_enable := de,
               data := .str (fromCRLF s) }
    | .assertion d de en =>
        some { ptype := "assertion", enable := en, default_enable := de,
               data := .obj [("name", .str d.aname)] }
    | .other t dt de en =>
        if t = "inheritProcessors" then none
        else some { ptype := strOr t "unknown", enable := en, default_enable := de,
                    data := jvalOr dt (.obj []) }

/-- `ApidogReverseConverter.extractParameterOverrides`.  Every call site
passes `null` originals, so the original-comparison map is empty,
`hasOverride` is falsy and `!original` is true: every parameter passing
the `!enable && !value` skip is emitted. -/
def extractParameterOverrides (ps : List Param) : List Override :=
  ps.filterMap fun p =>
    if !p.enable && !(truthy p.value) then none
    else some { name := p.name, value := jvalOr p.value (.str "") }

/-- A reverse-converted http step. -/
structure RHttp where
  number : Int
  name : String
  path : Option String
  method : Option String
  query_params_override : Option (List Override)
  path_params_override : Option (List Override)
  header_params_override : Option (List Override)
  cookie_params_override : Option (List Override)
  pre_processors : Option (List RProcessor)
  assertions : Option (List RAssertion)
  post_processors : Option (List RProcessor)
  disable_response_validation : Option Bool

deriving DecidableEq

/-- `v || d` on a stored operator value: an inherited prototype member is
truthy and survives the read unchanged. -/
def opValOr (v : OperatorVal) (d : String) : OperatorVal :=
  match v with
  | .str s => .str (strOr s d)
  | .protoFn qn => .protoFn qn

/-- A reverse-converted (YAML) step. -/
inductive RStep where
  | http (d : RHttp)
  | tcref (number : Int) (name : String) (ref_name : Option String) (ref_id : Option Int)
      (disable : Option Bool) (parameters : Option JVal)
  | rdelay (number : Int) (timeout : Int)
  | rscript (number : Int) (data : String) (name : Option String)
      (enable default_enable disable : Option Bool)
  | rif (number : Int) (varName : String) (operatorName : OperatorVal) (valueStr : String)
      (children : List RStep)

def someIfNonempty {α : Type} (l : List α) : Option (List α) :=
  match l with
  | [] => none
  | x :: xs => some (x :: xs)

/-- `ApidogReverseConverter.convertHttpStep`: a step without its
`httpApiCase` converts to nothing. -/
def revHttpStep (nm : String) (number : Int) (hc : Option HttpApiCase) : Option RHttp :=
  match hc with
  | none => none
  | some c =>
      let n := numOrI number 1
      some { number := n,
             name := strOr nm ("Step " ++ toString n),
             path := if c.path ≠ "" then some c.path else none,
             method := if c.method ≠ "" then some c.method.toUpper else none,
             query_params_override := someIfNonempty (extractParameterOverrides c.query),
             path_params_override := someIfNonempty (extractParameterOverrides c.pathParams),
             header_params_override := someIfNonempty (extractParameterOverrides c.header),
             cookie_params_override := someIfNonempty (extractParameterOverrides c.cookie),
             pre_processors := someIfNonempty (revPreProcessors c.preProcessors),
             assertions := someIfNonempty (convertPostProcessorsToAssertions c.postProcessors),
             post_processors := someIfNonempty (revPostProcessors c.postProcessors),
             disable_response_validation := if c.responseId = 0 then some true else none }

/-- `ApidogReverseConverter.convertTestCaseRefStep` (the reverse
converter's own id-keyed test-case index resolves `relatedId`). -/
def revTcRefStep (ridx : List (Int × TCase)) (dis : Bool) (parameters : JVal)
    (relatedId : Int) (nm : String) (number : Int) : RStep :=
  let n := numOrI number 1
  let stepName := strOr nm ("Step " ++ toString n)
  let rn : Option String × Option Int :=
    if relatedId ≠ 0 then
      match lookupInt ridx relatedId with
      | some tc => if tc.tname ≠ "" then (some tc.tname, none) else (none, some relatedId)
      | none => (none, some relatedId)
    else (none, none)
  .tcref n stepName rn.1 rn.2 (some dis)
    (match parameters with
     | .obj [] => none
     | .obj fs => some (.obj fs)
     | _ => none)

mutual

/-- The step loops shared by `ApidogReverseConverter.convert` and by
`convertIfStep`'s children: only `http`, `testCaseRef`, `delay`, `script`
and `if` steps convert; everything else is dropped. -/
def revStepList (ridx : List (Int × TCase)) : List JStep → List RStep
  | [] => []
  | s :: rest =>
      match revOneStep ridx s with
      | some r => r :: revStepList ridx rest
      | none => revStepList ridx rest

def revOneStep (ridx : List (Int × TCase)) : JStep → Option RStep
  | .http nm n _ hc => (revHttpStep nm n hc).map .http
  | .testCaseRef _ dis prms rel nm n => some (revTcRefStep ridx dis prms rel nm n)
  | .delay _ n t => some (.rdelay (numOrI n 1) (numOrI t 1000))
  | .script _ dis sdata de en nm n =>
      some (.rscript (numOrI n 1) (fromCRLF sdata)
        (if nm ≠ "" then some nm else none) (some en) (some de) (some dis))
  | .ifStep _ p ch n =>
      some (.rif (numOrI n 1) (strOr p.keyVariable "") (opValOr p.operator "equal")
        (strOr p.valueVariable "") (revStepList ridx ch))
  | .elseStep _ _ _ => none

end

/-! ### The parameter-heap view of `convertHttpStep` (frame effects)

The JS override loops mutate `httpApiCase.parameters.*` arrays in place;
whether the indexed endpoint definition is affected depends on whether
those arrays alias `api.parameters.*`.  To make that statable, this
fragment models the parameter arrays as references into a store: the
clone `JSON.parse(JSON.stringify(api.parameters?.query || []))` allocates
a fresh reference holding equal contents, and the override loop writes
through the case's reference only. -/

abbrev PStore := List (List Param)

def readRef (σ : PStore) (r : Nat) : List Param := (σ[r]?).getD []

def allocRef (σ : PStore) (ps : List Param) : Nat × PStore := (σ.length, σ ++ [ps])

def writeRef (σ : PStore) (r : Nat) (ps : List Param) : PStore := σ.set r ps

/-- The four parameter arrays of an indexed `api.parameters`, as
references into the store. -/
structure ApiRefs where
  query : Nat
  header : Nat
  cookie : Nat
  pathRef : Nat

deriving DecidableEq

/-- The parameters portion of `convertHttpStep` in the store model:
deep-clone the four declared arrays (in source order: query, header,
cookie, path) into fresh case arrays, then run the query override loop
against the case's query array. -/
def convertHttpParamsHeap (σ : PStore) (a : ApiRefs) (st : CSt) (qov : List Override) :
    ApiRefs × PStore × CSt :=
  let c1 := allocRef σ (readRef σ a.query)
  let c2 := allocRef c1.2 (readRef c1.2 a.header)
  let c3 := allocRef c2.2 (readRef c2.2 a.cookie)
  let c4 := allocRef c3.2 (readRef c3.2 a.pathRef)
  let r := applyOverrides nameEqCS st (readRef c4.2 c1.1) qov
  (⟨c1.1, c2.1, c3.1, c4.1⟩, writeRef c4.2 c1.1 r.1, r.2)

/-- The endpoint's references are genuine (allocated) store cells. -/
def ValidRefs (a : ApiRefs) (σ : PStore) : Prop :=
  a.query < σ.length ∧ a.header < σ.length ∧ a.cookie < σ.length ∧ a.pathRef < σ.length

/-- The step kinds `ApidogReverseConverter.convert` (and the `if`
children loop) converts: `http` (only with its `httpApiCase` present),
`testCaseRef`, `delay`, `script` and `if`. -/
def handledStep : JStep → Bool
  | .http _ _ _ hc => hc.isSome
  | .elseStep _ _ _ => false
  | _ => true

mutual

/-- `collectAllStepNumbers`: every step number of a step tree, the step's
own number before its children's. -/
def stepNumbersList : List JStep → List Int
  | [] => []
  | s :: rest => stepNumbersOne s ++ stepNumbersList rest

def stepNumbersOne : JStep → List Int
  | .ifStep _ _ c n => n :: stepNumbersList c
  | .elseStep _ c n => n :: stepNumbersList c
  | s => [jstepNumber s]

end

/-! ### Deletion overrides (claim C5 lemma layer) -/

def jstepQuery : JStep → List Param
  | .http _ _ _ (some hc) => hc.query
  | _ => []

/-- The net field transformation of one assertion through forward
conversion and reverse extraction. -/
def assertView (a : Assertion) : RAssertion :=
  { name := optStrOr a.aname "",
    subject := optStrOr a.subject "responseJson",
    comparison := optStrOr a.comparison (optStrOr a.operator "equal"),
    value := jvalOr a.value (.str ""),
    path := optStrOr a.path "" }

/-- `o` holds a nonzero number (`o || d` then returns it unchanged). -/
def optNumPresent (o : Option Int) : Bool :=
  match o with
  | some k => decide (k ≠ 0)
  | none => false

/-- `o` holds a nonempty string (`o || d` then returns it unchanged). -/
def optPresent (o : Option String) : Bool :=
  match o with
  | some s => decide (s ≠ "")
  | none => false

/-- All five read fields of an assertion are present and truthy, so none of
the `x || default` reads substitutes a default. -/
def assertPresent (a : Assertion) : Bool :=
  optPresent a.aname && optPresent a.subject && optPresent a.comparison &&
  truthy a.value && optPresent a.path

/-- Hygiene of a scenario step for the round-trip claim: only `http` and
`delay` steps, with present nonzero numbers, present names, pairwise
distinct truthy-valued query overrides and fully present assertions. -/
def c4Hyg : YStep → Bool
  | .http d =>
      optNumPresent d.number && optPresent d.name &&
      decide ((d.qov.map (fun o => o.name)).Nodup) &&
      d.qov.all (fun o => truthy o.value) &&
      d.assertions.all assertPresent
  | .ydelay n _ _ => optNumPresent n
  | .yif _ _ _ _ => false
  | .yelse _ _ => false
  | .yscript _ => false
  | .tcref _ => false
  | .link _ => false

/-- Field agreement of an original assertion with its round-tripped image:
name, subject, comparison, value and path all survive. -/
def AssertAgree (a : Assertion) (ra : RAssertion) : Prop :=
  a.aname = some ra.name ∧ a.subject = some ra.subject ∧
  a.comparison = some ra.comparison ∧ ra.value = a.value ∧ a.path = some ra.path

/-- Agreement of an original scenario step with its round-tripped image:
the number and name survive, every query override reappears verbatim in
the reversed overrides, and the assertions survive pointwise. -/
def StepAgree : YStep → RStep → Prop
  | .http d, .http r =>
      d.number = some r.number ∧ d.name = some r.name ∧
      (∀ o ∈ d.qov, ∃ l, r.query_params_override = some l ∧ o ∈ l) ∧
      List.Forall₂ AssertAgree d.assertions ((r.assertions).getD [])
  | .ydelay n t du, .rdelay n' t' => n = some n' ∧ numOr t (numOr du 1000) = t'
  | _, _ => False

/-- The endpoint resolution of `convertHttpStep` (path first, then name),
as a standalone value. -/
def apiItemOf (idx : Idx) (y : YHttp) : Option ApiData :=
  match (match optTruthy y.path with
         | some p => findApiByMethodAndPath idx (optTruthy y.method) p
         | none => none) with
  | some a => some a
  | none => findApiByNameAndPath idx (stepNameOf y.name (numOr y.number 1))

/-! ## The ten claims: theorems, counterexamples and witnesses -/

def emptyIdx : Idx := { byPathItems := [], defs := [], tcByName := [], tcById := [] }

def cSt0 : CSt := { nextId := 10000000, uuid := 0 }

def c1dup : MDoc :=
  { rootItems := [.obj [("id", .num 5), ("name", .str "a")],
                  .obj [("id", .num 5), ("name", .str "b")]],
    folders := [], rest := .null }

def c1wdoc : MDoc :=
  { rootItems := [.obj [("id", .num 5), ("name", .str "a")]], folders := [], rest := .null }

def c1wT : List JVal := [.obj [("id", .num 6), ("name", .str "b")]]

def c2tc : JVal := .obj [("a", .obj [("id", .num 5)]), ("b", .obj [("id", .num 5)])]

def c3doc : MDoc :=
  { rootItems := [],
    folders := [ { fname := some (.str "F"),
                   items := [.obj [("name", .str "n"), ("id", .num 1)]], frest := [] },
                 { fname := some (.str "F"), items := [], frest := [] } ],
    rest := .null }

def c3T : List JVal := [.obj [("name", .str "n"), ("_folder", .str "F"), ("id", .num 2)]]

def c3wdoc : MDoc := { rootItems := [], folders := [], rest := .null }

def ystepAssertValues : YStep → List JVal
  | .http d => d.assertions.map (fun a => a.value)
  | _ => []

def rstepAssertValues : RStep → List JVal
  | .http r => ((r.assertions).getD []).map (fun a => a.value)
  | _ => []

def c4Bad : YStep := .http
  { number := some 1, name := some "A", path := none, method := none, qov := [],
    assertions := [{ aname := some "a", subject := some "responseJson",
                     comparison := some "equal", operator := none,
                     value := .num 0, path := some "$.x" }],
    drv := none, rv := none }

def c4w : List YStep :=
  [.http { number := some 1, name := some "A", path := none, method := none,
           qov := [⟨"q", .str "v"⟩],
           assertions := [{ aname := some "a", subject := some "responseJson",
                            comparison := some "equal", operator := none,
                            value := .str "1", path := some "$.x" }],
           drv := none, rv := none },
   .ydelay (some 2) (some 500) none]

def c5api : ApiData :=
  { aid := some 1, method := some "get", path := some "/a", respIds := [],
    query := [ { pid := "p1", name := "foo", required := false, enable := true,
                 value := .str "bar", ptype := "string", descr := "" },
               { pid := "p2", name := "foo", required := false, enable := true,
                 value := .str "baz", ptype := "string", descr := "" } ],
    header := [], cookie := [], pathParams := [] }

def c5idx : Idx := { byPathItems := [], defs := [("A", c5api)], tcByName := [], tcById := [] }

def c5y : YHttp :=
  { number := some 1, name := some "A", path := none, method := none,
    qov := [⟨"foo", JVal.null⟩], assertions := [], drv := none, rv := none }

def c5wapi : ApiData :=
  { aid := some 1, method := some "get", path := some "/a", respIds := [],
    query := [ { pid := "p1", name := "foo", required := false, enable := true,
                 value := .str "bar", ptype := "string", descr := "" } ],
    header := [], cookie := [], pathParams := [] }

def c5widx : Idx := { byPathItems := [], defs := [("A", c5wapi)], tcByName := [], tcById := [] }

def jstepChildren : JStep → List JStep
  | .ifStep _ _ ch _ => ch
  | .elseStep _ ch _ => ch
  | _ => []

def jstepIfOperator : JStep → OperatorVal
  | .ifStep _ prm _ _ => prm.operator
  | _ => .str ""

def c7tc : TCase :=
  { tid := some 9, tname := "T", tsteps := [.delay "d1" 0 100, .delay "d2" 1 200] }

def c7idx : Idx := { byPathItems := [], defs := [], tcByName := [("T", c7tc)], tcById := [] }

def c7link : YLink := { number := some 3, link_to := some "T", link_step := some 0,
                        link_step_number := none, qov := [] }

def c7wlink : YLink := { number := some 3, link_to := some "T", link_step := some 1,
                         link_step_number := none, qov := [] }

def c8d : YRef := { number := some 1, name := some "R", ref_name := none, ref_id := some 5,
                    disable := none, parameters := .null }

def c8tc : TCase :=
  { tid := some 4, tname := "T", tsteps := [.delay "d1" 1 100, .delay "d2" 2 200] }

def c8idx : Idx := { byPathItems := [], defs := [], tcByName := [("T", c8tc)], tcById := [] }

def c8y : YLink := { number := some 2, link_to := some "T", link_step := some 7,
                     link_step_number := none, qov := [] }

def c9store : PStore :=
  [[{ pid := "p", name := "q1", required := false, enable := true,
      value := .str "v", ptype := "string", descr := "" }], [], [], []]

def c9refs : ApiRefs := { query := 0, header := 1, cookie := 2, pathRef := 3 }

def jstepIsHttpType : JStep → Bool
  | .http _ _ _ _ => true
  | _ => false

/-! ## Theorems -/

theorem filter_ge_split (n : Int) (l : List Int) :
    (l.filter fun x => decide (n ≤ x)).length =
    (l.filter fun x => decide (n + 1 ≤ x)).length + (l.countP fun x => decide (x = n)) := by
  induction l with
  | nil => simp
  | cons a t ih =>
    simp only [List.filter_cons, List.countP_cons]
    split_ifs <;> simp_all only [decide_eq_true_eq, List.length_cons] <;> omega

theorem filter_ge_succ_lt (used : List Int) (n : Int) (h : n ∈ used) :
    (used.filter (fun x => decide (n + 1 ≤ x))).length <
    (used.filter (fun x => decide (n ≤ x))).length := by
  have hsplit := filter_ge_split n used
  have hpos : 0 < used.countP fun x => decide (x = n) :=
    List.countP_pos_iff.mpr ⟨n, h, by simp⟩
  omega

theorem nextFreeAux_spec (fuel : Nat) (used : List Int) (n : Int)
    (h : (used.filter (fun x => decide (n ≤ x))).length < fuel) :
    nextFreeAux fuel used n ∉ used ∧ n ≤ nextFreeAux fuel used n := by
  induction fuel generalizing n with
  | zero => omega
  | succ f ih =>
    rw [nextFreeAux]
    by_cases hn : n ∈ used
    · rw [if_pos hn]
      have hlt := filter_ge_succ_lt used n hn
      have hrec := ih (n + 1) (by omega)
      exact ⟨hrec.1, by omega⟩
    · rw [if_neg hn]
      exact ⟨hn, le_refl n⟩

theorem nextFree_not_mem (used : List Int) (n : Int) : nextFree used n ∉ used := by
  have hle : (used.filter (fun x => decide (n ≤ x))).length ≤ used.length :=
    List.length_filter_le _ _
  exact (nextFreeAux_spec _ _ _ (by omega)).1

theorem nextFree_ge (used : List Int) (n : Int) : n ≤ nextFree used n := by
  have hle : (used.filter (fun x => decide (n ≤ x))).length ≤ used.length :=
    List.length_filter_le _ _
  exact (nextFreeAux_spec _ _ _ (by omega)).2

/-! ## Merger lemmas: id traversal bookkeeping -/

theorem jvalIdsList_append (xs ys : List JVal) :
    jvalIdsList (xs ++ ys) = jvalIdsList xs ++ jvalIdsList ys := by
  induction xs with
  | nil => simp [jvalIdsList]
  | cons v vs ih => simp [jvalIdsList, ih]

theorem jvalIdsFields_append (xs ys : List (String × JVal)) :
    jvalIdsFields (xs ++ ys) = jvalIdsFields xs ++ jvalIdsFields ys := by
  induction xs with
  | nil => simp [jvalIdsFields]
  | cons p vs ih =>
      obtain ⟨k, v⟩ := p
      simp [jvalIdsFields, ih]

theorem jvalIdsList_eq_flatMap (xs : List JVal) :
    jvalIdsList xs = xs.flatMap jvalIds := by
  induction xs with
  | nil => simp [jvalIdsList]
  | cons v vs ih => simp [jvalIdsList, ih]

theorem jvalIds_replicate_null (n : Nat) :
    jvalIdsList (List.replicate n JVal.null) = [] := by
  induction n with
  | zero => simp [jvalIdsList]
  | succ m ih => simp [List.replicate, jvalIdsList, jvalIds, ih]

theorem isIdNum_true {k : String} {v : JVal} (h : isIdNum k v = true) :
    k = "id" ∧ ∃ n, v = JVal.num n := by
  unfold isIdNum at h
  rcases Bool.and_eq_true .. |>.mp h with ⟨h1, h2⟩
  refine ⟨by simpa using h1, ?_⟩
  cases v <;> simp_all

theorem isIdNum_false {k : String} {v : JVal} (h : isIdNum k v = false) :
    ∀ n : Int, k = "id" → v = JVal.num n → False := by
  intro n h1 h2
  subst h1; subst h2
  simp [isIdNum] at h

theorem jvalIdsFields_cons_id (n : Int) (fs : List (String × JVal)) :
    jvalIdsFields (("id", .num n) :: fs) = n :: jvalIdsFields fs := by
  rw [jvalIdsFields]
  simp [jvalIds]

theorem jvalIdsFields_cons_ne {k : String} {v : JVal} (h : isIdNum k v = false)
    (fs : List (String × JVal)) :
    jvalIdsFields ((k, v) :: fs) = jvalIds v ++ jvalIdsFields fs := by
  rw [jvalIdsFields]
  · simp
  · exact isIdNum_false h

theorem collectIdsFields_cons_id (n : Int) (fs : List (String × JVal)) :
    collectIdsFields (("id", .num n) :: fs) =
      (if n ≠ 0 then [n] else []) ++ collectIdsFields fs := by
  rw [collectIdsFields]
  simp [collectIds]

theorem collectIdsFields_cons_ne {k : String} {v : JVal} (h : isIdNum k v = false)
    (fs : List (String × JVal)) :
    collectIdsFields ((k, v) :: fs) = collectIds v ++ collectIdsFields fs := by
  rw [collectIdsFields]
  · simp
  · exact isIdNum_false h

theorem reassignFields_cons_id (s : RState) (n : Int) (fs : List (String × JVal)) :
    reassignFields s (("id", .num n) :: fs) =
      (("id", .num (reassignId s n).1) :: (reassignFields (reassignId s n).2 fs).1,
       (reassignFields (reassignId s n).2 fs).2) := by
  rw [reassignFields]

theorem reassignFields_cons_ne {k : String} {v : JVal} (h : isIdNum k v = false)
    (s : RState) (fs : List (String × JVal)) :
    reassignFields s ((k, v) :: fs) =
      ((k, (reassignVal s v).1) :: (reassignFields (reassignVal s v).2 fs).1,
       (reassignFields (reassignVal s v).2 fs).2) := by
  rw [reassignFields]
  exact isIdNum_false h

mutual

theorem collect_eq_filter (v : JVal) :
    collectIds v = (jvalIds v).filter (fun n => n ≠ 0) := by
  cases v with
  | obj fs => simpa [collectIds, jvalIds] using collect_eq_filter_fields fs
  | arr xs => simpa [collectIds, jvalIds] using collect_eq_filter_list xs
  | null => simp [collectIds, jvalIds]
  | bool b => simp [collectIds, jvalIds]
  | num n => simp [collectIds, jvalIds]
  | str s => simp [collectIds, jvalIds]

theorem collect_eq_filter_list (xs : List JVal) :
    collectIdsList xs = (jvalIdsList xs).filter (fun n => n ≠ 0) := by
  cases xs with
  | nil => simp [collectIdsList, jvalIdsList]
  | cons v vs =>
      rw [collectIdsList, jvalIdsList, List.filter_append,
        collect_eq_filter v, collect_eq_filter_list vs]

theorem collect_eq_filter_fields (fs : List (String × JVal)) :
    collectIdsFields fs = (jvalIdsFields fs).filter (fun n => n ≠ 0) := by
  cases fs with
  | nil => simp [collectIdsFields, jvalIdsFields]
  | cons p rest =>
      obtain ⟨k, v⟩ := p
      cases hkv : isIdNum k v with
      | true =>
          obtain ⟨hk, n, hv⟩ := isIdNum_true hkv
          subst hk; subst hv
          rw [collectIdsFields_cons_id, jvalIdsFields_cons_id, List.filter_cons,
            collect_eq_filter_fields rest]
          by_cases hn : n = 0 <;> simp [hn]
      | false =>
          rw [collectIdsFields_cons_ne hkv, jvalIdsFields_cons_ne hkv, List.filter_append,
            collect_eq_filter v, collect_eq_filter_fields rest]

end

theorem mem_collect_of_mem_ids {x : Int} {v : JVal} (h : x ∈ jvalIds v) (hx : x ≠ 0) :
    x ∈ collectIds v := by
  rw [collect_eq_filter]
  exact List.mem_filter.mpr ⟨h, by simpa using hx⟩

theorem mem_collectList_of_mem_ids {x : Int} {xs : List JVal} (h : x ∈ jvalIdsList xs)
    (hx : x ≠ 0) : x ∈ collectIdsList xs := by
  rw [collect_eq_filter_list]
  exact List.mem_filter.mpr ⟨h, by simpa using hx⟩

theorem mem_collectFields_of_mem_ids {x : Int} {fs : List (String × JVal)}
    (h : x ∈ jvalIdsFields fs) (hx : x ≠ 0) : x ∈ collectIdsFields fs := by
  rw [collect_eq_filter_fields]
  exact List.mem_filter.mpr ⟨h, by simpa using hx⟩

theorem jvalIdsFields_sublist {fs' fs : List (String × JVal)} (h : fs'.Sublist fs) :
    (jvalIdsFields fs').Sublist (jvalIdsFields fs) := by
  induction h with
  | slnil => simp [jvalIdsFields]
  | @cons l₁ l₂ p _ ih =>
      obtain ⟨k, v⟩ := p
      cases hkv : isIdNum k v with
      | true =>
          obtain ⟨hk, n, hv⟩ := isIdNum_true hkv
          subst hk; subst hv
          rw [jvalIdsFields_cons_id]
          exact ih.trans (List.sublist_cons_self _ _)
      | false =>
          rw [jvalIdsFields_cons_ne hkv]
          exact ih.trans (List.sublist_append_right _ _)
  | @cons₂ l₁ l₂ p _ ih =>
      obtain ⟨k, v⟩ := p
      cases hkv : isIdNum k v with
      | true =>
          obtain ⟨hk, n, hv⟩ := isIdNum_true hkv
          subst hk; subst hv
          rw [jvalIdsFields_cons_id, jvalIdsFields_cons_id]
          exact ih.cons₂ _
      | false =>
          rw [jvalIdsFields_cons_ne hkv, jvalIdsFields_cons_ne hkv]
          exact List.Sublist.append_left ih _

theorem jvalIds_delField (v : JVal) (k : String) :
    (jvalIds (delField v k)).Sublist (jvalIds v) := by
  cases v with
  | obj fs =>
      simp only [delField, jvalIds]
      exact jvalIdsFields_sublist (List.filter_sublist fs)
  | arr xs => simp [delField]
  | null => simp [delField]
  | bool b => simp [delField]
  | num n => simp [delField]
  | str s => simp [delField]

theorem lookupMap_eq_none {m : List (Int × Int)} {v : Int} :
    lookupMap m v = none ↔ v ∉ mapDom m := by
  simp only [lookupMap, Option.map_eq_none', List.find?_eq_none, mapDom, List.mem_map]
  constructor
  · rintro h ⟨p, hp, rfl⟩
    exact absurd (by simp) (h p hp)
  · intro h p hp
    by_contra hc
    exact h ⟨p, hp, by simpa using hc⟩

theorem lookupMap_mem {m : List (Int × Int)} {v w : Int} (h : lookupMap m v = some w) :
    (v, w) ∈ m := by
  obtain ⟨p, hp, hw⟩ := by simpa only [lookupMap, Option.map_eq_some'] using h
  have h1 := List.find?_some hp
  have h2 := List.mem_of_find?_eq_some hp
  have hpv : p = (v, w) := by
    obtain ⟨a, b⟩ := p
    simp at h1 hw
    simp [h1, hw]
  rwa [hpv] at h2

theorem ReassignOut.nilOut (s : RState) : ReassignOut s [] [] s :=
  ⟨fun _ h => h, fun x hx => Or.inl hx, List.nodup_nil, fun b hb => absurd hb (by simp)⟩

theorem ReassignOut.comp {s s₁ s₂ : RState} {ins₁ outs₁ ins₂ outs₂ : List Int}
    (hA : ReassignOut s ins₁ outs₁ s₁) (hB : ReassignOut s₁ ins₂ outs₂ s₂) :
    ReassignOut s (ins₁ ++ ins₂) (outs₁ ++ outs₂) s₂ := by
  obtain ⟨a1, a2, a3, a4⟩ := hA
  obtain ⟨b1, b2, b3, b4⟩ := hB
  refine ⟨a1.trans b1, ?_, ?_, ?_⟩
  · intro x hx
    rcases b2 x hx with h | h
    · rcases a2 x h with h' | h'
      · exact Or.inl h'
      · exact Or.inr (List.mem_append.mpr (Or.inl h'))
    · exact Or.inr (List.mem_append.mpr (Or.inr h))
  · rw [List.nodup_append]
    refine ⟨a3, b3, ?_⟩
    intro a ha hb
    exact (b4 a hb).2 ((a4 a ha).1)
  · intro b hb
    rcases List.mem_append.mp hb with h | h
    · exact ⟨b1 (a4 b h).1, (a4 b h).2⟩
    · exact ⟨(b4 b h).1, fun hc => (b4 b h).2 (a1 hc)⟩

/-- Rebuilding a value never changes which constructor it has, so the
`id`-cell discriminator is stable under reassignment. -/
theorem isIdNum_reassignVal (s : RState) {k : String} {v : JVal} :
    isIdNum k (reassignVal s v).1 = isIdNum k v := by
  cases v <;> simp [reassignVal, isIdNum]

theorem reassignId_spec (s : RState) (n : Int) (hd : n ∉ mapDom s.idMap) :
    ReassignOut s [n] [(reassignId s n).1] (reassignId s n).2 := by
  unfold reassignId
  by_cases hn : n ∈ s.used
  · rw [lookupMap_eq_none.mpr hd]
    simp only [hn, if_pos, getNextId]
    refine ⟨?_, ?_, by simp, ?_⟩
    · intro x hx; exact List.mem_cons_of_mem _ hx
    · intro x hx
      rcases List.mem_cons.mp hx with h | h
      · exact Or.inr (by simp [h])
      · exact Or.inl h
    · intro b hb
      rcases List.mem_singleton.mp hb with rfl
      exact ⟨List.mem_cons_self _ _, nextFree_not_mem _ _⟩
  · simp only [hn, if_neg, if_false]
    refine ⟨?_, ?_, by simp, ?_⟩
    · intro x hx; exact List.mem_cons_of_mem _ hx
    · intro x hx; exact Or.inl hx
    · intro b hb
      rcases List.mem_singleton.mp hb with rfl
      exact ⟨List.mem_cons_self _ _, hn⟩

mutual

theorem reassign_nodup_val (s : RState) (v : JVal)
    (h1 : (jvalIds v).Nodup)
    (h2 : ∀ x ∈ jvalIds v, x ∉ mapDom s.idMap) :
    ReassignOut s (jvalIds v) (jvalIds (reassignVal s v).1) (reassignVal s v).2 := by
  cases v with
  | obj fs =>
      rw [reassignVal]
      simpa [jvalIds] using reassign_nodup_fields s fs (by simpa [jvalIds] using h1)
        (by simpa [jvalIds] using h2)
  | arr xs =>
      rw [reassignVal]
      simpa [jvalIds] using reassign_nodup_list s xs (by simpa [jvalIds] using h1)
        (by simpa [jvalIds] using h2)
  | null => simpa [reassignVal, jvalIds] using ReassignOut.nilOut s
  | bool b => simpa [reassignVal, jvalIds] using ReassignOut.nilOut s
  | num n => simpa [reassignVal, jvalIds] using ReassignOut.nilOut s
  | str t => simpa [reassignVal, jvalIds] using ReassignOut.nilOut s

theorem reassign_nodup_list (s : RState) (xs : List JVal)
    (h1 : (jvalIdsList xs).Nodup)
    (h2 : ∀ x ∈ jvalIdsList xs, x ∉ mapDom s.idMap) :
    ReassignOut s (jvalIdsList xs) (jvalIdsList (reassignList s xs).1)
      (reassignList s xs).2 := by
  cases xs with
  | nil => simpa [reassignList, jvalIdsList] using ReassignOut.nilOut s
  | cons v vs =>
      rw [reassignList]
      rw [jvalIdsList] at h1 h2 ⊢
      rw [List.nodup_append] at h1
      obtain ⟨h1a, h1b, h1c⟩ := h1
      have hA := reassign_nodup_val s v h1a
        (fun x hx => h2 x (List.mem_append.mpr (Or.inl hx)))
      have hB := reassign_nodup_list (reassignVal s v).2 vs h1b (by
        intro x hx
        intro hdom
        rcases hA.2.1 x hdom with h | h
        · exact h2 x (List.mem_append.mpr (Or.inr hx)) h
        · exact h1c h hx)
      simpa [jvalIdsList] using hA.comp hB

theorem reassign_nodup_fields (s : RState) (fs : List (String × JVal))
    (h1 : (jvalIdsFields fs).Nodup)
    (h2 : ∀ x ∈ jvalIdsFields fs, x ∉ mapDom s.idMap) :
    ReassignOut s (jvalIdsFields fs) (jvalIdsFields (reassignFields s fs).1)
      (reassignFields s fs).2 := by
  cases fs with
  | nil => simpa [reassignFields, jvalIdsFields] using ReassignOut.nilOut s
  | cons p rest =>
      obtain ⟨k, v⟩ := p
      cases hkv : isIdNum k v with
      | true =>
          obtain ⟨hk, n, hv⟩ := isIdNum_true hkv
          subst hk; subst hv
          rw [reassignFields_cons_id]
          rw [jvalIdsFields_cons_id] at h1 h2
          have h1' := List.nodup_cons.mp h1
          have hA := reassignId_spec s n (h2 n (List.mem_cons_self _ _))
          have hB := reassign_nodup_fields (reassignId s n).2 rest h1'.2 (by
            intro x hx hdom
            rcases hA.2.1 x hdom with h | h
            · exact h2 x (List.mem_cons_of_mem _ hx) h
            · rcases List.mem_singleton.mp h with rfl
              exact h1'.1 hx)
          have := hA.comp hB
          simpa [jvalIdsFields_cons_id] using this
      | false =>
          rw [reassignFields_cons_ne hkv, jvalIdsFields_cons_ne hkv]
          rw [jvalIdsFields_cons_ne hkv] at h1 h2
          rw [List.nodup_append] at h1
          obtain ⟨h1a, h1b, h1c⟩ := h1
          have hA := reassign_nodup_val s v h1a
            (fun x hx => h2 x (List.mem_append.mpr (Or.inl hx)))
          have hB := reassign_nodup_fields (reassignVal s v).2 rest h1b (by
            intro x hx hdom
            rcases hA.2.1 x hdom with h | h
            · exact h2 x (List.mem_append.mpr (Or.inr hx)) h
            · exact h1c h hx)
          have := hA.comp hB
          simpa [jvalIdsFields_cons_ne (isIdNum_reassignVal s ▸ hkv)] using this

end

theorem lookup_of_mem_nodup {m : List (Int × Int)} {p : Int × Int}
    (hnd : (mapDom m).Nodup) (hp : p ∈ m) : lookupMap m p.1 = some p.2 := by
  induction m with
  | nil => cases hp
  | cons q rest ih =>
      rcases List.mem_cons.mp hp with rfl | hp'
      · simp [lookupMap]
      · have hq : q.1 ≠ p.1 := by
          intro he
          have : p.1 ∈ mapDom rest := List.mem_map.mpr ⟨p, hp', rfl⟩
          rw [← he] at this
          exact (List.nodup_cons.mp hnd).1 this
        have := ih (List.nodup_cons.mp hnd).2 hp'
        simpa [lookupMap, List.find?, hq] using this

theorem submap_refl {m : List (Int × Int)} (hnd : (mapDom m).Nodup) : Submap m m :=
  fun _ hp => lookup_of_mem_nodup hnd hp

theorem POut.mono {u₀ : List Int} {m m' : List (Int × Int)} {u u' : List Int} {a b : Int}
    (h : POut u₀ m u a b) (hm : Submap m m') (hd : mapDom m ⊆ mapDom m') (hu : u ⊆ u') :
    POut u₀ m' u' a b := by
  obtain ⟨h1, h2, h3⟩ := h
  refine ⟨?_, ?_, hu h3⟩
  · intro ha
    obtain ⟨hl, hf⟩ := h1 ha
    exact ⟨hm _ (lookupMap_mem hl), hf⟩
  · intro ha hd'
    exact h2 ha (fun hc => hd' (hd hc))

theorem ConsistOut.nilConsist {u₀ : List Int} {s : RState} (hg : GoodR u₀ s) :
    ConsistOut u₀ s [] [] s :=
  ⟨hg, fun _ h => h, submap_refl hg.2.2, fun _ h => h, List.Forall₂.nil⟩

theorem ConsistOut.compose {u₀ : List Int} {s s₁ s₂ : RState} {ins₁ outs₁ ins₂ outs₂ : List Int}
    (hA : ConsistOut u₀ s ins₁ outs₁ s₁) (hB : ConsistOut u₀ s₁ ins₂ outs₂ s₂) :
    ConsistOut u₀ s (ins₁ ++ ins₂) (outs₁ ++ outs₂) s₂ := by
  obtain ⟨ag, a1, a2, a3, a4⟩ := hA
  obtain ⟨bg, b1, b2, b3, b4⟩ := hB
  refine ⟨bg, a1.trans b1, ?_, a3.trans b3, ?_⟩
  · intro p hp
    exact b2 _ (lookupMap_mem (a2 p hp))
  · refine List.rel_append (List.Forall₂.imp ?_ a4) b4
    intro a b hab
    exact hab.mono b2 b3 b1

theorem reassignId_consist (u₀ : List Int) (s : RState) (n : Int) (hg : GoodR u₀ s) :
    ConsistOut u₀ s [n] [(reassignId s n).1] (reassignId s n).2 := by
  obtain ⟨hg1, hg2, hg3⟩ := hg
  unfold reassignId
  by_cases hn : n ∈ s.used
  · rw [if_pos hn]
    cases hl : lookupMap s.idMap n with
    | some w =>
        refine ⟨⟨hg1, hg2, hg3⟩, fun _ h => h, submap_refl hg3, fun _ h => h, ?_⟩
        refine List.Forall₂.cons ⟨?_, ?_, ?_⟩ List.Forall₂.nil
        · intro _
          exact ⟨hl, (hg2 _ (lookupMap_mem hl)).1⟩
        · intro _ hd
          exact absurd (List.mem_map.mpr ⟨(n, w), lookupMap_mem hl, rfl⟩) hd
        · exact (hg2 _ (lookupMap_mem hl)).2
    | none =>
        have hnd : n ∉ mapDom s.idMap := lookupMap_eq_none.mp hl
        simp only [getNextId]
        refine ⟨⟨?_, ?_, ?_⟩, ?_, ?_, ?_, ?_⟩
        · exact fun x hx => List.mem_cons_of_mem _ (hg1 hx)
        · intro p hp
          rcases List.mem_cons.mp hp with rfl | hp'
          · exact ⟨fun hc => nextFree_not_mem s.used s.next (hg1 hc),
              List.mem_cons_self _ _⟩
          · exact ⟨(hg2 p hp').1, List.mem_cons_of_mem _ (hg2 p hp').2⟩
        · exact List.nodup_cons.mpr ⟨hnd, hg3⟩
        · exact fun x hx => List.mem_cons_of_mem _ hx
        · intro p hp
          have hne : p.1 ≠ n := by
            intro he
            exact hnd (he ▸ List.mem_map.mpr ⟨p, hp, rfl⟩)
          have := lookup_of_mem_nodup hg3 hp
          simpa [lookupMap, List.find?, Ne.symm hne] using this
        · exact fun x hx => List.mem_cons_of_mem _ hx
        · refine List.Forall₂.cons ⟨?_, ?_, ?_⟩ List.Forall₂.nil
          · intro _
            exact ⟨by simp [lookupMap],
              fun hc => nextFree_not_mem s.used s.next (hg1 hc)⟩
          · intro _ hd
            exact absurd (by simp [mapDom]) hd
          · exact List.mem_cons_self _ _
  · rw [if_neg hn]
    refine ⟨⟨?_, ?_, hg3⟩, ?_, submap_refl hg3, fun _ h => h, ?_⟩
    · exact fun x hx => List.mem_cons_of_mem _ (hg1 hx)
    · exact fun p hp => ⟨(hg2 p hp).1, List.mem_cons_of_mem _ (hg2 p hp).2⟩
    · exact fun x hx => List.mem_cons_of_mem _ hx
    · refine List.Forall₂.cons ⟨?_, ?_, ?_⟩ List.Forall₂.nil
      · intro ha
        exact absurd (hg1 ha) hn
      · intro _ _
        rfl
      · exact List.mem_cons_self _ _

mutual

theorem reassign_consist_val (u₀ : List Int) (s : RState) (v : JVal) (hg : GoodR u₀ s) :
    ConsistOut u₀ s (jvalIds v) (jvalIds (reassignVal s v).1) (reassignVal s v).2 := by
  cases v with
  | obj fs =>
      rw [reassignVal]
      simpa [jvalIds] using reassign_consist_fields u₀ s fs hg
  | arr xs =>
      rw [reassignVal]
      simpa [jvalIds] using reassign_consist_list u₀ s xs hg
  | null => simpa [reassignVal, jvalIds] using ConsistOut.nilConsist hg
  | bool b => simpa [reassignVal, jvalIds] using ConsistOut.nilConsist hg
  | num n => simpa [reassignVal, jvalIds] using ConsistOut.nilConsist hg
  | str t => simpa [reassignVal, jvalIds] using ConsistOut.nilConsist hg

theorem reassign_consist_list (u₀ : List Int) (s : RState) (xs : List JVal) (hg : GoodR u₀ s) :
    ConsistOut u₀ s (jvalIdsList xs) (jvalIdsList (reassignList s xs).1)
      (reassignList s xs).2 := by
  cases xs with
  | nil => simpa [reassignList, jvalIdsList] using ConsistOut.nilConsist hg
  | cons v vs =>
      rw [reassignList]
      have hA := reassign_consist_val u₀ s v hg
      have hB := reassign_consist_list u₀ (reassignVal s v).2 vs hA.1
      simpa [jvalIdsList] using hA.compose hB

theorem reassign_consist_fields (u₀ : List Int) (s : RState) (fs : List (String × JVal))
    (hg : GoodR u₀ s) :
    ConsistOut u₀ s (jvalIdsFields fs) (jvalIdsFields (reassignFields s fs).1)
      (reassignFields s fs).2 := by
  cases fs with
  | nil => simpa [reassignFields, jvalIdsFields] using ConsistOut.nilConsist hg
  | cons p rest =>
      obtain ⟨k, v⟩ := p
      cases hkv : isIdNum k v with
      | true =>
          obtain ⟨hk, n, hv⟩ := isIdNum_true hkv
          subst hk; subst hv
          rw [reassignFields_cons_id, jvalIdsFields_cons_id]
          have hA := reassignId_consist u₀ s n hg
          have hB := reassign_consist_fields u₀ (reassignId s n).2 rest hA.1
          simpa [jvalIdsFields_cons_id] using hA.compose hB
      | false =>
          rw [reassignFields_cons_ne hkv, jvalIdsFields_cons_ne hkv]
          have hA := reassign_consist_val u₀ s v hg
          have hB := reassign_consist_fields u₀ (reassignVal s v).2 rest hA.1
          simpa [jvalIdsFields_cons_ne (isIdNum_reassignVal s ▸ hkv)] using hA.compose hB

end

/-! ## Document-level id uniqueness (claim C1) -/

/-- Grafting a fresh middle segment into a duplicate-free, used-covered
list: if the original splits as `old ++ R` up to permutation, the new list
splits as `mid ++ R`, and `mid` is duplicate-free and disjoint from the old
used set, then the new list is duplicate-free and covered by the new used
set. -/
theorem graft_inv {orig new : List Int} (old mid R u u' : List Int)
    (hp1 : orig.Perm (old ++ R))
    (hp2 : new.Perm (mid ++ R))
    (h : orig.Nodup)
    (hsub : ∀ x ∈ orig, x ∈ u)
    (huu : u ⊆ u')
    (hm : mid.Nodup)
    (hmu : ∀ x ∈ mid, x ∈ u' ∧ x ∉ u) :
    new.Nodup ∧ ∀ x ∈ new, x ∈ u' := by
  have hR : R.Nodup := (List.nodup_append.mp (hp1.nodup h)).2.1
  constructor
  · refine hp2.symm.nodup ?_
    rw [List.nodup_append]
    refine ⟨hm, hR, ?_⟩
    intro a ha haR
    exact (hmu a ha).2 (hsub a (hp1.symm.subset (List.mem_append.mpr (Or.inr haR))))
  · intro x hx
    rcases List.mem_append.mp (hp2.subset hx) with hxm | hxR
    · exact (hmu x hxm).1
    · exact huu (hsub x (hp1.symm.subset (List.mem_append.mpr (Or.inr hxR))))

theorem list_eq_take_cons_drop {α : Type} (l : List α) (i : Nat) (h : i < l.length) :
    l = l.take i ++ l[i] :: l.drop (i + 1) := by
  conv_lhs => rw [← List.take_append_drop i l]
  congr 1
  rw [List.drop_eq_getElem_cons h]

/-- The id occurrences of the updated container produced by `placeItem`:
the container's ids change by replacing one (possibly empty) segment with
the ids of the placed test case. -/
theorem placeItem_ids (items : List JVal) (m : NameMap) (tc : JVal) :
    ∃ L1 old L2, jvalIdsList items = L1 ++ old ++ L2 ∧
      jvalIdsList (placeItem items m tc).1 = L1 ++ jvalIds tc ++ L2 := by
  unfold placeItem
  cases hga : getAssoc m (nameKey tc) with
  | none =>
      refine ⟨jvalIdsList items, [], [], by simp, ?_⟩
      simp [jvalIdsList_append, jvalIdsList]
  | some i =>
      simp only [jsArraySet]
      by_cases hi : i < items.length
      · rw [if_pos hi]
        refine ⟨jvalIdsList (items.take i), jvalIds items[i],
          jvalIdsList (items.drop (i + 1)), ?_, ?_⟩
        · conv_lhs => rw [list_eq_take_cons_drop items i hi]
          simp only [jvalIdsList_append, jvalIdsList, List.append_assoc]
        · rw [List.set_eq_take_cons_drop _ hi]
          simp only [jvalIdsList_append, jvalIdsList, List.append_assoc]
      · rw [if_neg hi]
        refine ⟨jvalIdsList items, [], [], by simp, ?_⟩
        simp [jvalIdsList_append, jvalIds_replicate_null, jvalIdsList]

theorem docIds_eq (d : MDoc) :
    docIds d = jvalIds d.rest ++ jvalIdsList d.rootItems ++ d.folders.flatMap folderIds := rfl

theorem insertOrdered_perm (x : JVal) (l : List JVal) :
    (insertOrdered x l).Perm (x :: l) := by
  induction l with
  | nil => simp [insertOrdered]
  | cons y ys ih =>
      rw [insertOrdered]
      by_cases h : orderKey y < orderKey x
      · rw [if_pos h]
        exact (ih.cons y).trans (List.Perm.swap x y ys)
      · rw [if_neg h]

theorem jsSort_perm (l : List JVal) : (jsSortByOrdering l).Perm l := by
  induction l with
  | nil => simp [jsSortByOrdering]
  | cons x xs ih =>
      rw [jsSortByOrdering]
      exact (insertOrdered_perm x _).trans (ih.cons x)

theorem perm_flatMap {α β : Type} (f : α → List β) {l₁ l₂ : List α} (h : l₁.Perm l₂) :
    (l₁.flatMap f).Perm (l₂.flatMap f) := by
  induction h with
  | nil => simp
  | cons x _ ih => simpa using ih.append_left (f x)
  | swap x y l =>
      simp only [List.flatMap_cons]
      rw [← List.append_assoc, ← List.append_assoc]
      exact (List.perm_append_comm.append_right _)
  | trans _ _ ih₁ ih₂ => exact ih₁.trans ih₂

/-- Every id value occurring in the document is collected by
`collectUsedIds`, provided `0` never occurs as an id (the only value the
source's truthiness test skips). -/
theorem collectDoc_covers (d : MDoc) (h0 : (0 : Int) ∉ docIds d) :
    ∀ x ∈ docIds d, x ∈ collectDoc d := by
  intro x hx
  have hx0 : x ≠ 0 := fun h => h0 (h ▸ hx)
  rw [docIds_eq] at hx
  unfold collectDoc
  rcases List.mem_append.mp hx with hx' | hx'
  · rcases List.mem_append.mp hx' with hr | hr
    · exact List.mem_append.mpr (Or.inl (List.mem_append.mpr
        (Or.inl (mem_collect_of_mem_ids hr hx0))))
    · exact List.mem_append.mpr (Or.inl (List.mem_append.mpr
        (Or.inr (mem_collectList_of_mem_ids hr hx0))))
  · obtain ⟨f, hf, hxf⟩ := List.mem_flatMap.mp hx'
    refine List.mem_append.mpr (Or.inr (List.mem_flatMap.mpr ⟨f, hf, ?_⟩))
    unfold collectFolder
    unfold folderIds at hxf
    rcases List.mem_append.mp hxf with h | h
    · exact List.mem_append.mpr (Or.inl (mem_collectFields_of_mem_ids h hx0))
    · exact List.mem_append.mpr (Or.inr (mem_collectList_of_mem_ids h hx0))

/-! ## Map (`existingTestCasesByFolder`) bookkeeping for idempotence (claim C3) -/

theorem getAssoc_setAssoc_eq {α : Type} (m : List (MKey × α)) (k : MKey) (v : α) :
    getAssoc (setAssoc m k v) k = some v := by
  unfold setAssoc
  by_cases h : m.any (fun p => p.1 = k)
  · rw [if_pos h]
    induction m with
    | nil => simp at h
    | cons p rest ih =>
        by_cases hp : p.1 = k
        · simp [getAssoc, List.find?, hp]
        · have h' : rest.any (fun q => q.1 = k) := by
            rcases List.any_eq_true.mp h with ⟨q, hq, hqk⟩
            rcases List.mem_cons.mp hq with rfl | hq'
            · exact absurd (by simpa using hqk) hp
            · exact List.any_eq_true.mpr ⟨q, hq', hqk⟩
          have := ih h'
          simpa [getAssoc, List.find?, hp] using this
  · rw [if_neg h]
    induction m with
    | nil => simp [getAssoc, List.find?]
    | cons p rest ih =>
        have hp : ¬ p.1 = k := by
          intro he
          exact h (List.any_eq_true.mpr ⟨p, List.mem_cons_self _ _, by simpa using he⟩)
        have h' : ¬ rest.any (fun q => q.1 = k) := by
          intro hc
          rcases List.any_eq_true.mp hc with ⟨q, hq, hqk⟩
          exact h (List.any_eq_true.mpr ⟨q, List.mem_cons_of_mem _ hq, hqk⟩)
        have := ih h'
        simpa [getAssoc, List.find?, hp] using this

theorem getAssoc_map_replace_ne {α : Type} (t : List (MKey × α)) (k k' : MKey) (v : α)
    (h : k' ≠ k) :
    getAssoc (t.map (fun p => if p.1 = k then (k, v) else p)) k' = getAssoc t k' := by
  induction t with
  | nil => rfl
  | cons q t ih =>
      by_cases hq : q.1 = k
      · have h1 : ¬ (k = k') := fun he => h he.symm
        have h2 : ¬ (q.1 = k') := by rw [hq]; exact h1
        simp only [List.map_cons, if_pos hq, getAssoc, List.find?]
        rw [show (decide (k = k')) = false by simpa using h1,
            show (decide (q.1 = k')) = false by simpa using h2]
        simpa only [getAssoc] using ih
      · by_cases hq' : q.1 = k'
        · simp only [List.map_cons, if_neg hq, getAssoc, List.find?]
          rw [show (decide (q.1 = k')) = true by simpa using hq']
        · simp only [List.map_cons, if_neg hq, getAssoc, List.find?]
          rw [show (decide (q.1 = k')) = false by simpa using hq']
          simpa only [getAssoc] using ih

theorem getAssoc_append_ne {α : Type} (m : List (MKey × α)) (k k' : MKey) (v : α)
    (h : k' ≠ k) : getAssoc (m ++ [(k, v)]) k' = getAssoc m k' := by
  induction m with
  | nil =>
      simp only [List.nil_append, getAssoc, List.find?]
      rw [show (decide (k = k')) = false by simpa using fun he => h he.symm]
  | cons q t ih =>
      by_cases hq' : q.1 = k'
      · simp [getAssoc, List.find?, hq']
      · simp only [List.cons_append, getAssoc, List.find?]
        rw [show (decide (q.1 = k')) = false by simpa using hq']
        simpa only [getAssoc] using ih

theorem getAssoc_setAssoc_ne {α : Type} (m : List (MKey × α)) (k k' : MKey) (v : α)
    (h : k' ≠ k) : getAssoc (setAssoc m k v) k' = getAssoc m k' := by
  unfold setAssoc
  by_cases ha : m.any (fun p => p.1 = k)
  · rw [if_pos ha]
    exact getAssoc_map_replace_ne m k k' v h
  · rw [if_neg ha]
    exact getAssoc_append_ne m k k' v h

theorem getAssoc_eq_none_iff {α : Type} {m : List (MKey × α)} {k : MKey} :
    getAssoc m k = none ↔ ∀ p ∈ m, p.1 ≠ k := by
  simp only [getAssoc, Option.map_eq_none', List.find?_eq_none]
  constructor
  · intro h p hp he
    exact absurd (by simpa using he) (h p hp)
  · intro h p hp
    simpa using h p hp

theorem getAssoc_some_of_any {α : Type} {m : List (MKey × α)} {k : MKey}
    (h : m.any (fun p => p.1 = k) = true) : ∃ v, getAssoc m k = some v := by
  cases hg : getAssoc m k with
  | some v => exact ⟨v, rfl⟩
  | none =>
      rcases List.any_eq_true.mp h with ⟨p, hp, hpk⟩
      exact absurd (by simpa using hpk) (getAssoc_eq_none_iff.mp hg p hp)

theorem any_of_getAssoc_some {α : Type} {m : List (MKey × α)} {k : MKey} {v : α}
    (h : getAssoc m k = some v) : m.any (fun p => p.1 = k) = true := by
  by_contra hc
  have : ∀ p ∈ m, p.1 ≠ k := by
    intro p hp he
    exact hc (List.any_eq_true.mpr ⟨p, hp, by simpa using he⟩)
  rw [getAssoc_eq_none_iff.mpr this] at h
  cases h

theorem getAssoc_some_of_mem_keys {α : Type} {m : List (MKey × α)} {k : MKey}
    (h : k ∈ m.map Prod.fst) : ∃ v, getAssoc m k = some v := by
  refine getAssoc_some_of_any (List.any_eq_true.mpr ?_)
  obtain ⟨p, hp, hpk⟩ := List.mem_map.mp h
  exact ⟨p, hp, by simpa using hpk⟩

/-- `setAssoc` keys: unchanged when the key was present, extended by the
key otherwise. -/
theorem setAssoc_keys {α : Type} (m : List (MKey × α)) (k : MKey) (v : α) :
    (setAssoc m k v).map Prod.fst =
      if m.any (fun p => p.1 = k) then m.map Prod.fst else m.map Prod.fst ++ [k] := by
  unfold setAssoc
  by_cases h : m.any (fun p => p.1 = k)
  · rw [if_pos h, if_pos h, List.map_map]
    refine List.map_congr_left ?_
    intro p _
    by_cases hpk : p.1 = k
    · simp [hpk]
    · simp [hpk]
  · rw [if_neg h, if_neg h]
    simp

/-! ### Stability of primitive `name`/`_folder` fields under reassignment -/

theorem reassignVal_prim {v : JVal} (hp : isPrim v = true) (s : RState) :
    (reassignVal s v).1 = v := by
  cases v with
  | arr xs => simp [isPrim] at hp
  | obj fs => simp [isPrim] at hp
  | null => rfl
  | bool b => rfl
  | num n => rfl
  | str t => rfl

theorem find_reassignFields (s : RState) (fs : List (String × JVal)) (key : String)
    (hk : key ≠ "id")
    (hp : ∀ v, ((fs.find? (fun p => p.1 = key)).map (·.2)) = some v → isPrim v) :
    ((reassignFields s fs).1.find? (fun p => p.1 = key)).map (·.2) =
      (fs.find? (fun p => p.1 = key)).map (·.2) := by
  induction fs generalizing s with
  | nil => simp [reassignFields]
  | cons p rest ih =>
      obtain ⟨k, v⟩ := p
      cases hkv : isIdNum k v with
      | true =>
          obtain ⟨hkid, n, hv⟩ := isIdNum_true hkv
          subst hkid; subst hv
          rw [reassignFields_cons_id]
          have hne : ¬ ("id" = key) := fun he => hk he.symm
          rw [List.find?_cons_of_neg _ (by simpa using hne),
              List.find?_cons_of_neg _ (by simpa using hne)]
          refine ih _ ?_
          intro w hw
          refine hp w ?_
          rwa [List.find?_cons_of_neg _ (by simpa using hne)]
      | false =>
          rw [reassignFields_cons_ne hkv]
          by_cases hkk : k = key
          · rw [List.find?_cons_of_pos _ (by simpa using hkk),
                List.find?_cons_of_pos _ (by simpa using hkk)]
            simp only [Option.map_some']
            congr 1
            refine reassignVal_prim ?_ s
            refine hp v ?_
            rw [List.find?_cons_of_pos _ (by simpa using hkk)]
            rfl
          · rw [List.find?_cons_of_neg _ (by simpa using hkk),
                List.find?_cons_of_neg _ (by simpa using hkk)]
            refine ih _ ?_
            intro w hw
            refine hp w ?_
            rwa [List.find?_cons_of_neg _ (by simpa using hkk)]

theorem getField_reassignVal_prim (s : RState) (tc : JVal) (key : String)
    (hk : key ≠ "id")
    (hp : ∀ v, getField tc key = some v → isPrim v) :
    getField (reassignVal s tc).1 key = getField tc key := by
  cases tc with
  | obj fs =>
      rw [reassignVal]
      exact find_reassignFields s fs key hk (by simpa [getField] using hp)
  | arr xs => rfl
  | null => rfl
  | bool b => rfl
  | num n => rfl
  | str t => rfl

theorem getField_delField_ne (v : JVal) (k k' : String) (h : k ≠ k') :
    getField (delField v k') k = getField v k := by
  cases v with
  | obj fs =>
      simp only [delField, getField]
      induction fs with
      | nil => rfl
      | cons p rest ih =>
          by_cases hp : p.1 = k'
          · rw [List.filter_cons, if_neg (by simpa using hp)]
            rw [ih, List.find?_cons_of_neg _ (by
              simp only [decide_eq_true_eq]
              rw [hp]
              exact fun he => h he.symm)]
          · rw [List.filter_cons, if_pos (by simpa using hp)]
            by_cases hpk : p.1 = k
            · rw [List.find?_cons_of_pos _ (by simpa using hpk),
                  List.find?_cons_of_pos _ (by simpa using hpk)]
            · rw [List.find?_cons_of_neg _ (by simpa using hpk),
                  List.find?_cons_of_neg _ (by simpa using hpk)]
              exact ih
  | arr xs => rfl
  | null => rfl
  | bool b => rfl
  | num n => rfl
  | str t => rfl

/-- Under primitive-`_folder` hygiene, the folder key a test case targets
does not depend on the id-reassignment state. -/
theorem folderOf_reassignIds (u : List Int) (n : Int) (tc : JVal)
    (hp : ∀ v, getField tc "_folder" = some v → isPrim v) :
    folderOf (reassignIds u n tc).1 = folderOf tc := by
  unfold folderOf reassignIds
  rw [getField_reassignVal_prim _ tc "_folder" (by decide) hp]

/-- Under primitive-`name` hygiene, the map key of the placed test case is
the original test case's `name`. -/
theorem nameKey_place (u : List Int) (n : Int) (tc : JVal)
    (hp : ∀ v, getField tc "name" = some v → isPrim v) :
    nameKey (delField (reassignIds u n tc).1 "_folder") = nameKey tc := by
  unfold nameKey reassignIds
  rw [getField_delField_ne _ "name" "_folder" (by decide)]
  exact getField_reassignVal_prim _ tc "name" (by decide) hp

/-! ### Name-map coherence invariants for the merge loop -/

theorem getAssoc_mem {α : Type} {m : List (MKey × α)} {k : MKey} {v : α}
    (h : getAssoc m k = some v) : (k, v) ∈ m := by
  obtain ⟨p, hp, hv⟩ := by simpa only [getAssoc, Option.map_eq_some'] using h
  have h1 := List.find?_some hp
  have h2 := List.mem_of_find?_eq_some hp
  have hpv : p = (k, v) := by
    obtain ⟨a, b⟩ := p
    simp at h1 hv
    simp [h1, hv]
  rwa [hpv] at h2

theorem set_getElem_eq_self {α : Type} :
    ∀ (l : List α) (i : Nat) (x : α), i < l.length → (∀ h : i < l.length, l[i] = x) →
      l.set i x = l := by
  intro l
  induction l with
  | nil => intro i x h _; simp at h
  | cons a t ih =>
      intro i x h he
      cases i with
      | zero => simp [List.set, (he h).symm]
      | succ j =>
          simp only [List.set]
          congr 1
          exact ih j x (by simpa using h) (fun h' => by simpa using he h)

theorem placeItem_ok {items : List JVal} {m : NameMap} (tc : JVal) (hok : MapOK m items) :
    MapOK (placeItem items m tc).2 (placeItem items m tc).1 := by
  obtain ⟨h1, h2, h3⟩ := hok
  unfold placeItem
  cases hga : getAssoc m (nameKey tc) with
  | some i =>
      obtain ⟨hi, hname⟩ := h1 _ (getAssoc_mem hga)
      simp only [jsArraySet, if_pos hi]
      refine ⟨?_, ?_, h3⟩
      · intro p hp
        obtain ⟨hp2, hpname⟩ := h1 p hp
        refine ⟨by simpa using hp2, ?_⟩
        by_cases hpe : p.2 = i
        · subst hpe
          rw [List.getElem_set_self, ← hpname]
          exact hname.symm
        · rw [List.getElem_set_ne (fun he => hpe he.symm)]
          exact hpname
      · intro it hit
        rcases List.mem_or_eq_of_mem_set hit with hin | rfl
        · exact h2 it hin
        · exact List.mem_map.mpr ⟨_, getAssoc_mem hga, rfl⟩
  | none =>
      have hall : ∀ p ∈ m, p.1 ≠ nameKey tc := getAssoc_eq_none_iff.mp hga
      have hany : m.any (fun p => p.1 = nameKey tc) = false := by
        rw [Bool.eq_false_iff]
        intro hc
        rcases List.any_eq_true.mp hc with ⟨p, hp, hpk⟩
        exact hall p hp (by simpa using hpk)
      refine ⟨?_, ?_, ?_⟩
      · intro p hp
        unfold setAssoc at hp
        rw [hany] at hp
        simp only [Bool.false_eq_true, if_false] at hp
        rcases List.mem_append.mp hp with hp' | hp'
        · obtain ⟨hp2, hpname⟩ := h1 p hp'
          refine ⟨by simp; omega, ?_⟩
          rw [List.getElem_append_left hp2]
          exact hpname
        · rcases List.mem_singleton.mp hp' with rfl
          refine ⟨by simp, ?_⟩
          simp
      · intro it hit
        rw [setAssoc_keys, hany]
        simp only [Bool.false_eq_true, if_false]
        rcases List.mem_append.mp hit with hin | hin
        · exact List.mem_append.mpr (Or.inl (h2 it hin))
        · rcases List.mem_singleton.mp hin with rfl
          exact List.mem_append.mpr (Or.inr (by simp))
      · rw [setAssoc_keys, hany]
        simp only [Bool.false_eq_true, if_false]
        rw [List.nodup_append]
        refine ⟨h3, by simp, ?_⟩
        intro k hk hk'
        rcases List.mem_singleton.mp hk' with rfl
        obtain ⟨p, hp, hpk⟩ := List.mem_map.mp hk
        exact hall p hp hpk

/-- When the test case's name is already present in a coherent container,
`placeItem` replaces in place: the container's name list and the map are
unchanged. -/
theorem placeItem_update {items : List JVal} {m : NameMap} {tc : JVal} (hok : MapOK m items)
    (hmem : nameKey tc ∈ items.map nameKey) :
    (placeItem items m tc).1.map nameKey = items.map nameKey ∧
      (placeItem items m tc).2 = m ∧
      (placeItem items m tc).1.length = items.length := by
  obtain ⟨h1, h2, h3⟩ := hok
  obtain ⟨it, hit, hitname⟩ := List.mem_map.mp hmem
  have hkey : nameKey tc ∈ m.map Prod.fst := hitname ▸ h2 it hit
  obtain ⟨i, hga⟩ := getAssoc_some_of_mem_keys hkey
  obtain ⟨hi, hname⟩ := h1 _ (getAssoc_mem hga)
  unfold placeItem
  rw [hga]
  simp only [jsArraySet, if_pos hi]
  refine ⟨?_, by simp, by simp⟩
  rw [List.map_set]
  refine set_getElem_eq_self _ _ _ (by simpa using hi) ?_
  intro h'
  rw [List.getElem_map]
  exact hname ▸ rfl

/-! ### Correctness of the initial name maps built by `mergeIntoApidog` -/

theorem setAssoc_mapOK {m : NameMap} {pre : List JVal} (it : JVal) (h : MapOK m pre) :
    MapOK (setAssoc m (nameKey it) pre.length) (pre ++ [it]) := by
  obtain ⟨h1, h2, h3⟩ := h
  cases ha : m.any (fun p => p.1 = nameKey it) with
  | true =>
      refine ⟨?_, ?_, ?_⟩
      · intro p hp
        unfold setAssoc at hp
        rw [ha] at hp
        simp only [if_true] at hp
        obtain ⟨q, hq, hqe⟩ := List.mem_map.mp hp
        by_cases hqk : q.1 = nameKey it
        · rw [if_pos (by simpa using hqk)] at hqe
          subst hqe
          refine ⟨by simp, ?_⟩
          simp
        · rw [if_neg (by simpa using hqk)] at hqe
          subst hqe
          obtain ⟨hq2, hqname⟩ := h1 q hq
          refine ⟨by simp; omega, ?_⟩
          rw [List.getElem_append_left hq2]
          exact hqname
      · intro x hx
        rw [setAssoc_keys, ha]
        simp only [if_true]
        rcases List.mem_append.mp hx with hx' | hx'
        · exact h2 x hx'
        · rcases List.mem_singleton.mp hx' with rfl
          rcases List.any_eq_true.mp ha with ⟨p, hp, hpk⟩
          exact (by simpa using hpk : p.1 = nameKey x) ▸ List.mem_map.mpr ⟨p, hp, rfl⟩
      · rw [setAssoc_keys, ha]
        simpa using h3
  | false =>
      refine ⟨?_, ?_, ?_⟩
      · intro p hp
        unfold setAssoc at hp
        rw [ha] at hp
        simp only [Bool.false_eq_true, if_false] at hp
        rcases List.mem_append.mp hp with hp' | hp'
        · obtain ⟨hp2, hpname⟩ := h1 p hp'
          refine ⟨by simp; omega, ?_⟩
          rw [List.getElem_append_left hp2]
          exact hpname
        · rcases List.mem_singleton.mp hp' with rfl
          refine ⟨by simp, ?_⟩
          simp
      · intro x hx
        rw [setAssoc_keys, ha]
        simp only [Bool.false_eq_true, if_false]
        rcases List.mem_append.mp hx with hx' | hx'
        · exact List.mem_append.mpr (Or.inl (h2 x hx'))
        · rcases List.mem_singleton.mp hx' with rfl
          exact List.mem_append.mpr (Or.inr (by simp))
      · rw [setAssoc_keys, ha]
        simp only [Bool.false_eq_true, if_false]
        rw [List.nodup_append]
        refine ⟨h3, by simp, ?_⟩
        intro k hk hk'
        rcases List.mem_singleton.mp hk' with rfl
        obtain ⟨p, hp, hpk⟩ := List.mem_map.mp hk
        have : m.any (fun p => p.1 = nameKey it) = true :=
          List.any_eq_true.mpr ⟨p, hp, by simpa using hpk⟩
        rw [ha] at this
        exact Bool.false_ne_true this

theorem mkNameMapAux_ok : ∀ (items pre : List JVal) (m : NameMap), MapOK m pre →
    MapOK (mkNameMapAux items pre.length m) (pre ++ items) := by
  intro items
  induction items with
  | nil =>
      intro pre m h
      simpa [mkNameMapAux] using h
  | cons it rest ih =>
      intro pre m h
      rw [mkNameMapAux]
      have := ih (pre ++ [it]) (setAssoc m (nameKey it) pre.length) (setAssoc_mapOK it h)
      simp only [List.length_append, List.length_singleton, List.append_assoc,
        List.singleton_append] at this
      exact this

theorem mkNameMap_ok (items : List JVal) : MapOK (mkNameMap items) items := by
  have := mkNameMapAux_ok items [] [] ⟨by simp, by simp, by simp⟩
  simpa [mkNameMap] using this

theorem buildMapsAux_ok : ∀ (fs : List MFolder) (acc : List (MKey × NameMap)),
    (fs.map MFolder.fname).Nodup →
    (∀ f ∈ fs, f.fname ∉ acc.map Prod.fst) →
    (∀ k, k ∉ fs.map MFolder.fname → getAssoc (fs.foldl buildStep acc) k = getAssoc acc k) ∧
    (∀ f ∈ fs, getAssoc (fs.foldl buildStep acc) f.fname = some (mkNameMap f.items)) ∧
    (fs.foldl buildStep acc).map Prod.fst = acc.map Prod.fst ++ fs.map MFolder.fname := by
  intro fs
  induction fs with
  | nil =>
      intro acc _ _
      exact ⟨fun _ _ => rfl, fun f hf => absurd hf (List.not_mem_nil f), by simp⟩
  | cons f rest ih =>
      intro acc hnd hfresh
      have hnd' : f.fname ∉ rest.map MFolder.fname ∧ (rest.map MFolder.fname).Nodup :=
        List.nodup_cons.mp (by simpa using hnd)
      have hfa : f.fname ∉ acc.map Prod.fst := hfresh f (List.mem_cons_self f rest)
      have hany : acc.any (fun p => p.1 = f.fname) = false := by
        rw [Bool.eq_false_iff]
        intro hc
        rcases List.any_eq_true.mp hc with ⟨p, hp, hpk⟩
        exact hfa ((by simpa using hpk : p.1 = f.fname) ▸ List.mem_map.mpr ⟨p, hp, rfl⟩)
      have hkeys : (buildStep acc f).map Prod.fst = acc.map Prod.fst ++ [f.fname] := by
        rw [buildStep, setAssoc_keys, hany]
        simp
      have hne : ∀ g ∈ rest, g.fname ≠ f.fname := by
        intro g hg he
        exact hnd'.1 (he ▸ List.mem_map.mpr ⟨g, hg, rfl⟩)
      have hfresh' : ∀ g ∈ rest, g.fname ∉ (buildStep acc f).map Prod.fst := by
        intro g hg hmem
        rw [hkeys] at hmem
        rcases List.mem_append.mp hmem with hm | hm
        · exact hfresh g (List.mem_cons_of_mem f hg) hm
        · exact hne g hg (List.mem_singleton.mp hm)
      obtain ⟨ihA, ihB, ihC⟩ := ih (buildStep acc f) hnd'.2 hfresh'
      rw [List.foldl_cons]
      refine ⟨?_, ?_, ?_⟩
      · intro k hk
        have hk1 : k ∉ rest.map MFolder.fname := fun h => hk (by simp [h])
        have hk2 : k ≠ f.fname := fun h => hk (by simp [h])
        rw [ihA k hk1, buildStep, getAssoc_setAssoc_ne _ _ _ _ hk2]
      · intro g hg
        rcases List.mem_cons.mp hg with rfl | hg'
        · rw [ihA g.fname hnd'.1, buildStep, getAssoc_setAssoc_eq]
        · exact ihB g hg'
      · rw [ihC, hkeys]
        simp

theorem buildMaps_ok (d : MDoc) (hd : DocOK d) : MapsOK d (buildMaps d) := by
  have hfold : buildMaps d =
      d.folders.foldl buildStep [(some JVal.null, mkNameMap d.rootItems)] := rfl
  obtain ⟨hnd, hnull⟩ := hd
  have hfresh : ∀ f ∈ d.folders,
      f.fname ∉ ([(some JVal.null, mkNameMap d.rootItems)] :
        List (MKey × NameMap)).map Prod.fst := by
    intro f hf hm
    have : f.fname = some JVal.null := by simpa using hm
    exact hnull (this ▸ List.mem_map.mpr ⟨f, hf, rfl⟩)
  obtain ⟨hA, hB, hC⟩ := buildMapsAux_ok d.folders _ hnd hfresh
  refine ⟨?_, ?_, ?_⟩
  · refine ⟨mkNameMap d.rootItems, ?_, mkNameMap_ok _⟩
    rw [hfold, hA (some JVal.null) (fun h => hnull h)]
    simp [getAssoc, List.find?]
  · intro j hj
    refine ⟨mkNameMap (d.folders[j].items), ?_, mkNameMap_ok _⟩
    rw [hfold]
    exact hB _ (List.getElem_mem hj)
  · intro k m' hk
    have hkm : k ∈ (buildMaps d).map Prod.fst := List.mem_map.mpr ⟨_, getAssoc_mem hk, rfl⟩
    rw [hfold, hC] at hkm
    rcases List.mem_append.mp hkm with hm | hm
    · left
      simpa using hm
    · right
      obtain ⟨f, hf, hfk⟩ := List.mem_map.mp hm
      exact ⟨f, hf, hfk⟩

/-- In a coherent container `placeItem` never loses a name, and the placed
test case's name is present afterwards. -/
theorem placeItem_names {items : List JVal} {m : NameMap} (tc : JVal) (hok : MapOK m items) :
    (∀ k ∈ items.map nameKey, k ∈ (placeItem items m tc).1.map nameKey) ∧
      nameKey tc ∈ (placeItem items m tc).1.map nameKey := by
  obtain ⟨h1, h2, h3⟩ := hok
  unfold placeItem
  cases hga : getAssoc m (nameKey tc) with
  | some i =>
      obtain ⟨hi, hname⟩ := h1 _ (getAssoc_mem hga)
      simp only [jsArraySet, if_pos hi]
      have hnames : (items.set i tc).map nameKey = items.map nameKey := by
        rw [List.map_set]
        refine set_getElem_eq_self _ _ _ (by simpa using hi) ?_
        intro h'
        rw [List.getElem_map]
        exact hname ▸ rfl
      rw [hnames]
      refine ⟨fun k hk => hk, ?_⟩
      have hmem : nameKey items[(⟨nameKey tc, i⟩ : MKey × Nat).2] ∈ List.map nameKey items :=
        List.mem_map.mpr ⟨_, List.getElem_mem hi, rfl⟩
      rw [hname] at hmem
      exact hmem
  | none =>
      simp only [List.map_append]
      exact ⟨fun k hk => List.mem_append.mpr (Or.inl hk),
        List.mem_append.mpr (Or.inr (by simp))⟩

theorem ne_null_of_truthy {v : JVal} (h : truthy v = true) : v ≠ JVal.null := by
  intro he
  subst he
  exact absurd h (by decide)

theorem Hyg.nameOf {tc : JVal} (h : Hyg tc = true) :
    ∀ v, getField tc "name" = some v → isPrim v := by
  intro v hv
  unfold Hyg at h
  rw [Bool.and_eq_true] at h
  have h1 := h.1
  rw [hv] at h1
  simpa [Option.all] using h1

theorem Hyg.folderOfPrim {tc : JVal} (h : Hyg tc = true) :
    ∀ v, getField tc "_folder" = some v → isPrim v := by
  intro v hv
  unfold Hyg at h
  rw [Bool.and_eq_true] at h
  have h1 := h.2
  rw [hv] at h1
  simpa [Option.all] using h1

theorem set_append_singleton {α : Type} (l : List α) (a b : α) :
    (l ++ [a]).set l.length b = l ++ [b] := by
  induction l with
  | nil => simp
  | cons x xs ih => simp [List.set, ih]

/-- Explicit form of the root branch of `mergeOne` (falsy `_folder`). -/
theorem mergeOne_root_eq (s : MState) (tc : JVal)
    (hfk : ¬ truthy (folderOf (reassignIds s.used s.next tc).1)) (m0 : NameMap)
    (hm0 : getAssoc s.maps (some JVal.null) = some m0) :
    mergeOne s tc =
      { doc := { s.doc with rootItems := (placeItem s.doc.rootItems m0
            (delField (reassignIds s.used s.next tc).1 "_folder")).1 },
        maps := setAssoc s.maps (some JVal.null) (placeItem s.doc.rootItems m0
            (delField (reassignIds s.used s.next tc).1 "_folder")).2,
        used := (reassignIds s.used s.next tc).2.used,
        next := (reassignIds s.used s.next tc).2.next } := by
  rw [mergeOne, if_neg hfk, hm0]
  rfl

/-- Explicit form of the folder branch of `mergeOne` when the target folder
already exists (at the first index whose `name` matches) and its per-folder
map is registered. -/
theorem mergeOne_folder_found_eq (s : MState) (tc : JVal) (i : Nat)
    (hfk : truthy (folderOf (reassignIds s.used s.next tc).1))
    (hfi : s.doc.folders.findIdx?
      (fun f => f.fname = some (folderOf (reassignIds s.used s.next tc).1)) = some i)
    (hlen : i < s.doc.folders.length) (mi : NameMap)
    (hmi : getAssoc s.maps (some (folderOf (reassignIds s.used s.next tc).1)) = some mi) :
    mergeOne s tc =
      { doc := { s.doc with folders := (s.doc.folders.set i
            { s.doc.folders[i] with items := (placeItem s.doc.folders[i].items mi
                (delField (reassignIds s.used s.next tc).1 "_folder")).1 }) },
        maps := setAssoc s.maps (some (folderOf (reassignIds s.used s.next tc).1))
            (placeItem s.doc.folders[i].items mi
                (delField (reassignIds s.used s.next tc).1 "_folder")).2,
        used := (reassignIds s.used s.next tc).2.used,
        next := (reassignIds s.used s.next tc).2.next } := by
  rw [mergeOne, if_pos hfk]
  simp only [findOrCreateFolder, hfi]
  rw [List.getElem?_eq_getElem hlen]
  simp only [Option.getD_some]
  rw [if_pos (any_of_getAssoc_some hmi), hmi]
  rfl

/-- Explicit form of the folder branch of `mergeOne` when no folder matches
the `_folder` key and its name is not a key of the map table: a fresh folder
holding just the test case is appended. -/
theorem mergeOne_folder_new_eq (s : MState) (tc : JVal)
    (hfk : truthy (folderOf (reassignIds s.used s.next tc).1))
    (hfi : s.doc.folders.findIdx?
      (fun f => f.fname = some (folderOf (reassignIds s.used s.next tc).1)) = none)
    (hga : getAssoc s.maps (some (folderOf (reassignIds s.used s.next tc).1)) = none) :
    mergeOne s tc =
      { doc := { s.doc with folders := s.doc.folders ++
            [{ fname := some (folderOf (reassignIds s.used s.next tc).1),
               items := [delField (reassignIds s.used s.next tc).1 "_folder"],
               frest := [("description", .str ""), ("children", .arr [])] }] },
        maps := setAssoc (setAssoc s.maps
            (some (folderOf (reassignIds s.used s.next tc).1)) [])
            (some (folderOf (reassignIds s.used s.next tc).1))
            [(nameKey (delField (reassignIds s.used s.next tc).1 "_folder"), 0)],
        used := (reassignIds s.used s.next tc).2.used,
        next := (reassignIds s.used s.next tc).2.next } := by
  have hany : s.maps.any
      (fun p => p.1 = some (folderOf (reassignIds s.used s.next tc).1)) = false := by
    cases hx : s.maps.any
        (fun p => p.1 = some (folderOf (reassignIds s.used s.next tc).1)) with
    | false => rfl
    | true =>
        obtain ⟨v, hv⟩ := getAssoc_some_of_any hx
        rw [hga] at hv
        cases hv
  rw [mergeOne, if_pos hfk]
  simp only [findOrCreateFolder, hfi]
  rw [if_neg (by simp [hany]), getAssoc_setAssoc_eq]
  simp only [Option.getD_some]
  rw [show (placeItem [] []
      (delField (reassignIds s.used s.next tc).1 "_folder")) =
      ([delField (reassignIds s.used s.next tc).1 "_folder"],
       [(nameKey (delField (reassignIds s.used s.next tc).1 "_folder"), 0)]) from rfl]
  rw [set_append_singleton]

/-- One merge-loop iteration preserves folder-name hygiene and name-map
coherence, never loses a placed test case, and places its own (hygienic)
test case. -/
theorem mergeOne_preserves (s : MState) (tc : JVal)
    (hd : DocOK s.doc) (hm : MapsOK s.doc s.maps) :
    DocOK (mergeOne s tc).doc ∧ MapsOK (mergeOne s tc).doc (mergeOne s tc).maps ∧
      (∀ tc', Placed s.doc tc' → Placed (mergeOne s tc).doc tc') ∧
      (Hyg tc = true → Placed (mergeOne s tc).doc tc) := by
  obtain ⟨⟨m0, hm0, hm0ok⟩, hfold, hstray⟩ := hm
  by_cases hfk : truthy (folderOf (reassignIds s.used s.next tc).1)
  case neg =>
    rw [mergeOne_root_eq s tc hfk m0 hm0]
    dsimp only
    refine ⟨hd, ⟨⟨_, getAssoc_setAssoc_eq _ _ _, placeItem_ok _ hm0ok⟩, ?_, ?_⟩, ?_, ?_⟩
    · intro j hj
      have hne : s.doc.folders[j].fname ≠ some JVal.null := by
        intro he
        exact hd.2 (he ▸ List.mem_map.mpr ⟨_, List.getElem_mem hj, rfl⟩)
      obtain ⟨mj, hmj, hmjok⟩ := hfold j hj
      exact ⟨mj, by rw [getAssoc_setAssoc_ne _ _ _ _ hne]; exact hmj, hmjok⟩
    · intro k m' hk
      by_cases hkn : k = some JVal.null
      · exact Or.inl hkn
      · rw [getAssoc_setAssoc_ne _ _ _ _ hkn] at hk
        exact hstray k m' hk
    · intro tc' hp
      unfold Placed at hp ⊢
      by_cases hket : truthy (folderOf tc')
      · rw [if_pos hket] at hp ⊢
        exact hp
      · rw [if_neg hket] at hp ⊢
        exact (placeItem_names _ hm0ok).1 _ hp
    · intro hyg
      have hfo := folderOf_reassignIds s.used s.next tc (Hyg.folderOfPrim hyg)
      have hnm := nameKey_place s.used s.next tc (Hyg.nameOf hyg)
      unfold Placed
      rw [if_neg (hfo ▸ hfk)]
      rw [← hnm]
      exact (placeItem_names _ hm0ok).2
  case pos =>
    rcases hfi : s.doc.folders.findIdx?
        (fun f => f.fname = some (folderOf (reassignIds s.used s.next tc).1)) with _ | i
    · -- no folder of that name exists yet: a fresh one is appended
      have hnof : ∀ f ∈ s.doc.folders,
          f.fname ≠ some (folderOf (reassignIds s.used s.next tc).1) := by
        intro f hf he
        have := List.findIdx?_eq_none_iff.mp hfi f hf
        rw [he] at this
        simp at this
      have hga : getAssoc s.maps
          (some (folderOf (reassignIds s.used s.next tc).1)) = none := by
        cases hx : getAssoc s.maps (some (folderOf (reassignIds s.used s.next tc).1)) with
        | none => rfl
        | some mm =>
            rcases hstray _ _ hx with he | ⟨f, hf, hfe⟩
            · exact absurd (Option.some.inj he) (ne_null_of_truthy hfk)
            · exact absurd hfe (hnof f hf)
      rw [mergeOne_folder_new_eq s tc hfk hfi hga]
      dsimp only
      refine ⟨⟨?_, ?_⟩, ⟨?_, ?_, ?_⟩, ?_, ?_⟩
      · rw [List.map_append]
        rw [List.nodup_append]
        refine ⟨hd.1, by simp, ?_⟩
        intro k hk hk'
        obtain ⟨f, hf, hfe⟩ := List.mem_map.mp hk
        have : k = some (folderOf (reassignIds s.used s.next tc).1) := by simpa using hk'
        exact hnof f hf (hfe.trans this)
      · rw [List.map_append]
        intro hmem
        rcases List.mem_append.mp hmem with hmem' | hmem'
        · exact hd.2 hmem'
        · have : JVal.null = folderOf (reassignIds s.used s.next tc).1 := by
            simpa using hmem'
          exact ne_null_of_truthy hfk this.symm
      · refine ⟨m0, ?_, hm0ok⟩
        have hne : (some JVal.null : MKey) ≠
            some (folderOf (reassignIds s.used s.next tc).1) :=
          fun he => ne_null_of_truthy hfk (Option.some.inj he).symm
        rw [getAssoc_setAssoc_ne _ _ _ _ hne, getAssoc_setAssoc_ne _ _ _ _ hne]
        exact hm0
      · intro j hj
        rw [List.length_append, List.length_singleton] at hj
        by_cases hji : j < s.doc.folders.length
        · have hgj : (s.doc.folders ++
              [{ fname := some (folderOf (reassignIds s.used s.next tc).1),
                 items := [delField (reassignIds s.used s.next tc).1 "_folder"],
                 frest := [("description", JVal.str ""), ("children", JVal.arr [])] }])[j] =
              s.doc.folders[j] := List.getElem_append_left hji
          rw [hgj]
          have hne : s.doc.folders[j].fname ≠
              some (folderOf (reassignIds s.used s.next tc).1) :=
            hnof _ (List.getElem_mem hji)
          obtain ⟨mj, hmj, hmjok⟩ := hfold j hji
          refine ⟨mj, ?_, hmjok⟩
          rw [getAssoc_setAssoc_ne _ _ _ _ hne, getAssoc_setAssoc_ne _ _ _ _ hne]
          exact hmj
        · have hje : j = s.doc.folders.length := by omega
          subst hje
          have hgj : (s.doc.folders ++
              [{ fname := some (folderOf (reassignIds s.used s.next tc).1),
                 items := [delField (reassignIds s.used s.next tc).1 "_folder"],
                 frest := [("description", JVal.str ""), ("children", JVal.arr [])] }])[
              s.doc.folders.length] =
              { fname := some (folderOf (reassignIds s.used s.next tc).1),
                items := [delField (reassignIds s.used s.next tc).1 "_folder"],
                frest := [("description", JVal.str ""), ("children", JVal.arr [])] } := by
            rw [List.getElem_concat_length]
            rfl
          rw [hgj]
          refine ⟨_, getAssoc_setAssoc_eq _ _ _, ?_⟩
          refine ⟨?_, ?_, ?_⟩
          · intro p hp
            rcases List.mem_singleton.mp hp with rfl
            exact ⟨by simp, by simp⟩
          · intro it hit
            rcases List.mem_singleton.mp hit with rfl
            simp
          · simp
      · intro k m' hk
        by_cases hkf : k = some (folderOf (reassignIds s.used s.next tc).1)
        · subst hkf
          refine Or.inr ⟨_, List.mem_append_right _ (List.mem_singleton_self _), rfl⟩
        · rw [getAssoc_setAssoc_ne _ _ _ _ hkf, getAssoc_setAssoc_ne _ _ _ _ hkf] at hk
          rcases hstray k m' hk with h | ⟨f, hf, hfe⟩
          · exact Or.inl h
          · exact Or.inr ⟨f, List.mem_append_left _ hf, hfe⟩
      · intro tc' hp
        unfold Placed at hp ⊢
        by_cases hket : truthy (folderOf tc')
        · rw [if_pos hket] at hp ⊢
          obtain ⟨f, hf, hfe, hfn⟩ := hp
          exact ⟨f, List.mem_append_left _ hf, hfe, hfn⟩
        · rw [if_neg hket] at hp ⊢
          exact hp
      · intro hyg
        have hfo := folderOf_reassignIds s.used s.next tc (Hyg.folderOfPrim hyg)
        have hnm := nameKey_place s.used s.next tc (Hyg.nameOf hyg)
        unfold Placed
        rw [if_pos (hfo ▸ hfk)]
        refine ⟨_, List.mem_append_right _ (List.mem_singleton_self _), ?_, ?_⟩
        · rw [hfo]
        · rw [← hnm]
          simp
    · -- the folder exists at index i
      obtain ⟨hlen, hpred, -⟩ := List.findIdx?_eq_some_iff_getElem.mp hfi
      have heq : s.doc.folders[i].fname =
          some (folderOf (reassignIds s.used s.next tc).1) := by
        simpa using hpred
      obtain ⟨mi, hmi, hmiok⟩ := hfold i hlen
      rw [heq] at hmi
      rw [mergeOne_folder_found_eq s tc i hfk hfi hlen mi hmi]
      dsimp only
      have hplok := placeItem_ok (delField (reassignIds s.used s.next tc).1 "_folder")
        hmiok
      have hplnames := placeItem_names (delField (reassignIds s.used s.next tc).1 "_folder")
        hmiok
      have hfnames : (s.doc.folders.set i
          { s.doc.folders[i] with items := (placeItem s.doc.folders[i].items mi
              (delField (reassignIds s.used s.next tc).1 "_folder")).1 }).map MFolder.fname =
          s.doc.folders.map MFolder.fname := by
        rw [List.map_set]
        refine set_getElem_eq_self _ _ _ (by simpa using hlen) ?_
        intro h'
        rw [List.getElem_map]
      refine ⟨?_, ⟨?_, ?_, ?_⟩, ?_, ?_⟩
      · unfold DocOK
        rw [hfnames]
        exact hd
      · refine ⟨m0, ?_, hm0ok⟩
        have hne : (some JVal.null : MKey) ≠
            some (folderOf (reassignIds s.used s.next tc).1) :=
          fun he => ne_null_of_truthy hfk (Option.some.inj he).symm
        rw [getAssoc_setAssoc_ne _ _ _ _ hne]
        exact hm0
      · intro j hj
        have hj' : j < s.doc.folders.length := by simpa using hj
        by_cases hij : j = i
        · subst hij
          simp only [List.getElem_set_self]
          refine ⟨_, ?_, hplok⟩
          dsimp only
          rw [heq, getAssoc_setAssoc_eq]
        · rw [List.getElem_set_ne (fun he => hij he.symm)]
          have hnej : s.doc.folders[j].fname ≠
              some (folderOf (reassignIds s.used s.next tc).1) := by
            intro he
            apply hij
            have hbj : j < (s.doc.folders.map MFolder.fname).length := by
              simpa using hj'
            have hbi : i < (s.doc.folders.map MFolder.fname).length := by
              simpa using hlen
            have h1 : (s.doc.folders.map MFolder.fname)[j] =
                (s.doc.folders.map MFolder.fname)[i] := by
              rw [List.getElem_map, List.getElem_map, he, heq]
            exact (List.Nodup.getElem_inj_iff hd.1).mp h1
          obtain ⟨mj, hmj, hmjok⟩ := hfold j hj'
          refine ⟨mj, ?_, hmjok⟩
          rw [getAssoc_setAssoc_ne _ _ _ _ hnej]
          exact hmj
      · intro k m' hk
        by_cases hkf : k = some (folderOf (reassignIds s.used s.next tc).1)
        · subst hkf
          refine Or.inr ⟨_, List.getElem_mem
            (by simpa using hlen :
              i < (s.doc.folders.set i
                { s.doc.folders[i] with items := (placeItem s.doc.folders[i].items mi
                    (delField (reassignIds s.used s.next tc).1 "_folder")).1 }).length), ?_⟩
          rw [List.getElem_set_self]
          exact heq
        · rw [getAssoc_setAssoc_ne _ _ _ _ hkf] at hk
          rcases hstray k m' hk with h | ⟨f, hf, hfe⟩
          · exact Or.inl h
          · right
            have hk2 : k ∈ (s.doc.folders.set i
                { s.doc.folders[i] with items := (placeItem s.doc.folders[i].items mi
                    (delField (reassignIds s.used s.next tc).1 "_folder")).1 }).map
                  MFolder.fname := by
              rw [hfnames]
              exact List.mem_map.mpr ⟨f, hf, hfe⟩
            obtain ⟨f', hf', he'⟩ := List.mem_map.mp hk2
            exact ⟨f', hf', he'⟩
      · intro tc' hp
        unfold Placed at hp ⊢
        by_cases hket : truthy (folderOf tc')
        · rw [if_pos hket] at hp ⊢
          obtain ⟨f, hf, hfe, hfn⟩ := hp
          obtain ⟨idx, hidx, hfeq⟩ := List.mem_iff_getElem.mp hf
          by_cases hidxi : idx = i
          · subst hidxi
            refine ⟨_, List.getElem_mem
              (by simpa using hidx :
                idx < (s.doc.folders.set idx
                  { s.doc.folders[idx] with items := (placeItem s.doc.folders[idx].items mi
                      (delField (reassignIds s.used s.next tc).1 "_folder")).1 }).length),
              ?_, ?_⟩
            · rw [List.getElem_set_self]
              dsimp only
              rw [hfeq]
              exact hfe
            · rw [List.getElem_set_self]
              dsimp only
              refine hplnames.1 _ ?_
              rw [hfeq]
              exact hfn
          · refine ⟨f, ?_, hfe, hfn⟩
            have hbidx : idx < (s.doc.folders.set i
                { s.doc.folders[i] with items := (placeItem s.doc.folders[i].items mi
                    (delField (reassignIds s.used s.next tc).1 "_folder")).1 }).length := by
              simpa using hidx
            have : (s.doc.folders.set i
                { s.doc.folders[i] with items := (placeItem s.doc.folders[i].items mi
                    (delField (reassignIds s.used s.next tc).1 "_folder")).1 })[idx] = f := by
              rw [List.getElem_set_ne (fun he => hidxi he.symm)]
              exact hfeq
            exact this ▸ List.getElem_mem _
        · rw [if_neg hket] at hp ⊢
          exact hp
      · intro hyg
        have hfo := folderOf_reassignIds s.used s.next tc (Hyg.folderOfPrim hyg)
        have hnm := nameKey_place s.used s.next tc (Hyg.nameOf hyg)
        unfold Placed
        rw [if_pos (hfo ▸ hfk)]
        refine ⟨_, List.getElem_mem
          (by simpa using hlen :
            i < (s.doc.folders.set i
              { s.doc.folders[i] with items := (placeItem s.doc.folders[i].items mi
                  (delField (reassignIds s.used s.next tc).1 "_folder")).1 }).length),
          ?_, ?_⟩
        · rw [List.getElem_set_self]
          dsimp only
          rw [heq, hfo]
        · rw [List.getElem_set_self]
          dsimp only
          rw [← hnm]
          exact hplnames.2

theorem flatMap_perm_congr {α β : Type} {f g : α → List β} (l : List α)
    (h : ∀ a, (f a).Perm (g a)) : (l.flatMap f).Perm (l.flatMap g) := by
  induction l with
  | nil => simp
  | cons a t ih => simpa using (h a).append ih

theorem jvalIdsList_perm {l₁ l₂ : List JVal} (h : l₁.Perm l₂) :
    (jvalIdsList l₁).Perm (jvalIdsList l₂) := by
  rw [jvalIdsList_eq_flatMap, jvalIdsList_eq_flatMap]
  exact perm_flatMap jvalIds h

/-- One merge-loop iteration preserves "document ids are pairwise distinct
and all recorded in the used set", provided the incoming test case's ids
are pairwise distinct. -/
theorem mergeOne_inv (s : MState) (tc : JVal)
    (hnd : (docIds s.doc).Nodup)
    (hcov : ∀ x ∈ docIds s.doc, x ∈ s.used)
    (htc : (jvalIds tc).Nodup) :
    (docIds (mergeOne s tc).doc).Nodup ∧
      ∀ x ∈ docIds (mergeOne s tc).doc, x ∈ (mergeOne s tc).used := by
  have hA : ReassignOut ⟨s.used, s.next, []⟩ (jvalIds tc)
      (jvalIds (reassignIds s.used s.next tc).1) (reassignIds s.used s.next tc).2 :=
    reassign_nodup_val _ tc htc (by simp [mapDom])
  have hsubl := jvalIds_delField (reassignIds s.used s.next tc).1 "_folder"
  have hmnd : (jvalIds (delField (reassignIds s.used s.next tc).1 "_folder")).Nodup :=
    hA.2.2.1.sublist hsubl
  have hmu : ∀ x ∈ jvalIds (delField (reassignIds s.used s.next tc).1 "_folder"),
      x ∈ (reassignIds s.used s.next tc).2.used ∧ x ∉ s.used := by
    intro x hx; exact hA.2.2.2 x (hsubl.subset hx)
  have huu : s.used ⊆ (reassignIds s.used s.next tc).2.used := hA.1
  rw [mergeOne]
  by_cases hfk : truthy (folderOf (reassignIds s.used s.next tc).1)
  · rw [if_pos hfk]
    rcases hfi : s.doc.folders.findIdx?
        (fun f => f.fname = some (folderOf (reassignIds s.used s.next tc).1)) with _ | i
    · -- folder not found: a new folder is appended holding just the test case
      simp only [findOrCreateFolder, hfi]
      obtain ⟨L1, old, L2, e1, e2⟩ :=
        placeItem_ids ([] : List JVal)
          ((getAssoc (if s.maps.any (fun p =>
              p.1 = some (folderOf (reassignIds s.used s.next tc).1)) then s.maps
            else setAssoc s.maps (some (folderOf (reassignIds s.used s.next tc).1)) [])
            (some (folderOf (reassignIds s.used s.next tc).1))).getD [])
          (delField (reassignIds s.used s.next tc).1 "_folder")
      rw [jvalIdsList] at e1
      obtain ⟨hL1, hold, hL2⟩ : L1 = [] ∧ old = [] ∧ L2 = [] := by
        rcases List.append_eq_nil.mp (List.append_eq_nil.mp e1.symm).1 with ⟨h1, h2⟩
        exact ⟨h1, h2, (List.append_eq_nil.mp e1.symm).2⟩
      subst hL1; subst hold; subst hL2
      rw [List.nil_append, List.append_nil] at e2
      refine graft_inv []
        (jvalIds (delField (reassignIds s.used s.next tc).1 "_folder"))
        (docIds s.doc) s.used ((reassignIds s.used s.next tc).2.used)
        (by simp) ?_ hnd hcov huu hmnd hmu
      rw [docIds_eq, docIds_eq]
      simp only [set_append_singleton, List.flatMap_append, List.flatMap_cons,
        List.flatMap_nil]
      unfold folderIds
      dsimp only
      rw [e2, show jvalIdsFields [("description", JVal.str ""), ("children", JVal.arr [])] = []
        from by decide]
      rw [← Multiset.coe_eq_coe]
      simp only [← Multiset.coe_add]
      abel
    · -- folder found at index i
      simp only [findOrCreateFolder, hfi]
      obtain ⟨hlen, -, -⟩ := List.findIdx?_eq_some_iff_getElem.mp hfi
      rw [List.getElem?_eq_getElem hlen]
      simp only [Option.getD_some]
      obtain ⟨L1, old, L2, e1, e2⟩ :=
        placeItem_ids (s.doc.folders[i].items)
          ((getAssoc (if s.maps.any (fun p =>
              p.1 = some (folderOf (reassignIds s.used s.next tc).1)) then s.maps
            else setAssoc s.maps (some (folderOf (reassignIds s.used s.next tc).1)) [])
            (some (folderOf (reassignIds s.used s.next tc).1))).getD [])
          (delField (reassignIds s.used s.next tc).1 "_folder")
      refine graft_inv old
        (jvalIds (delField (reassignIds s.used s.next tc).1 "_folder"))
        (jvalIds s.doc.rest ++ jvalIdsList s.doc.rootItems ++
          (s.doc.folders.take i).flatMap folderIds ++
          jvalIdsFields (s.doc.folders[i].frest) ++ L1 ++ L2 ++
          (s.doc.folders.drop (i + 1)).flatMap folderIds)
        s.used ((reassignIds s.used s.next tc).2.used)
        ?_ ?_ hnd hcov huu hmnd hmu
      · rw [docIds_eq]
        conv_lhs => rw [list_eq_take_cons_drop s.doc.folders i hlen]
        rw [List.flatMap_append, List.flatMap_cons]
        conv_lhs => rw [show folderIds s.doc.folders[i] =
          jvalIdsFields (s.doc.folders[i].frest) ++ (L1 ++ old ++ L2) by
            rw [← e1]; rfl]
        rw [← Multiset.coe_eq_coe]
        simp only [← Multiset.coe_add]
        abel
      · rw [docIds_eq]
        rw [List.set_eq_take_cons_drop _ hlen]
        rw [List.flatMap_append, List.flatMap_cons]
        conv_lhs => rw [show folderIds { s.doc.folders[i] with
            items := (placeItem (s.doc.folders[i].items)
              ((getAssoc (if s.maps.any (fun p =>
                  p.1 = some (folderOf (reassignIds s.used s.next tc).1)) then s.maps
                else setAssoc s.maps
                  (some (folderOf (reassignIds s.used s.next tc).1)) [])
                (some (folderOf (reassignIds s.used s.next tc).1))).getD [])
              (delField (reassignIds s.used s.next tc).1 "_folder")).1 } =
          jvalIdsFields (s.doc.folders[i].frest) ++
            (L1 ++ jvalIds (delField (reassignIds s.used s.next tc).1 "_folder") ++ L2) by
            rw [← e2]; rfl]
        rw [← Multiset.coe_eq_coe]
        simp only [← Multiset.coe_add]
        abel
  · rw [if_neg hfk]
    obtain ⟨L1, old, L2, e1, e2⟩ :=
      placeItem_ids s.doc.rootItems
        ((getAssoc s.maps (some JVal.null)).getD [])
        (delField (reassignIds s.used s.next tc).1 "_folder")
    refine graft_inv old
      (jvalIds (delField (reassignIds s.used s.next tc).1 "_folder"))
      (jvalIds s.doc.rest ++ L1 ++ L2 ++ s.doc.folders.flatMap folderIds)
      s.used ((reassignIds s.used s.next tc).2.used)
      ?_ ?_ hnd hcov huu hmnd hmu
    · rw [docIds_eq, e1]
      rw [← Multiset.coe_eq_coe]
      simp only [← Multiset.coe_add]
      abel
    · rw [docIds_eq]
      dsimp only
      rw [e2]
      rw [← Multiset.coe_eq_coe]
      simp only [← Multiset.coe_add]
      abel

theorem foldl_mergeOne_inv (tcs : List JVal) (s : MState)
    (hnd : (docIds s.doc).Nodup)
    (hcov : ∀ x ∈ docIds s.doc, x ∈ s.used)
    (htcs : ∀ tc ∈ tcs, (jvalIds tc).Nodup) :
    (docIds (tcs.foldl mergeOne s).doc).Nodup ∧
      ∀ x ∈ docIds (tcs.foldl mergeOne s).doc, x ∈ (tcs.foldl mergeOne s).used := by
  induction tcs generalizing s with
  | nil => exact ⟨hnd, hcov⟩
  | cons tc rest ih =>
      rw [List.foldl_cons]
      have h1 := mergeOne_inv s tc hnd hcov (htcs tc (by simp))
      exact ih (mergeOne s tc) h1.1 h1.2 (fun t ht => htcs t (by simp [ht]))

theorem sortDoc_ids_perm (d : MDoc) : (docIds (sortDoc d)).Perm (docIds d) := by
  rw [docIds_eq, docIds_eq]
  simp only [sortDoc]
  refine List.Perm.append (List.Perm.append_left _ ?_) ?_
  · exact jvalIdsList_perm (jsSort_perm d.rootItems)
  · rw [List.flatMap_map]
    refine flatMap_perm_congr d.folders ?_
    intro f
    show (folderIds { f with items := jsSortByOrdering f.items }).Perm (folderIds f)
    unfold folderIds
    exact List.Perm.append_left _ (jvalIdsList_perm (jsSort_perm f.items))

/-! ### Idempotence of the merge by name: the fold-level argument -/

theorem foldl_mergeOne_placed (T : List JVal) :
    ∀ (s : MState), DocOK s.doc → MapsOK s.doc s.maps →
      DocOK (T.foldl mergeOne s).doc ∧
      MapsOK (T.foldl mergeOne s).doc (T.foldl mergeOne s).maps ∧
      (∀ tc', Placed s.doc tc' → Placed (T.foldl mergeOne s).doc tc') ∧
      (∀ tc ∈ T, Hyg tc = true → Placed (T.foldl mergeOne s).doc tc) := by
  induction T with
  | nil =>
      intro s h1 h2
      exact ⟨h1, h2, fun _ hp => hp, fun tc h => absurd h (List.not_mem_nil tc)⟩
  | cons tc rest ih =>
      intro s h1 h2
      obtain ⟨hd', hm', hmono, hself⟩ := mergeOne_preserves s tc h1 h2
      obtain ⟨ihd, ihm, ihmono, ihall⟩ := ih (mergeOne s tc) hd' hm'
      rw [List.foldl_cons]
      refine ⟨ihd, ihm, fun tc' hp => ihmono tc' (hmono tc' hp), ?_⟩
      intro tc0 htc0 hyg
      rcases List.mem_cons.mp htc0 with rfl | hmem
      · exact ihmono tc0 (hself hyg)
      · exact ihall tc0 hmem hyg

theorem sortDoc_fnames (d : MDoc) :
    (sortDoc d).folders.map MFolder.fname = d.folders.map MFolder.fname := by
  unfold sortDoc
  dsimp only
  rw [List.map_map]
  exact List.map_congr_left (fun f _ => rfl)

theorem sortDoc_docOK {d : MDoc} (hd : DocOK d) : DocOK (sortDoc d) := by
  unfold DocOK
  rw [sortDoc_fnames]
  exact hd

theorem sortDoc_placed {d : MDoc} {tc : JVal} (hp : Placed d tc) : Placed (sortDoc d) tc := by
  unfold Placed at hp ⊢
  by_cases hket : truthy (folderOf tc)
  · rw [if_pos hket] at hp ⊢
    obtain ⟨f, hf, hfe, hfn⟩ := hp
    refine ⟨{ f with items := jsSortByOrdering f.items }, ?_, hfe, ?_⟩
    · unfold sortDoc
      dsimp only
      exact List.mem_map.mpr ⟨f, hf, rfl⟩
    · dsimp only
      exact ((jsSort_perm f.items).map nameKey).mem_iff.mpr hfn
  · rw [if_neg hket] at hp ⊢
    unfold sortDoc
    dsimp only
    exact ((jsSort_perm d.rootItems).map nameKey).mem_iff.mpr hp

/-- `merge` on a hygienic input leaves a document with distinct folder names
in which every incoming test case is placed under its key. -/
theorem merge_ok (d : MDoc) (tcs : List JVal) (hd : DocOK d)
    (hyg : ∀ tc ∈ tcs, Hyg tc = true) :
    DocOK (merge d tcs) ∧ ∀ tc ∈ tcs, Placed (merge d tcs) tc := by
  unfold merge
  obtain ⟨hdd, _, -, hall⟩ :=
    foldl_mergeOne_placed tcs
      { doc := d, maps := buildMaps d, used := collectDoc d, next := 10000000 }
      hd (buildMaps_ok d hd)
  exact ⟨sortDoc_docOK hdd, fun tc h => sortDoc_placed (hall tc h (hyg tc h))⟩

theorem map_eq_of_forall₂ {α β γ : Type} (f : α → γ) (g : β → γ) {l₁ : List α} {l₂ : List β}
    (h : List.Forall₂ (fun a b => f a = g b) l₁ l₂) : l₁.map f = l₂.map g := by
  induction h with
  | nil => rfl
  | cons h1 _ ih => simp [h1, ih]

theorem flatMap_eq_of_forall₂ {α β γ : Type} (f : α → List γ) (g : β → List γ)
    {l₁ : List α} {l₂ : List β}
    (h : List.Forall₂ (fun a b => f a = g b) l₁ l₂) : l₁.flatMap f = l₂.flatMap g := by
  induction h with
  | nil => rfl
  | cons h1 _ ih => simp [h1, ih]

theorem shape_refl (d : MDoc) : Shape d d :=
  ⟨rfl, List.forall₂_same.mpr (fun _ _ => ⟨rfl, rfl⟩)⟩

theorem shape_fnames {d ref : MDoc} (h : Shape d ref) :
    d.folders.map MFolder.fname = ref.folders.map MFolder.fname :=
  map_eq_of_forall₂ _ _ (List.Forall₂.imp (fun _ _ hab => hab.1) h.2)

theorem shape_docOK {d ref : MDoc} (href : DocOK ref) (h : Shape d ref) : DocOK d := by
  unfold DocOK
  rw [shape_fnames h]
  exact href

/-- The update-only step: merging a hygienic test case that is already
placed in the reference skeleton into a document of that skeleton only
replaces items in place, leaving the skeleton unchanged. -/
theorem mergeOne_shape (ref : MDoc) (s : MState) (tc : JVal)
    (href : DocOK ref) (hsh : Shape s.doc ref) (hm : MapsOK s.doc s.maps)
    (hyg : Hyg tc = true) (hp : Placed ref tc) :
    Shape (mergeOne s tc).doc ref := by
  obtain ⟨hroot, hfolds⟩ := hsh
  obtain ⟨⟨m0, hm0, hm0ok⟩, hfold, hstray⟩ := hm
  have hds : DocOK s.doc := shape_docOK href ⟨hroot, hfolds⟩
  have hfo := folderOf_reassignIds s.used s.next tc (Hyg.folderOfPrim hyg)
  have hnm := nameKey_place s.used s.next tc (Hyg.nameOf hyg)
  unfold Placed at hp
  by_cases hfk : truthy (folderOf (reassignIds s.used s.next tc).1)
  case neg =>
    have hfk2 : ¬ truthy (folderOf tc) = true := by
      rw [← hfo]
      exact hfk
    rw [if_neg hfk2] at hp
    have hmem : nameKey (delField (reassignIds s.used s.next tc).1 "_folder") ∈
        s.doc.rootItems.map nameKey := by
      rw [hnm, hroot]
      exact hp
    obtain ⟨hn1, hn2, hn3⟩ := placeItem_update hm0ok hmem
    rw [mergeOne_root_eq s tc hfk m0 hm0]
    unfold Shape
    dsimp only
    refine ⟨?_, hfolds⟩
    rw [hn1]
    exact hroot
  case pos =>
    have hfk' : truthy (folderOf tc) = true := by
      rw [← hfo]
      exact hfk
    rw [if_pos hfk'] at hp
    obtain ⟨f, hf, hfe, hfn⟩ := hp
    obtain ⟨j, hj, hfeq⟩ := List.mem_iff_getElem.mp hf
    have hjs : j < s.doc.folders.length := by
      rw [hfolds.length_eq]
      exact hj
    have hget := hfolds.get hjs hj
    have h1 : s.doc.folders[j].fname = ref.folders[j].fname := hget.1
    have h2 : s.doc.folders[j].items.map nameKey = ref.folders[j].items.map nameKey := hget.2
    have hsfn : s.doc.folders[j].fname =
        some (folderOf (reassignIds s.used s.next tc).1) := by
      rw [hfo, h1, hfeq]
      exact hfe
    rcases hfi : s.doc.folders.findIdx?
        (fun f => f.fname = some (folderOf (reassignIds s.used s.next tc).1)) with _ | i
    · exfalso
      have hn := List.findIdx?_eq_none_iff.mp hfi _ (List.getElem_mem hjs)
      rw [hsfn] at hn
      simp at hn
    · obtain ⟨hlen, hpred, -⟩ := List.findIdx?_eq_some_iff_getElem.mp hfi
      have heq : s.doc.folders[i].fname =
          some (folderOf (reassignIds s.used s.next tc).1) := by
        simpa using hpred
      have hij : i = j := by
        have hbi2 : i < (s.doc.folders.map MFolder.fname).length := by
          simpa using hlen
        have hbj2 : j < (s.doc.folders.map MFolder.fname).length := by
          simpa using hjs
        have hmij : (s.doc.folders.map MFolder.fname)[i] =
            (s.doc.folders.map MFolder.fname)[j] := by
          rw [List.getElem_map, List.getElem_map, heq, hsfn]
        exact (List.Nodup.getElem_inj_iff hds.1).mp hmij
      subst hij
      obtain ⟨mi, hmi, hmiok⟩ := hfold i hlen
      rw [heq] at hmi
      have hmem : nameKey (delField (reassignIds s.used s.next tc).1 "_folder") ∈
          s.doc.folders[i].items.map nameKey := by
        rw [hnm, h2, hfeq]
        exact hfn
      obtain ⟨hn1, hn2, hn3⟩ := placeItem_update hmiok hmem
      rw [mergeOne_folder_found_eq s tc i hfk hfi hlen mi hmi]
      unfold Shape
      dsimp only
      refine ⟨hroot, ?_⟩
      rw [List.forall₂_iff_get]
      constructor
      · simp only [List.length_set]
        exact hfolds.length_eq
      · intro k hk1 hk2
        simp only [List.get_eq_getElem]
        have hk1' : k < s.doc.folders.length := by simpa using hk1
        by_cases hki : k = i
        · subst hki
          rw [List.getElem_set_self]
          refine ⟨?_, ?_⟩
          · dsimp only
            rw [h1]
          · dsimp only
            rw [hn1, h2]
        · rw [List.getElem_set_ne (fun he => hki he.symm)]
          exact hfolds.get hk1' (by simpa using hk2)

theorem foldl_mergeOne_shape (T : List JVal) :
    ∀ (s : MState) (ref : MDoc), DocOK ref → Shape s.doc ref → MapsOK s.doc s.maps →
      (∀ tc ∈ T, Hyg tc = true) → (∀ tc ∈ T, Placed ref tc) →
      Shape (T.foldl mergeOne s).doc ref := by
  induction T with
  | nil =>
      intro s ref _ hsh _ _ _
      exact hsh
  | cons tc rest ih =>
      intro s ref hr hsh hm hyg hp
      rw [List.foldl_cons]
      have hds : DocOK s.doc := shape_docOK hr hsh
      exact ih (mergeOne s tc) ref hr
        (mergeOne_shape ref s tc hr hsh hm (hyg tc (by simp)) (hp tc (by simp)))
        ((mergeOne_preserves s tc hds hm).2.1)
        (fun t ht => hyg t (by simp [ht]))
        (fun t ht => hp t (by simp [ht]))

theorem shape_totalItems {d ref : MDoc} (h : Shape d ref) : totalItems d = totalItems ref := by
  unfold totalItems
  have hr : d.rootItems.length = ref.rootItems.length := by
    have := congrArg List.length h.1
    simpa using this
  have hf : d.folders.map (fun f => f.items.length) =
      ref.folders.map (fun f => f.items.length) :=
    map_eq_of_forall₂ _ _ (List.Forall₂.imp (fun a b hab => by
      have := congrArg List.length hab.2
      simpa using this) h.2)
  rw [hr, hf]

theorem shape_allNames {d ref : MDoc} (h : Shape d ref) : allNames d = allNames ref := by
  unfold allNames
  rw [h.1, flatMap_eq_of_forall₂ _ _ (List.Forall₂.imp (fun a b hab => hab.2) h.2)]

theorem sortDoc_allNames_perm (d : MDoc) : (allNames (sortDoc d)).Perm (allNames d) := by
  unfold allNames sortDoc
  dsimp only
  refine List.Perm.append ((jsSort_perm d.rootItems).map nameKey) ?_
  rw [List.flatMap_map]
  refine flatMap_perm_congr d.folders ?_
  intro f
  exact (jsSort_perm f.items).map nameKey

theorem sortDoc_totalItems (d : MDoc) : totalItems (sortDoc d) = totalItems d := by
  unfold totalItems sortDoc
  dsimp only
  rw [(jsSort_perm d.rootItems).length_eq, List.map_map,
    List.map_congr_left (fun f _ => (jsSort_perm f.items).length_eq)]

/-- Re-merging the same hygienic test cases into the output of a merge only
updates items in place: the container skeleton survives. -/
theorem merge_merge_shape (C : MDoc) (T : List JVal) (hC : DocOK C)
    (hT : ∀ tc ∈ T, Hyg tc = true) :
    Shape (T.foldl mergeOne
      { doc := merge C T, maps := buildMaps (merge C T),
        used := collectDoc (merge C T), next := 10000000 }).doc (merge C T) := by
  obtain ⟨hd1, hp1⟩ := merge_ok C T hC hT
  exact foldl_mergeOne_shape T _ (merge C T) hd1 (shape_refl _) (buildMaps_ok _ hd1) hT hp1

theorem readRef_append (σ : PStore) (x : List Param) (r : Nat) (h : r < σ.length) :
    readRef (σ ++ [x]) r = readRef σ r := by
  unfold readRef
  rw [List.getElem?_append_left h]

theorem readRef_last (σ : PStore) (x : List Param) :
    readRef (σ ++ [x]) σ.length = x := by
  unfold readRef
  rw [List.getElem?_eq_getElem (by simp), List.getElem_concat_length]
  · rfl
  · rfl

theorem readRef_set_ne (σ : PStore) (r r' : Nat) (v : List Param) (h : r ≠ r') :
    readRef (writeRef σ r' v) r = readRef σ r := by
  unfold readRef writeRef
  rw [List.getElem?_set_ne (fun he => h he.symm)]

theorem readRef_writeLast4 (σ : PStore) (x1 x2 x3 x4 v : List Param) (r : Nat)
    (h : r < σ.length) :
    readRef (writeRef (σ ++ [x1] ++ [x2] ++ [x3] ++ [x4]) σ.length v) r = readRef σ r := by
  rw [readRef_set_ne _ _ _ _ (Nat.ne_of_lt h)]
  rw [readRef_append _ _ _ (by simp; omega)]
  rw [readRef_append _ _ _ (by simp; omega)]
  rw [readRef_append _ _ _ (by simp; omega)]
  rw [readRef_append _ _ _ h]

theorem revOneStep_isSome (ridx : List (Int × TCase)) (s : JStep) :
    (revOneStep ridx s).isSome = handledStep s := by
  cases s with
  | http nm n b hc =>
      cases hc with
      | none => rfl
      | some c => rfl
  | testCaseRef a b c d e f => rfl
  | delay a b c => rfl
  | script a b c d e f g => rfl
  | ifStep a b c d => rfl
  | elseStep a b c => rfl

/-- The reverse step loop emits exactly the handled steps, in order, each
as its own conversion. -/
theorem revStepList_filter (ridx : List (Int × TCase)) : ∀ steps : List JStep,
    List.Forall₂ (fun s r => revOneStep ridx s = some r)
      (steps.filter handledStep) (revStepList ridx steps) := by
  intro steps
  induction steps with
  | nil => exact List.Forall₂.nil
  | cons s rest ih =>
      cases h : revOneStep ridx s with
      | some r =>
          have hh : handledStep s = true := by
            rw [← revOneStep_isSome ridx s, h]
            rfl
          rw [List.filter_cons_of_pos hh]
          have hl : revStepList ridx (s :: rest) = r :: revStepList ridx rest := by
            rw [revStepList, h]
          rw [hl]
          exact List.Forall₂.cons h ih
      | none =>
          have hh : handledStep s = false := by
            rw [← revOneStep_isSome ridx s, h]
            rfl
          rw [List.filter_cons_of_neg (by simp [hh])]
          have hl : revStepList ridx (s :: rest) = revStepList ridx rest := by
            rw [revStepList, h]
          rw [hl]
          exact ih

/-- An unresolved `testCaseRef` still yields a reference record; its
`relatedId` is the freshly generated placeholder `nextId + 1`. -/
theorem resolveRef_unresolved (idx : Idx) (d : YRef) (stepName : String)
    (hid : ∀ k, refIdOf d = some k → lookupInt idx.tcById k = none)
    (hnm : ∀ s, refNameOf d = some s → lookupStr idx.tcByName s = none) :
    resolveRef idx d stepName = (none, stepName) := by
  unfold resolveRef
  rcases hr : refIdOf d with _ | k
  · rcases hs : refNameOf d with _ | s
    · rfl
    · dsimp only
      rw [hnm s hs]
  · dsimp only
    rw [hid k hr]

theorem convertTestCaseRefStep_unresolved (st : CSt) (idx : Idx) (d : YRef)
    (hid : ∀ k, refIdOf d = some k → lookupInt idx.tcById k = none)
    (hnm : ∀ s, refNameOf d = some s → lookupStr idx.tcByName s = none) :
    convertTestCaseRefStep st idx d =
      (.testCaseRef ("uuid-" ++ toString st.uuid) (d.disable.getD false) d.parameters
        (st.nextId + 1) (stepNameOf d.name (numOr d.number 1)) (numOr d.number 1),
       { nextId := st.nextId + 1, uuid := st.uuid + 1 }) := by
  unfold convertTestCaseRefStep
  dsimp only
  rw [resolveRef_unresolved idx d _ hid hnm]
  rfl

/-- An unresolvable `link` target contributes no steps and leaves the
converter state untouched. -/
theorem convertLinkedSteps_unresolved (st : CSt) (idx : Idx) (y : YLink)
    (h : ∀ nm, optTruthy y.link_to = some nm → lookupStr idx.tcByName nm = none) :
    convertLinkedSteps st idx y = ([], st) := by
  unfold convertLinkedSteps
  rcases hl : optTruthy y.link_to with _ | nm
  · rfl
  · dsimp only
    rw [h nm hl]

/-- A resolvable `link` whose single-step number is found nowhere in the
referenced test case's (recursively searched) steps also contributes
nothing. -/
theorem convertLinkedSteps_nostep (st : CSt) (idx : Idx) (y : YLink) (nm : String)
    (tc : TCase) (target : Int)
    (h1 : optTruthy y.link_to = some nm)
    (h2 : lookupStr idx.tcByName nm = some tc)
    (h3 : linkStepNumberOf y = some target)
    (h4 : findStepByNumber tc.tsteps target = none) :
    convertLinkedSteps st idx y = ([], st) := by
  unfold convertLinkedSteps
  rw [h1]
  dsimp only
  rw [h2]
  dsimp only
  rw [h3]
  dsimp only
  rw [h4]

/-- A step that converts to nothing without touching the state is skipped:
the rest of the document converts exactly as if it were absent. -/
theorem convertStepList_skip (idx : Idx) (bad : YStep)
    (hbad : ∀ st, convertTopStep st idx bad = ([], st)) :
    ∀ (pre post : List YStep) (st : CSt),
      convertStepList st idx (pre ++ bad :: post) =
        ((convertStepList st idx pre).1 ++
          (convertStepList (convertStepList st idx pre).2 idx post).1,
         (convertStepList (convertStepList st idx pre).2 idx post).2) := by
  intro pre
  induction pre with
  | nil =>
      intro post st
      rw [List.nil_append]
      rw [show convertStepList st idx (bad :: post) =
        ((convertTopStep st idx bad).1 ++
          (convertStepList (convertTopStep st idx bad).2 idx post).1,
         (convertStepList (convertTopStep st idx bad).2 idx post).2) from rfl]
      rw [hbad st]
      rfl
  | cons y rest ih =>
      intro post st
      rw [List.cons_append, convertStepList, ih post (convertTopStep st idx y).2]
      rw [show convertStepList st idx (y :: rest) =
        ((convertTopStep st idx y).1 ++ (convertStepList (convertTopStep st idx y).2 idx rest).1,
         (convertStepList (convertTopStep st idx y).2 idx rest).2) from rfl]
      simp [List.append_assoc]

theorem findStepOne_http (a : String) (b e : Int) (d : Option HttpApiCase) (t : Int) :
    findStepOne (.http a b e d) t = if b = t then some (.http a b e d) else none := rfl

theorem findStepOne_tcref (a : String) (b : Bool) (e : JVal) (d : Int) (f : String)
    (g t : Int) : findStepOne (.testCaseRef a b e d f g) t =
      if g = t then some (.testCaseRef a b e d f g) else none := rfl

theorem findStepOne_delay (a : String) (b e t : Int) :
    findStepOne (.delay a b e) t = if b = t then some (.delay a b e) else none := rfl

theorem findStepOne_script (a : String) (b : Bool) (c : String) (d e : Bool) (f : String)
    (g t : Int) : findStepOne (.script a b c d e f g) t =
      if g = t then some (.script a b c d e f g) else none := rfl

theorem stepNumbersOne_http (a : String) (b e : Int) (d : Option HttpApiCase) :
    stepNumbersOne (.http a b e d) = [b] := rfl

theorem stepNumbersOne_tcref (a : String) (b : Bool) (e : JVal) (d : Int) (f : String)
    (g : Int) : stepNumbersOne (.testCaseRef a b e d f g) = [g] := rfl

theorem stepNumbersOne_delay (a : String) (b e : Int) :
    stepNumbersOne (.delay a b e) = [b] := rfl

theorem stepNumbersOne_script (a : String) (b : Bool) (c : String) (d e : Bool) (f : String)
    (g : Int) : stepNumbersOne (.script a b c d e f g) = [g] := rfl

mutual

theorem findOne_number : ∀ (s : JStep) (t : Int) (r : JStep),
    findStepOne s t = some r → jstepNumber r = t := by
  intro s t r h
  cases s with
  | ifStep i p c n =>
      rw [findStepOne] at h
      by_cases hn : n = t
      · rw [if_pos hn] at h
        cases h
        exact hn
      · rw [if_neg hn] at h
        exact findList_number c t r h
  | elseStep i c n =>
      rw [findStepOne] at h
      by_cases hn : n = t
      · rw [if_pos hn] at h
        cases h
        exact hn
      · rw [if_neg hn] at h
        exact findList_number c t r h
  | http a b e d =>
      rw [findStepOne_http] at h
      by_cases hn : b = t
      · rw [if_pos hn] at h
        cases h
        exact hn
      · rw [if_neg hn] at h
        cases h
  | testCaseRef a b e d f g =>
      rw [findStepOne_tcref] at h
      by_cases hn : g = t
      · rw [if_pos hn] at h
        cases h
        exact hn
      · rw [if_neg hn] at h
        cases h
  | delay a b e =>
      rw [findStepOne_delay] at h
      by_cases hn : b = t
      · rw [if_pos hn] at h
        cases h
        exact hn
      · rw [if_neg hn] at h
        cases h
  | script a b e d f g i =>
      rw [findStepOne_script] at h
      by_cases hn : i = t
      · rw [if_pos hn] at h
        cases h
        exact hn
      · rw [if_neg hn] at h
        cases h

theorem findList_number : ∀ (steps : List JStep) (t : Int) (r : JStep),
    findStepByNumber steps t = some r → jstepNumber r = t := by
  intro steps t r h
  cases steps with
  | nil => cases h
  | cons s rest =>
      rw [findStepByNumber] at h
      cases ho : findStepOne s t with
      | some r' =>
          rw [ho] at h
          cases h
          exact findOne_number s t _ ho
      | none =>
          rw [ho] at h
          exact findList_number rest t r h

end

mutual

theorem find_of_mem_one : ∀ (s : JStep) (t : Int), t ∈ stepNumbersOne s →
    ∃ r, findStepOne s t = some r := by
  intro s t hm
  cases s with
  | ifStep i p c n =>
      rw [findStepOne]
      by_cases hn : n = t
      · rw [if_pos hn]
        exact ⟨_, rfl⟩
      · rw [if_neg hn]
        rw [stepNumbersOne] at hm
        rcases List.mem_cons.mp hm with he | hm'
        · exact absurd he.symm hn
        · exact find_of_mem_list c t hm'
  | elseStep i c n =>
      rw [findStepOne]
      by_cases hn : n = t
      · rw [if_pos hn]
        exact ⟨_, rfl⟩
      · rw [if_neg hn]
        rw [stepNumbersOne] at hm
        rcases List.mem_cons.mp hm with he | hm'
        · exact absurd he.symm hn
        · exact find_of_mem_list c t hm'
  | http a b e d =>
      rw [stepNumbersOne_http] at hm
      rcases List.mem_singleton.mp hm with rfl
      rw [findStepOne_http, if_pos rfl]
      exact ⟨_, rfl⟩
  | testCaseRef a b e d f g =>
      rw [stepNumbersOne_tcref] at hm
      rcases List.mem_singleton.mp hm with rfl
      rw [findStepOne_tcref, if_pos rfl]
      exact ⟨_, rfl⟩
  | delay a b e =>
      rw [stepNumbersOne_delay] at hm
      rcases List.mem_singleton.mp hm with rfl
      rw [findStepOne_delay, if_pos rfl]
      exact ⟨_, rfl⟩
  | script a b e d f g i =>
      rw [stepNumbersOne_script] at hm
      rcases List.mem_singleton.mp hm with rfl
      rw [findStepOne_script, if_pos rfl]
      exact ⟨_, rfl⟩

theorem find_of_mem_list : ∀ (steps : List JStep) (t : Int), t ∈ stepNumbersList steps →
    ∃ r, findStepByNumber steps t = some r := by
  intro steps t hm
  cases steps with
  | nil =>
      rw [stepNumbersList] at hm
      cases hm
  | cons s rest =>
      rw [findStepByNumber]
      cases ho : findStepOne s t with
      | some r => exact ⟨r, rfl⟩
      | none =>
          rw [stepNumbersList] at hm
          rcases List.mem_append.mp hm with hm' | hm'
          · obtain ⟨r, hr⟩ := find_of_mem_one s t hm'
            rw [hr] at ho
            cases ho
          · exact find_of_mem_list rest t hm'

end

theorem linkCopyStep_length (st : CSt) (qov : List Override) (ls : JStep) (n : Int) :
    (linkCopyStep st qov ls n).1.length = 1 := by
  cases ls with
  | http a b c hc =>
      cases hc with
      | none => rfl
      | some c' => rfl
  | testCaseRef a b c d e f => rfl
  | delay a b c => rfl
  | script a b c d e f g => rfl
  | ifStep a b c d => rfl
  | elseStep a b c => rfl

/-- With no overrides on the link step, the single copied step is the
source step with only its number relabeled. -/
theorem linkCopyStep_no_overrides (st : CSt) (ls : JStep) (n : Int) :
    linkCopyStep st [] ls n = ([setJStepNumber ls n], st) := by
  cases ls with
  | http a b c hc =>
      cases hc with
      | none => rfl
      | some c' => rfl
  | testCaseRef a b c d e f => rfl
  | delay a b c => rfl
  | script a b c d e f g => rfl
  | ifStep a b c d => rfl
  | elseStep a b c => rfl

/-- The single-step link extraction: a resolvable target test case and a
step number present anywhere in its (recursively searched) steps yield
exactly the one relabeled copy. -/
theorem convertLinkedSteps_found (st : CSt) (idx : Idx) (y : YLink) (nm : String)
    (tc : TCase) (target : Int)
    (h1 : optTruthy y.link_to = some nm)
    (h2 : lookupStr idx.tcByName nm = some tc)
    (h3 : linkStepNumberOf y = some target)
    (h5 : target ∈ stepNumbersList tc.tsteps) :
    ∃ s, findStepByNumber tc.tsteps target = some s ∧ jstepNumber s = target ∧
      convertLinkedSteps st idx y = linkCopyStep st y.qov s (numOr y.number target) := by
  obtain ⟨s, hs⟩ := find_of_mem_list tc.tsteps target h5
  have hn := findList_number tc.tsteps target s hs
  refine ⟨s, hs, hn, ?_⟩
  unfold convertLinkedSteps
  rw [h1]
  dsimp only
  rw [h2]
  dsimp only
  rw [h3]
  dsimp only
  rw [hs]
  dsimp only
  rw [hn]

theorem countP_eraseFirst_le {α : Type} (p q : α → Bool) :
    ∀ l : List α, List.countP p (eraseFirst q l) ≤ List.countP p l := by
  intro l
  induction l with
  | nil => exact Nat.le_refl _
  | cons x xs ih =>
      rw [eraseFirst]
      by_cases hq : q x
      · rw [if_pos hq]
        rw [List.countP_cons]
        omega
      · rw [if_neg hq, List.countP_cons, List.countP_cons]
        omega

theorem countP_eraseFirst_self {α : Type} (p : α → Bool) :
    ∀ l : List α, List.countP p l ≤ 1 → List.countP p (eraseFirst p l) = 0 := by
  intro l
  induction l with
  | nil => intro _; rfl
  | cons x xs ih =>
      intro h
      rw [List.countP_cons] at h
      rw [eraseFirst]
      by_cases hp : p x
      · rw [if_pos hp]
        simp only [hp, if_true] at h
        have : List.countP p xs = 0 := by omega
        exact this
      · rw [if_neg hp, List.countP_cons]
        simp only [hp, if_false] at h
        rw [ih (by omega)]
        simp [hp]

theorem countP_updateFirst {α : Type} (p q : α → Bool) (f : α → α)
    (hf : ∀ a, p (f a) = p a) :
    ∀ l : List α, List.countP p (updateFirst q f l) = List.countP p l := by
  intro l
  induction l with
  | nil => rfl
  | cons x xs ih =>
      rw [updateFirst]
      by_cases hq : q x
      · rw [if_pos hq, List.countP_cons, List.countP_cons, hf]
      · rw [if_neg hq, List.countP_cons, List.countP_cons, ih]

/-- Once a container has no `foo`-named query parameter and every later
`foo` override is a deletion, the override loop never reintroduces one. -/
theorem applyOverrides_zero (foo : String) : ∀ (ovs : List Override) (st : CSt)
    (ps : List Param),
    List.countP (fun p => p.name = foo) ps = 0 →
    (∀ o ∈ ovs, o.name = foo → o.value = JVal.null) →
    List.countP (fun p => p.name = foo) (applyOverrides nameEqCS st ps ovs).1 = 0 := by
  intro ovs
  induction ovs with
  | nil =>
      intro st ps h0 _
      exact h0
  | cons o os ih =>
      intro st ps h0 hall
      rw [applyOverrides]
      unfold applyOverride
      by_cases hnull : o.value = JVal.null
      · rw [if_pos hnull]
        dsimp only
        refine ih _ _ ?_ (fun o' ho' => hall o' (by simp [ho']))
        have := countP_eraseFirst_le (fun p => p.name = foo)
          (fun p => nameEqCS p.name o.name) ps
        omega
      · rw [if_neg hnull]
        by_cases hany : ps.any (fun p => nameEqCS p.name o.name)
        · rw [if_pos hany]
          dsimp only
          refine ih _ _ ?_ (fun o' ho' => hall o' (by simp [ho']))
          rw [countP_updateFirst (fun p : Param => decide (p.name = foo))
            (fun p : Param => nameEqCS p.name o.name)
            (fun p : Param => { p with value := o.value, enable := true }) (fun a => rfl)]
          exact h0
        · rw [if_neg hany]
          dsimp only
          refine ih _ _ ?_ (fun o' ho' => hall o' (by simp [ho']))
          have hne : o.name ≠ foo := by
            intro he
            exact hnull (hall o (by simp) he)
          rw [List.countP_append, h0]
          simp [mkCustomParam, hne]

/-- A `null` override for `foo` removes the (at most one) declared `foo`
query parameter, and no later override of the step reintroduces it. -/
theorem applyOverrides_delete (foo : String) : ∀ (ovs : List Override) (st : CSt)
    (ps : List Param),
    List.countP (fun p => p.name = foo) ps ≤ 1 →
    (∀ o ∈ ovs, o.name = foo → o.value = JVal.null) →
    (∃ o ∈ ovs, o.name = foo) →
    List.countP (fun p => p.name = foo) (applyOverrides nameEqCS st ps ovs).1 = 0 := by
  intro ovs
  induction ovs with
  | nil =>
      intro st ps _ _ hex
      obtain ⟨o, ho, -⟩ := hex
      exact absurd ho (List.not_mem_nil o)
  | cons o os ih =>
      intro st ps hle hall hex
      rw [applyOverrides]
      unfold applyOverride
      by_cases hfoo : o.name = foo
      · have hnull : o.value = JVal.null := hall o (by simp) hfoo
        rw [if_pos hnull]
        dsimp only
        refine applyOverrides_zero foo os _ _ ?_ (fun o' ho' => hall o' (by simp [ho']))
        have hpe : (fun p : Param => nameEqCS p.name o.name) =
            (fun p : Param => decide (p.name = foo)) := by
          funext p
          rw [nameEqCS, hfoo]
        rw [hpe]
        exact countP_eraseFirst_self _ ps hle
      · have hex' : ∃ o' ∈ os, o'.name = foo := by
          obtain ⟨o', ho', he'⟩ := hex
          rcases List.mem_cons.mp ho' with rfl | hmem
          · exact absurd he' hfoo
          · exact ⟨o', hmem, he'⟩
        by_cases hnull : o.value = JVal.null
        · rw [if_pos hnull]
          dsimp only
          refine ih _ _ ?_ (fun o' ho' => hall o' (by simp [ho'])) hex'
          have := countP_eraseFirst_le (fun p => p.name = foo)
            (fun p => nameEqCS p.name o.name) ps
          omega
        · rw [if_neg hnull]
          by_cases hany : ps.any (fun p => nameEqCS p.name o.name)
          · rw [if_pos hany]
            dsimp only
            refine ih _ _ ?_ (fun o' ho' => hall o' (by simp [ho'])) hex'
            rw [countP_updateFirst (fun p : Param => decide (p.name = foo))
              (fun p : Param => nameEqCS p.name o.name)
              (fun p : Param => { p with value := o.value, enable := true }) (fun a => rfl)]
            exact hle
          · rw [if_neg hany]
            dsimp only
            refine ih _ _ ?_ (fun o' ho' => hall o' (by simp [ho'])) hex'
            rw [List.countP_append]
            simp [mkCustomParam, hfoo]
            omega

/-- A modeled http step without an explicit `path` whose name resolves in
the definition index converts through the resolved-endpoint branch. -/
theorem convertHttpStep_resolved (st : CSt) (idx : Idx) (y : YHttp) (api : ApiData)
    (hp : y.path = none)
    (hl : lookupStr idx.defs (stepNameOf y.name (numOr y.number 1)) = some api) :
    convertHttpStep st idx y = convertResolvedHttpStep st y api := by
  unfold convertHttpStep findApiByNameAndPath
  rw [hp]
  dsimp only [optTruthy]
  rw [hl]

theorem jstepQuery_resolved (st : CSt) (y : YHttp) (api : ApiData) :
    jstepQuery (convertResolvedHttpStep st y api).1 =
      (applyOverrides nameEqCS
        (generateId (if disableRVOf y.drv y.rv then ((0 : Int), st)
          else match api.respIds with
            | r :: _ => (r, st)
            | [] => generateId st).2).2
        api.query y.qov).1 := rfl

/-! ### Round trip of http/delay scenarios (claim C4 lemma layer) -/

theorem strOr_empty_right (s : String) : strOr s "" = s := by
  unfold strOr
  by_cases h : s = ""
  · rw [if_neg (by simp [h])]
    exact h.symm
  · rw [if_pos (by simpa using h)]

theorem strOr_of_ne (s d : String) (h : s ≠ "") : strOr s d = s := by
  unfold strOr
  rw [if_pos (by simpa using h)]

theorem optStrOr_ne_empty (o : Option String) (d : String) (hd : d ≠ "") :
    optStrOr o d ≠ "" := by
  unfold optStrOr
  cases o with
  | none => exact hd
  | some s =>
      dsimp only
      by_cases h : s = ""
      · rw [if_neg (by simp [h])]
        exact hd
      · rw [if_pos (by simpa using h)]
        exact h

theorem optStrOr_of_present (s : String) (d : String) (h : s ≠ "") :
    optStrOr (some s) d = s := by
  show (if s ≠ "" then s else d) = s
  rw [if_pos (by simpa using h)]

theorem revAsserts_cons_assertion (d : AssertData) (de en : Bool) (ps : List Proc) :
    convertPostProcessorsToAssertions (.assertion d de en :: ps) =
      { name := strOr d.aname "", subject := strOr d.subject "responseJson",
        comparison := strOr d.comparison "equal", value := jvalOr d.value (.str ""),
        path := strOr d.path (strOr d.expression "") } ::
        convertPostProcessorsToAssertions ps := rfl

theorem revAssert_convert (l : List Assertion) :
    convertPostProcessorsToAssertions (convertAssertions l) = l.map assertView := by
  induction l with
  | nil => rfl
  | cons a t ih =>
      rw [show convertAssertions (a :: t) = convertAssertion a :: convertAssertions t from rfl]
      rw [show convertAssertion a = Proc.assertion
        { aname := optStrOr a.aname "", subject := optStrOr a.subject "responseJson",
          comparison := optStrOr a.comparison (optStrOr a.operator "equal"),
          value := jvalOr a.value (.str ""), path := optStrOr a.path "",
          expression := optStrOr a.path "" } false true from rfl]
      rw [revAsserts_cons_assertion, ih, List.map_cons]
      dsimp only
      congr 1
      unfold assertView
      congr 1
      · exact strOr_empty_right _
      · exact strOr_of_ne _ _ (optStrOr_ne_empty _ _ (by decide))
      · exact strOr_of_ne _ _ (optStrOr_ne_empty _ _ (optStrOr_ne_empty _ _ (by decide)))
      · show jvalOr (jvalOr a.value (.str "")) (.str "") = jvalOr a.value (.str "")
        unfold jvalOr
        by_cases h : truthy a.value
        · rw [if_pos h, if_pos h]
        · rw [if_neg h]
          rfl
      · show strOr (optStrOr a.path "") (strOr (optStrOr a.path "") "") = optStrOr a.path ""
        rw [strOr_empty_right]
        unfold strOr
        by_cases h : optStrOr a.path "" = ""
        · rw [if_neg (by simpa using h)]
        · rw [if_pos (by simpa using h)]

theorem revPostProcessors_convert (l : List Assertion) :
    revPostProcessors (convertAssertions l) = [] := by
  induction l with
  | nil => rfl
  | cons a t ih =>
      show revPostProcessors (convertAssertion a :: convertAssertions t) = []
      rw [revPostProcessors, List.filterMap_cons]
      dsimp only [convertAssertion]
      exact ih ▸ rfl

theorem someIfNonempty_of_mem {α : Type} {l : List α} {x : α} (h : x ∈ l) :
    someIfNonempty l = some l := by
  cases l with
  | nil => exact absurd h (List.not_mem_nil x)
  | cons a t => rfl

theorem mem_eraseFirst_of_not {α : Type} (q : α → Bool) {p : α} :
    ∀ {l : List α}, p ∈ l → q p = false → p ∈ eraseFirst q l := by
  intro l
  induction l with
  | nil => intro h _; exact absurd h (List.not_mem_nil p)
  | cons x xs ih =>
      intro hm hq
      rw [eraseFirst]
      by_cases hx : q x
      · rw [if_pos hx]
        rcases List.mem_cons.mp hm with rfl | hm'
        · rw [hq] at hx
          cases hx
        · exact hm'
      · rw [if_neg hx]
        rcases List.mem_cons.mp hm with rfl | hm'
        · exact List.mem_cons_self _ _
        · exact List.mem_cons_of_mem _ (ih hm' hq)

theorem mem_updateFirst_of_not {α : Type} (q : α → Bool) (f : α → α) {p : α} :
    ∀ {l : List α}, p ∈ l → q p = false → p ∈ updateFirst q f l := by
  intro l
  induction l with
  | nil => intro h _; exact absurd h (List.not_mem_nil p)
  | cons x xs ih =>
      intro hm hq
      rw [updateFirst]
      by_cases hx : q x
      · rw [if_pos hx]
        rcases List.mem_cons.mp hm with rfl | hm'
        · rw [hq] at hx
          cases hx
        · exact List.mem_cons_of_mem _ hm'
      · rw [if_neg hx]
        rcases List.mem_cons.mp hm with rfl | hm'
        · exact List.mem_cons_self _ _
        · exact List.mem_cons_of_mem _ (ih hm' hq)

theorem updateFirst_mem_result {α : Type} (q : α → Bool) (f : α → α) :
    ∀ {l : List α}, l.any q = true → ∃ a ∈ l, q a = true ∧ f a ∈ updateFirst q f l := by
  intro l
  induction l with
  | nil => intro h; cases h
  | cons x xs ih =>
      intro h
      rw [updateFirst]
      by_cases hx : q x
      · rw [if_pos hx]
        exact ⟨x, List.mem_cons_self _ _, hx, List.mem_cons_self _ _⟩
      · rw [if_neg hx]
        have h' : xs.any q = true := by
          rcases List.any_eq_true.mp h with ⟨a, ha, hqa⟩
          rcases List.mem_cons.mp ha with rfl | ha'
          · exact absurd hqa hx
          · exact List.any_eq_true.mpr ⟨a, ha', hqa⟩
        obtain ⟨a, ha, hqa, hmem⟩ := ih h'
        exact ⟨a, List.mem_cons_of_mem _ ha, hqa, List.mem_cons_of_mem _ hmem⟩

/-- A parameter whose name no pending (truthy-valued) override matches
survives the rest of the override loop unchanged. -/
theorem applyOverrides_preserve : ∀ (os : List Override) (st : CSt) (ps : List Param)
    (p : Param), p ∈ ps → (∀ o' ∈ os, p.name ≠ o'.name) →
    (∀ o' ∈ os, truthy o'.value) → p ∈ (applyOverrides nameEqCS st ps os).1 := by
  intro os
  induction os with
  | nil =>
      intro st ps p hm _ _
      exact hm
  | cons o' os' ih =>
      intro st ps p hm hne htr
      rw [applyOverrides]
      unfold applyOverride
      have hnull : ¬ o'.value = JVal.null := by
        intro he
        have := htr o' (by simp)
        rw [he] at this
        cases this
      rw [if_neg hnull]
      have hq : nameEqCS p.name o'.name = false := by
        unfold nameEqCS
        simpa using hne o' (by simp)
      by_cases hany : ps.any (fun q => nameEqCS q.name o'.name)
      · rw [if_pos hany]
        dsimp only
        exact ih _ _ p (mem_updateFirst_of_not _ _ hm hq)
          (fun o'' h'' => hne o'' (by simp [h''])) (fun o'' h'' => htr o'' (by simp [h'']))
      · rw [if_neg hany]
        dsimp only
        exact ih _ _ p (List.mem_append_left _ hm)
          (fun o'' h'' => hne o'' (by simp [h''])) (fun o'' h'' => htr o'' (by simp [h'']))

/-- Every truthy-valued override of a step (override names pairwise
distinct) ends up as an enabled parameter carrying exactly its value. -/
theorem applyOverrides_mem : ∀ (ovs : List Override) (st : CSt) (ps : List Param),
    (ovs.map (fun o => o.name)).Nodup → (∀ o ∈ ovs, truthy o.value) →
    ∀ o ∈ ovs, ∃ p ∈ (applyOverrides nameEqCS st ps ovs).1,
      p.name = o.name ∧ p.value = o.value ∧ p.enable = true := by
  intro ovs
  induction ovs with
  | nil =>
      intro st ps _ _ o ho
      exact absurd ho (List.not_mem_nil o)
  | cons o0 os ih =>
      intro st ps hnd htr o ho
      have hnd' : (os.map (fun o => o.name)).Nodup := (List.nodup_cons.mp (by simpa using hnd)).2
      have h0 : o0.name ∉ os.map (fun o => o.name) := (List.nodup_cons.mp (by simpa using hnd)).1
      rcases List.mem_cons.mp ho with rfl | hos
      · -- the processed override itself
        rw [applyOverrides]
        unfold applyOverride
        have hnull : ¬ o.value = JVal.null := by
          intro he
          have := htr o (by simp)
          rw [he] at this
          cases this
        rw [if_neg hnull]
        have hsur : ∀ (ps1 : List Param) (st1 : CSt) (p : Param), p ∈ ps1 →
            p.name = o.name → p.value = o.value → p.enable = true →
            ∃ p' ∈ (applyOverrides nameEqCS st1 ps1 os).1,
              p'.name = o.name ∧ p'.value = o.value ∧ p'.enable = true := by
          intro ps1 st1 p hp h1 h2 h3
          refine ⟨p, applyOverrides_preserve os st1 ps1 p hp ?_ ?_, h1, h2, h3⟩
          · intro o' ho' he
            exact h0 (h1 ▸ he ▸ List.mem_map.mpr ⟨o', ho', rfl⟩)
          · intro o' ho'
            exact htr o' (by simp [ho'])
        by_cases hany : ps.any (fun q => nameEqCS q.name o.name)
        · rw [if_pos hany]
          dsimp only
          obtain ⟨a, _, hqa, hmem⟩ := updateFirst_mem_result
            (fun q : Param => nameEqCS q.name o.name)
            (fun q : Param => { q with value := o.value, enable := true }) hany
          exact hsur _ _ _ hmem (by simpa [nameEqCS] using hqa) rfl rfl
        · rw [if_neg hany]
          dsimp only
          exact hsur _ _ (mkCustomParam (generateId st).1 o.name o.value)
            (List.mem_append_right _ (List.mem_cons_self _ _)) rfl rfl rfl
      · -- a later override: the inductive hypothesis applies to any base
        rw [applyOverrides]
        exact ih _ _ hnd' (fun o' h' => htr o' (by simp [h'])) o hos

/-- Enabled parameters with truthy values are reported as overrides by the
reverse extraction, carrying their exact value. -/
theorem extract_mem {ps : List Param} {p : Param} (hm : p ∈ ps) (he : p.enable = true)
    (ht : truthy p.value = true) :
    (⟨p.name, p.value⟩ : Override) ∈ extractParameterOverrides ps := by
  unfold extractParameterOverrides
  refine List.mem_filterMap.mpr ⟨p, hm, ?_⟩
  rw [if_neg (by simp [he])]
  unfold jvalOr
  rw [if_pos ht]

theorem optNumPresent_spec (o : Option Int) (h : optNumPresent o = true) :
    ∃ k, o = some k ∧ k ≠ 0 := by
  cases o with
  | none => cases h
  | some k => exact ⟨k, rfl, of_decide_eq_true h⟩

theorem optPresent_spec (o : Option String) (h : optPresent o = true) :
    ∃ s, o = some s ∧ s ≠ "" := by
  cases o with
  | none => cases h
  | some s => exact ⟨s, rfl, of_decide_eq_true h⟩

theorem numOr_of_ne (k d : Int) (h : k ≠ 0) : numOr (some k) d = k := by
  show (if k ≠ 0 then k else d) = k
  rw [if_pos h]

theorem numOrI_of_ne (k d : Int) (h : k ≠ 0) : numOrI k d = k := by
  unfold numOrI
  rw [if_pos h]

theorem numOr_ne_zero (o : Option Int) (d : Int) (hd : d ≠ 0) : numOr o d ≠ 0 := by
  unfold numOr
  cases o with
  | none => exact hd
  | some k =>
      dsimp only
      by_cases h : k = 0
      · rw [if_neg (by simp [h])]
        exact hd
      · rw [if_pos (by simpa using h)]
        exact h

theorem stepNameOf_present (s : String) (num : Int) (h : s ≠ "") :
    stepNameOf (some s) num = s := by
  unfold stepNameOf
  exact optStrOr_of_present s _ h

theorem someIfNonempty_getD {α : Type} (l : List α) : (someIfNonempty l).getD [] = l := by
  cases l <;> rfl

theorem assertAgree_view (a : Assertion) (h : assertPresent a = true) :
    AssertAgree a (assertView a) := by
  simp only [assertPresent, Bool.and_eq_true] at h
  obtain ⟨⟨⟨⟨h1, h2⟩, h3⟩, h4⟩, h5⟩ := h
  obtain ⟨s1, e1, n1⟩ := optPresent_spec _ h1
  obtain ⟨s2, e2, n2⟩ := optPresent_spec _ h2
  obtain ⟨s3, e3, n3⟩ := optPresent_spec _ h3
  obtain ⟨s5, e5, n5⟩ := optPresent_spec _ h5
  refine ⟨?_, ?_, ?_, ?_, ?_⟩
  · show a.aname = some (optStrOr a.aname "")
    rw [e1, optStrOr_of_present _ _ n1]
  · show a.subject = some (optStrOr a.subject "responseJson")
    rw [e2, optStrOr_of_present _ _ n2]
  · show a.comparison = some (optStrOr a.comparison (optStrOr a.operator "equal"))
    rw [e3, optStrOr_of_present _ _ n3]
  · show jvalOr a.value (.str "") = a.value
    unfold jvalOr
    rw [if_pos h4]
  · show a.path = some (optStrOr a.path "")
    rw [e5, optStrOr_of_present _ _ n5]

theorem assert_forall2 (l : List Assertion) (h : l.all assertPresent = true) :
    List.Forall₂ AssertAgree l (l.map assertView) := by
  induction l with
  | nil => exact List.Forall₂.nil
  | cons a t ih =>
      rw [List.map_cons]
      refine List.Forall₂.cons (assertAgree_view a ?_) (ih ?_)
      · exact List.all_eq_true.mp h a (by simp)
      · exact List.all_eq_true.mpr (fun x hx => List.all_eq_true.mp h x (by simp [hx]))

theorem convertHttpStep_eq (st : CSt) (idx : Idx) (y : YHttp) :
    convertHttpStep st idx y =
      match apiItemOf idx y with
      | some api => convertResolvedHttpStep st y api
      | none => createBasicHttpStep st y := by
  unfold convertHttpStep apiItemOf
  rfl

theorem convertResolvedHttpStep_shape (st : CSt) (y : YHttp) (api : ApiData) :
    ∃ bid hc st2, convertResolvedHttpStep st y api =
        (.http (stepNameOf y.name (numOr y.number 1)) (numOr y.number 1) bid (some hc), st2) ∧
      (∃ st1, hc.query = (applyOverrides nameEqCS st1 api.query y.qov).1) ∧
      hc.postProcessors = convertAssertions y.assertions :=
  ⟨_, _, _, rfl, ⟨_, rfl⟩, rfl⟩

theorem createBasicHttpStep_shape (st : CSt) (y : YHttp) :
    ∃ hc st2, createBasicHttpStep st y =
        (.http (stepNameOf y.name (numOr y.number 1)) (numOr y.number 1) 0 (some hc), st2) ∧
      (∃ st1, hc.query = (applyOverrides nameEqCS st1 [] y.qov).1) ∧
      hc.postProcessors = convertAssertions y.assertions :=
  ⟨_, _, rfl, ⟨_, rfl⟩, rfl⟩

/-- Any converted http step whose case carries the override-processed query
and the converted assertions reverses to an agreeing step. -/
theorem c4_http_core (ridx : List (Int × TCase)) (d : YHttp) (bid : Int)
    (hc : HttpApiCase) (st1 : CSt) (base : List Param)
    (hq : hc.query = (applyOverrides nameEqCS st1 base d.qov).1)
    (hpost : hc.postProcessors = convertAssertions d.assertions)
    (hhyg : c4Hyg (.http d) = true) :
    ∃ r, revOneStep ridx
        (.http (stepNameOf d.name (numOr d.number 1)) (numOr d.number 1) bid (some hc)) =
      some r ∧ StepAgree (.http d) r := by
  simp only [c4Hyg, Bool.and_eq_true] at hhyg
  obtain ⟨⟨⟨⟨h1, h2⟩, h3⟩, h4⟩, h5⟩ := hhyg
  obtain ⟨k, hk, hk0⟩ := optNumPresent_spec _ h1
  obtain ⟨s, hs, hs0⟩ := optPresent_spec _ h2
  refine ⟨_, rfl, ?_, ?_, ?_, ?_⟩
  · show d.number = some (numOrI (numOr d.number 1) 1)
    rw [hk, numOr_of_ne k 1 hk0, numOrI_of_ne k 1 hk0]
  · show d.name = some (strOr (stepNameOf d.name (numOr d.number 1))
      ("Step " ++ toString (numOrI (numOr d.number 1) 1)))
    rw [hs, stepNameOf_present _ _ hs0, strOr_of_ne _ _ hs0]
  · show ∀ o ∈ d.qov, ∃ l,
        someIfNonempty (extractParameterOverrides hc.query) = some l ∧ o ∈ l
    intro o ho
    obtain ⟨p, hp, hnm, hv, he⟩ := applyOverrides_mem d.qov st1 base
      (of_decide_eq_true h3) (fun o' ho' => List.all_eq_true.mp h4 o' ho') o ho
    have ht : truthy p.value = true := by
      rw [hv]
      exact List.all_eq_true.mp h4 o ho
    have hp' : p ∈ hc.query := by
      rw [hq]
      exact hp
    have hmem := extract_mem hp' he ht
    rw [hnm, hv] at hmem
    exact ⟨_, someIfNonempty_of_mem hmem, hmem⟩
  · show List.Forall₂ AssertAgree d.assertions
        ((someIfNonempty (convertPostProcessorsToAssertions hc.postProcessors)).getD [])
    rw [hpost, revAssert_convert, someIfNonempty_getD]
    exact assert_forall2 _ h5

/-- One hygienic step converts to exactly one Apidog step, which reverses
to an agreeing scenario step. -/
theorem c4_step (st : CSt) (idx : Idx) (ridx : List (Int × TCase)) (y : YStep)
    (hy : c4Hyg y = true) :
    ∃ j st', convertTopStep st idx y = ([j], st') ∧
      ∃ r, revOneStep ridx j = some r ∧ StepAgree y r := by
  cases y with
  | http d =>
      have hT : convertTopStep st idx (.http d) =
          ([(convertHttpStep st idx d).1], (convertHttpStep st idx d).2) := rfl
      rcases hA : apiItemOf idx d with _ | api
      · obtain ⟨hc, st2, hsh, ⟨st1, hq⟩, hpost⟩ := createBasicHttpStep_shape st d
        obtain ⟨r, hr, ha⟩ := c4_http_core ridx d 0 hc st1 [] hq hpost hy
        refine ⟨.http (stepNameOf d.name (numOr d.number 1)) (numOr d.number 1) 0 (some hc),
          st2, ?_, r, hr, ha⟩
        rw [hT, convertHttpStep_eq, hA]
        dsimp only
        rw [hsh]
      · obtain ⟨bid, hc, st2, hsh, ⟨st1, hq⟩, hpost⟩ := convertResolvedHttpStep_shape st d api
        obtain ⟨r, hr, ha⟩ := c4_http_core ridx d bid hc st1 api.query hq hpost hy
        refine ⟨.http (stepNameOf d.name (numOr d.number 1)) (numOr d.number 1) bid (some hc),
          st2, ?_, r, hr, ha⟩
        rw [hT, convertHttpStep_eq, hA]
        dsimp only
        rw [hsh]
  | ydelay n t du =>
      have h1 : optNumPresent n = true := hy
      obtain ⟨k, hk, hk0⟩ := optNumPresent_spec _ h1
      refine ⟨.delay (toString (generateId st).1) (numOr n 1) (numOr t (numOr du 1000)),
        (generateId st).2, rfl, _, rfl, ?_, ?_⟩
      · show n = some (numOrI (numOr n 1) 1)
        rw [hk, numOr_of_ne k 1 hk0, numOrI_of_ne k 1 hk0]
      · show numOr t (numOr du 1000) = numOrI (numOr t (numOr du 1000)) 1000
        rw [numOrI_of_ne _ _ (numOr_ne_zero t _ (numOr_ne_zero du 1000 (by decide)))]
  | yif n p c ch => exact Bool.noConfusion hy
  | yelse n ch => exact Bool.noConfusion hy
  | yscript d2 => exact Bool.noConfusion hy
  | tcref d2 => exact Bool.noConfusion hy
  | link d2 => exact Bool.noConfusion hy

/-- The list-level round trip: a hygienic step list converts and reverses
to a pointwise-agreeing list, from any converter state. -/
theorem c4_list (idx : Idx) (ridx : List (Int × TCase)) :
    ∀ (ys : List YStep) (st : CSt), (∀ y ∈ ys, c4Hyg y = true) →
    List.Forall₂ StepAgree ys (revStepList ridx (convertStepList st idx ys).1) := by
  intro ys
  induction ys with
  | nil => intro st _; exact List.Forall₂.nil
  | cons y rest ih =>
      intro st h
      obtain ⟨j, st', hconv, r, hrev, hag⟩ := c4_step st idx ridx y (h y (by simp))
      rw [show convertStepList st idx (y :: rest) =
          ((convertTopStep st idx y).1 ++ (convertStepList (convertTopStep st idx y).2 idx rest).1,
           (convertStepList (convertTopStep st idx y).2 idx rest).2) from rfl]
      rw [hconv]
      dsimp only
      rw [List.singleton_append]
      rw [show revStepList ridx (j :: (convertStepList st' idx rest).1) =
          (match revOneStep ridx j with
           | some r0 => r0 :: revStepList ridx (convertStepList st' idx rest).1
           | none => revStepList ridx (convertStepList st' idx rest).1) from rfl]
      rw [hrev]
      exact List.Forall₂.cons hag (ih st' (fun y' hy' => h y' (by simp [hy'])))

/-- Claim C9 (confirmed): the heap frame of the parameters portion of
`convertHttpStep`.  After converting a step, all four declared parameter
arrays of the indexed endpoint definition read back unchanged — the
declared parameters are deep-cloned into fresh cells before any overrides
are applied, and the override loop writes only through the case's cell —
so a later step that resolves to the same endpoint clones the original
declared values regardless of the first step's overrides. -/
theorem convertHttpParamsHeap_frame (σ : PStore) (a : ApiRefs) (st : CSt)
    (qov : List Override) (hv : ValidRefs a σ) :
    readRef (convertHttpParamsHeap σ a st qov).2.1 a.query = readRef σ a.query ∧
    readRef (convertHttpParamsHeap σ a st qov).2.1 a.header = readRef σ a.header ∧
    readRef (convertHttpParamsHeap σ a st qov).2.1 a.cookie = readRef σ a.cookie ∧
    readRef (convertHttpParamsHeap σ a st qov).2.1 a.pathRef = readRef σ a.pathRef ∧
    readRef (σ ++ [readRef σ a.query]) σ.length = readRef σ a.query := by
  obtain ⟨h1, h2, h3, h4⟩ := hv
  exact ⟨readRef_writeLast4 σ _ _ _ _ _ a.query h1,
         readRef_writeLast4 σ _ _ _ _ _ a.header h2,
         readRef_writeLast4 σ _ _ _ _ _ a.cookie h3,
         readRef_writeLast4 σ _ _ _ _ _ a.pathRef h4,
         readRef_last σ _⟩

/-- Claim C1 (amended): the merged document has pairwise distinct numeric
ids provided the existing document's ids are already pairwise distinct
(and nonzero, so the truthiness-guarded `collectUsedIds` covers them) and
each incoming test case's ids are pairwise distinct.  Pre-existing
duplicates are not repaired (see the counterexample). -/
theorem c1_merge_ids_nodup (C : MDoc) (T : List JVal)
    (hnd : (docIds C).Nodup) (h0 : (0 : Int) ∉ docIds C)
    (htcs : ∀ tc ∈ T, (jvalIds tc).Nodup) :
    (docIds (merge C T)).Nodup := by
  unfold merge
  refine ((sortDoc_ids_perm _).nodup_iff).mpr ?_
  exact (foldl_mergeOne_inv T _ hnd (collectDoc_covers C h0) htcs).1

/-- Claim C1, counterexample to the frozen wording: a document that already
carries the id `5` twice keeps both occurrences through `merge`, so the
output ids are not unique. -/
theorem c1_counterexample : ¬ (docIds (merge c1dup [])).Nodup := by decide

/-- Claim C1, witness: the amended theorem applied to a concrete document
and incoming list. -/
theorem c1_witness :
    (docIds c1wdoc).Nodup ∧ ((0 : Int) ∉ docIds c1wdoc) ∧
    (∀ tc ∈ c1wT, (jvalIds tc).Nodup) ∧ (docIds (merge c1wdoc c1wT)).Nodup :=
  ⟨by decide, by decide, by decide,
   c1_merge_ids_nodup c1wdoc c1wT (by decide) (by decide) (by decide)⟩

/-- Claim C2 (amended): one reassignment pass ends in a well-formed state,
and input-id occurrences relate pointwise to output-id occurrences through
the final remap table: every occurrence of an id that collides with the
initial used set is replaced through the table (hence all its occurrences
consistently receive the same replacement, which is fresh); an id outside
the initial used set and outside the final table is preserved; every
output id lands in the final used set.  Consistency for ids that do not
collide initially fails (see the counterexample): their first occurrence
is preserved but later occurrences collide with the updated set. -/
theorem c2_reassign_consistent (used : List Int) (next : Int) (tc : JVal) :
    GoodR used (reassignIds used next tc).2 ∧
    List.Forall₂ (POut used (reassignIds used next tc).2.idMap
        (reassignIds used next tc).2.used)
      (jvalIds tc) (jvalIds (reassignIds used next tc).1) := by
  have hg : GoodR used { used := used, next := next, idMap := [] } :=
    ⟨fun x hx => hx, fun p hp => absurd hp (List.not_mem_nil p), by simp [mapDom]⟩
  have h := reassign_consist_val used { used := used, next := next, idMap := [] } tc hg
  exact ⟨h.1, h.2.2.2.2⟩

/-- Claim C2, counterexample to the frozen wording: a test case carrying the
fresh id `5` twice (no collision with the empty used set) is rewritten
inconsistently — the first occurrence is preserved, the second is remapped
to a newly minted id. -/
theorem c2_counterexample :
    jvalIds c2tc = [5, 5] ∧
    jvalIds (reassignIds [] 10000000 c2tc).1 = [5, 10000000] := by decide

/-- Claim C3 (amended): merging the same test cases again is idempotent on
the item-name multiset and on the total item count, provided the existing
document's folder names are pairwise distinct (and not JSON `null`) and
the incoming test cases carry primitive `name`/`_folder` fields.  With
duplicate folder names the by-name lookup tables and the folder array
disagree and re-merging duplicates items (see the counterexample). -/
theorem c3_merge_idempotent (C : MDoc) (T : List JVal) (hC : DocOK C)
    (hT : ∀ tc ∈ T, Hyg tc = true) :
    totalItems (merge (merge C T) T) = totalItems (merge C T) ∧
    (allNames (merge (merge C T) T)).Perm (allNames (merge C T)) := by
  have hsh := merge_merge_shape C T hC hT
  have he : merge (merge C T) T = sortDoc (T.foldl mergeOne
      { doc := merge C T, maps := buildMaps (merge C T),
        used := collectDoc (merge C T), next := 10000000 }).doc := rfl
  constructor
  · rw [he, sortDoc_totalItems]
    exact shape_totalItems hsh
  · rw [he]
    refine (sortDoc_allNames_perm _).trans ?_
    rw [shape_allNames hsh]

/-- Claim C3, counterexample to the frozen wording: with two folders both
named `F`, the second folder's (empty) name map shadows the first folder's
in the lookup table, so the incoming `n` is appended instead of replaced on
every pass — re-merging grows the document from 2 to 3 items. -/
theorem c3_counterexample :
    totalItems (merge c3doc c3T) = 2 ∧
    totalItems (merge (merge c3doc c3T) c3T) = 3 := by decide

/-- Claim C3, witness: the amended theorem applied to a concrete document
and incoming list. -/
theorem c3_witness :
    DocOK c3wdoc ∧ (∀ tc ∈ c3T, Hyg tc = true) ∧
    totalItems (merge (merge c3wdoc c3T) c3T) = totalItems (merge c3wdoc c3T) ∧
    (allNames (merge (merge c3wdoc c3T) c3T)).Perm (allNames (merge c3wdoc c3T)) := by
  have h := c3_merge_idempotent c3wdoc c3T (by unfold DocOK; decide) (by decide)
  exact ⟨by unfold DocOK; decide, by decide, h.1, h.2⟩

/-- Claim C4 (amended): for a scenario of hygienic `http` and `delay` steps
(numbers present and nonzero, names present, query-override names distinct
with truthy values, assertion fields present with truthy values), forward
conversion followed by reverse conversion yields a pointwise-agreeing step
list: same count and order, numbers, names, every query-override value and
every assertion preserved.  Falsy values are not preserved (see the
counterexample): `value || default` reads replace them. -/
theorem c4_roundtrip (idx : Idx) (ridx : List (Int × TCase)) (ys : List YStep)
    (h : ∀ y ∈ ys, c4Hyg y = true) :
    List.Forall₂ StepAgree ys (revStepList ridx (convertScenarioSteps idx ys)) := by
  unfold convertScenarioSteps
  exact c4_list idx ridx ys cSt0 h

/-- Claim C4, counterexample to the frozen wording: an assertion whose
expected value is the number `0` comes back from the round trip with the
string `""` instead — `a.value || ''` swallows falsy assertion values, a
semantic change, not a cosmetic one. -/
theorem c4_counterexample :
    ([c4Bad]).map ystepAssertValues = [[JVal.num 0]] ∧
    (revStepList [] (convertScenarioSteps emptyIdx [c4Bad])).map rstepAssertValues
      = [[JVal.str ""]] := by decide

/-- Claim C4, witness: the amended round trip applied to a concrete
two-step scenario. -/
theorem c4_witness :
    (∀ y ∈ c4w, c4Hyg y = true) ∧
    List.Forall₂ StepAgree c4w (revStepList [] (convertScenarioSteps emptyIdx c4w)) :=
  ⟨by decide, c4_roundtrip emptyIdx [] c4w (by decide)⟩

/-- Claim C5 (amended): a `null`-valued override for `foo` on an http step
whose endpoint resolves by name removes the declared `foo` query parameter
(no `foo` remains), provided the endpoint declares `foo` at most once and
no other override of the step carries a non-null `foo`.  With a duplicate
declaration only the first occurrence is spliced out (see the
counterexample). -/
theorem c5_null_override_deletes (st : CSt) (idx : Idx) (y : YHttp) (api : ApiData)
    (foo : String)
    (hp : y.path = none)
    (hl : lookupStr idx.defs (stepNameOf y.name (numOr y.number 1)) = some api)
    (hcount : List.countP (fun p => p.name = foo) api.query ≤ 1)
    (hall : ∀ o ∈ y.qov, o.name = foo → o.value = JVal.null)
    (hex : ∃ o ∈ y.qov, o.name = foo) :
    List.countP (fun p => p.name = foo) (jstepQuery (convertHttpStep st idx y).1) = 0 := by
  rw [convertHttpStep_resolved st idx y api hp hl, jstepQuery_resolved]
  exact applyOverrides_delete foo y.qov _ api.query hcount hall hex

/-- Claim C5, counterexample to the frozen wording: an endpoint declaring
`foo` twice keeps one `foo` after the null override — `splice` removes only
the first match, so the converted step's query still includes `foo`. -/
theorem c5_counterexample :
    List.countP (fun p => p.name = "foo") c5api.query = 2 ∧
    List.countP (fun p => p.name = "foo")
      (jstepQuery (convertHttpStep cSt0 c5idx c5y).1) = 1 := by decide

/-- Claim C5, witness: the amended theorem applied to an endpoint declaring
`foo` once. -/
theorem c5_witness :
    (List.countP (fun p => p.name = "foo") c5wapi.query ≤ 1) ∧
    (∀ o ∈ c5y.qov, o.name = "foo" → o.value = JVal.null) ∧
    (∃ o ∈ c5y.qov, o.name = "foo") ∧
    List.countP (fun p => p.name = "foo")
      (jstepQuery (convertHttpStep cSt0 c5widx c5y).1) = 0 :=
  ⟨by decide, by decide, ⟨⟨"foo", JVal.null⟩, by decide, rfl⟩,
   c5_null_override_deletes cSt0 c5widx c5y c5wapi "foo" rfl (by decide) (by decide)
     (by decide) ⟨⟨"foo", JVal.null⟩, by decide, rfl⟩⟩

/-- Claim C6 (amended): an `if` step with an `else` child emits the else
branch as a second `if` node with the same variable and value and the
`invertOperator` image of the operator.  `invertOperator` realises the
five claimed pairs, but the default `notEqual` neither covers the alias
`not_equal ↦ equal` (an own key of the table beyond the five pairs) nor
the names of `Object.prototype` members, for which the index read returns
the inherited truthy member instead of falling back; only an operator
outside both sets yields `notEqual` (see the counterexample). -/
theorem c6_else_inversion :
    (∀ (st : CSt) (idx : Idx) (number : Option Int) (params : Option YIfParams)
        (condition : Option YCond) (en : Option Int) (ech : List YStep),
      ∃ sid eid,
        (convertIfStep st idx number params condition [.yelse en ech]).1 =
          .ifStep sid (ifParamsOf params condition).toIf
            [.ifStep eid
              { keyVariable := (ifParamsOf params condition).keyVariable,
                operator := invertOperator (ifParamsOf params condition).operator,
                valueVariable := (ifParamsOf params condition).valueVariable }
              (convertElseChildren st idx ech).1
              (numOr en (numOr number 1 + 1))]
            (numOr number 1)) ∧
    invertOperator "equal" = .str "notEqual" ∧ invertOperator "notEqual" = .str "equal" ∧
    invertOperator "greater" = .str "lessOrEqual" ∧
    invertOperator "lessOrEqual" = .str "greater" ∧
    invertOperator "less" = .str "greaterOrEqual" ∧
    invertOperator "greaterOrEqual" = .str "less" ∧
    invertOperator "contains" = .str "notContains" ∧
    invertOperator "notContains" = .str "contains" ∧
    invertOperator "exists" = .str "notExists" ∧
    invertOperator "notExists" = .str "exists" ∧
    (∀ op : String, op ∈ objectProtoKeys → invertOperator op = .protoFn op) ∧
    (∀ op : String, op ∉ (["equal", "not_equal", "notEqual", "greater", "less",
        "greaterOrEqual", "lessOrEqual", "contains", "notContains", "exists",
        "notExists"] : List String) → op ∉ objectProtoKeys →
      invertOperator op = .str "notEqual") := by
  refine ⟨?_,
    by decide, by decide, by decide, by decide, by decide, by decide, by decide,
    by decide, by decide, by decide, ?_, ?_⟩
  · intro st idx number params condition en ech
    refine ⟨toString (generateId (generateId (convertElseChildren st idx ech).2).2).1,
       toString (generateId (convertElseChildren st idx ech).2).1, ?_⟩
    unfold convertIfStep
    dsimp only
    unfold convertIfChildren
    dsimp only
    rw [show ∀ st2 : CSt, convertIfChildren st2 idx (numOr number 1)
        (ifParamsOf params condition) [] = ([], st2) from fun st2 => rfl]
    rfl
  · intro op hop
    fin_cases hop <;> decide
  · intro op hop hp
    simp only [List.mem_cons, List.mem_singleton, not_or] at hop
    obtain ⟨g1, g2, g3, g4, g5, g6, g7, g8, g9, g10, g11, -⟩ := hop
    unfold invertOperator
    rw [if_neg g1, if_neg g2, if_neg g3, if_neg g4, if_neg g6, if_neg g5, if_neg g7,
      if_neg g8, if_neg g9, if_neg g10, if_neg g11, if_neg hp]

/-- Claim C6, counterexamples to the frozen wording: the operator
`not_equal` lies outside the claim's five-pair table, yet the emitted else
operator is `equal`, not the claimed default `notEqual`; and the operator
`toString` also lies outside the five pairs, yet its inversion is the
inherited `Object.prototype.toString`, not `notEqual` either. -/
theorem c6_counterexample :
    ("not_equal" ∉ (["equal", "notEqual", "greater", "lessOrEqual", "less",
      "greaterOrEqual", "contains", "notContains", "exists", "notExists"] : List String)) ∧
    ((jstepChildren (convertIfStep cSt0 emptyIdx (some 1)
        (some { keyVariable := some "x", operator := some "not_equal",
                valueVariable := .str "1" })
        none [.yelse (some 2) []]).1).map jstepIfOperator = [.str "equal"]) ∧
    (OperatorVal.str "equal" ≠ .str "notEqual") ∧
    ("toString" ∉ (["equal", "notEqual", "greater", "lessOrEqual", "less",
      "greaterOrEqual", "contains", "notContains", "exists", "notExists"] : List String)) ∧
    invertOperator "toString" = .protoFn "toString" ∧
    (OperatorVal.protoFn "toString" ≠ .str "notEqual") := by decide

/-- Claim C6, witness: the inversion-default branch of the theorem applied
to a concrete operator outside the table and the prototype. -/
theorem c6_witness :
    ("custom" ∉ (["equal", "not_equal", "notEqual", "greater", "less",
        "greaterOrEqual", "lessOrEqual", "contains", "notContains", "exists",
        "notExists"] : List String)) ∧ ("custom" ∉ objectProtoKeys) ∧
    invertOperator "custom" = .str "notEqual" :=
  ⟨by decide, by decide,
   c6_else_inversion.2.2.2.2.2.2.2.2.2.2.2.2 "custom" (by decide) (by decide)⟩

/-- Claim C7 (amended): a `link` step whose target test case resolves and
whose truthiness-read step number (`link_step || link_step_number`, so a
present but zero number does not count) is found by the recursive number
search yields exactly one copied step — the located source step — and with
no overrides the copy is the source step with only its number relabeled to
the linking step's own number.  A target number of `0` is falsy and copies
the whole list instead (see the counterexample). -/
theorem c7_link_single_step (st : CSt) (idx : Idx) (y : YLink) (nm : String)
    (tc : TCase) (target : Int)
    (h1 : optTruthy y.link_to = some nm)
    (h2 : lookupStr idx.tcByName nm = some tc)
    (h3 : linkStepNumberOf y = some target)
    (h5 : target ∈ stepNumbersList tc.tsteps) :
    ∃ s, findStepByNumber tc.tsteps target = some s ∧ jstepNumber s = target ∧
      (convertLinkedSteps st idx y).1.length = 1 ∧
      (y.qov = [] →
        convertLinkedSteps st idx y = ([setJStepNumber s (numOr y.number target)], st)) := by
  obtain ⟨s, hs, hn, he⟩ := convertLinkedSteps_found st idx y nm tc target h1 h2 h3 h5
  refine ⟨s, hs, hn, ?_, ?_⟩
  · rw [he]
    exact linkCopyStep_length st y.qov s (numOr y.number target)
  · intro hq
    rw [he, hq]
    exact linkCopyStep_no_overrides st s (numOr y.number target)

/-- Claim C7, counterexample to the frozen wording: the referenced test
case contains a step numbered `0` and the link names exactly that number,
yet both steps are copied — `link_step || link_step_number` treats `0` as
absent. -/
theorem c7_counterexample :
    (0 : Int) ∈ stepNumbersList c7tc.tsteps ∧
    c7link.link_step = some 0 ∧
    (convertLinkedSteps cSt0 c7idx c7link).1.length = 2 := by decide

/-- Claim C7, witness: the amended theorem applied to a link targeting the
nonzero step number `1`. -/
theorem c7_witness :
    optTruthy c7wlink.link_to = some "T" ∧
    lookupStr c7idx.tcByName "T" = some c7tc ∧
    linkStepNumberOf c7wlink = some 1 ∧
    (1 : Int) ∈ stepNumbersList c7tc.tsteps ∧
    ∃ s, findStepByNumber c7tc.tsteps 1 = some s ∧ jstepNumber s = 1 ∧
      (convertLinkedSteps cSt0 c7idx c7wlink).1.length = 1 ∧
      (c7wlink.qov = [] → convertLinkedSteps cSt0 c7idx c7wlink
        = ([setJStepNumber s (numOr c7wlink.number 1)], cSt0)) :=
  ⟨by decide, by decide, by decide, by decide,
   c7_link_single_step cSt0 c7idx c7wlink "T" c7tc 1 (by decide) (by decide) (by decide)
     (by decide)⟩

/-- Claim C8 (confirmed): unresolved references are soft errors.  An
unresolvable `testCaseRef` still emits a reference record carrying the
freshly generated placeholder id `nextId + 1`; a `link` whose target test
case cannot be resolved, or whose target test case resolves but whose
single-step number is found nowhere in that test case's (recursively
searched) steps, contributes no steps and leaves the converter state
untouched; and in either case a document containing such a `link` converts
around it exactly as if the step were absent. -/
theorem c8_soft_resolution_errors (st : CSt) (idx : Idx) (d : YRef) (y : YLink)
    (hid : ∀ k, refIdOf d = some k → lookupInt idx.tcById k = none)
    (hnm : ∀ s, refNameOf d = some s → lookupStr idx.tcByName s = none)
    (hl : (∀ nm, optTruthy y.link_to = some nm → lookupStr idx.tcByName nm = none) ∨
      (∃ nm tc target, optTruthy y.link_to = some nm ∧
        lookupStr idx.tcByName nm = some tc ∧ linkStepNumberOf y = some target ∧
        findStepByNumber tc.tsteps target = none)) :
    (convertTestCaseRefStep st idx d =
      (.testCaseRef ("uuid-" ++ toString st.uuid) (d.disable.getD false) d.parameters
        (st.nextId + 1) (stepNameOf d.name (numOr d.number 1)) (numOr d.number 1),
       { nextId := st.nextId + 1, uuid := st.uuid + 1 })) ∧
    (convertLinkedSteps st idx y = ([], st)) ∧
    (∀ (pre post : List YStep) (st0 : CSt),
      convertStepList st0 idx (pre ++ .link y :: post) =
        ((convertStepList st0 idx pre).1 ++
          (convertStepList (convertStepList st0 idx pre).2 idx post).1,
         (convertStepList (convertStepList st0 idx pre).2 idx post).2)) := by
  have hzero : ∀ st1 : CSt, convertLinkedSteps st1 idx y = ([], st1) := by
    intro st1
    rcases hl with h | ⟨nm, tc, target, h1, h2, h3, h4⟩
    · exact convertLinkedSteps_unresolved st1 idx y h
    · exact convertLinkedSteps_nostep st1 idx y nm tc target h1 h2 h3 h4
  refine ⟨convertTestCaseRefStep_unresolved st idx d hid hnm, hzero st, ?_⟩
  intro pre post st0
  exact convertStepList_skip idx (.link y) (fun st1 => hzero st1) pre post st0

/-- Claim C8, witness: the theorem applied to an index holding one test
case `T` with steps numbered 1 and 2, a reference to the unknown id `5`,
and a link to `T` naming the absent step number `7`. -/
theorem c8_witness :
    (convertTestCaseRefStep cSt0 c8idx c8d =
      (.testCaseRef ("uuid-" ++ toString cSt0.uuid) (c8d.disable.getD false) c8d.parameters
        (cSt0.nextId + 1) (stepNameOf c8d.name (numOr c8d.number 1)) (numOr c8d.number 1),
       { nextId := cSt0.nextId + 1, uuid := cSt0.uuid + 1 })) ∧
    (convertLinkedSteps cSt0 c8idx c8y = ([], cSt0)) ∧
    (convertStepList cSt0 c8idx ([] ++ .link c8y :: []) =
      ((convertStepList cSt0 c8idx []).1 ++
        (convertStepList (convertStepList cSt0 c8idx []).2 c8idx []).1,
       (convertStepList (convertStepList cSt0 c8idx []).2 c8idx []).2)) := by
  have h := c8_soft_resolution_errors cSt0 c8idx c8d c8y
    (fun k hk => rfl)
    (by
      intro s hs
      rw [show refNameOf c8d = some "R" from rfl] at hs
      injection hs with h
      subst h
      rfl)
    (Or.inr ⟨"T", c8tc, 7, by decide, by decide, by decide, by decide⟩)
  exact ⟨h.1, h.2.1, h.2.2 [] [] cSt0⟩

/-- Claim C9, witness: the frame theorem applied to a concrete store of
four declared parameter arrays. -/
theorem c9_witness :
    ValidRefs c9refs c9store ∧
    (readRef (convertHttpParamsHeap c9store c9refs cSt0 []).2.1 c9refs.query =
        readRef c9store c9refs.query ∧
     readRef (convertHttpParamsHeap c9store c9refs cSt0 []).2.1 c9refs.header =
        readRef c9store c9refs.header ∧
     readRef (convertHttpParamsHeap c9store c9refs cSt0 []).2.1 c9refs.cookie =
        readRef c9store c9refs.cookie ∧
     readRef (convertHttpParamsHeap c9store c9refs cSt0 []).2.1 c9refs.pathRef =
        readRef c9store c9refs.pathRef ∧
     readRef (c9store ++ [readRef c9store c9refs.query]) c9store.length =
        readRef c9store c9refs.query) :=
  ⟨by unfold ValidRefs; decide,
   convertHttpParamsHeap_frame c9store c9refs cSt0 [] (by unfold ValidRefs; decide)⟩

/-- Claim C10 (amended): the reverse converter's output is exactly the
in-order image of the steps passing `handledStep` — `testCaseRef`, `delay`,
`script`, `if`, and `http` only when its `httpApiCase` is present; an
`http` step without its case is dropped even though its type is in the
claimed handled set (see the counterexample), as is everything else
(`else`, unknown types). -/
theorem c10_reverse_drops_unhandled (ridx : List (Int × TCase)) (steps : List JStep) :
    List.Forall₂ (fun s r => revOneStep ridx s = some r)
      (steps.filter handledStep) (revStepList ridx steps) ∧
    ∀ s : JStep, (revOneStep ridx s).isSome = handledStep s :=
  ⟨revStepList_filter ridx steps, fun s => revOneStep_isSome ridx s⟩

/-- Claim C10, counterexample to the frozen wording: a step of type `http`
— one of the claimed handled types — is dropped by the reverse converter
when its `httpApiCase` is absent, so the output is not the subsequence of
handled-type steps. -/
theorem c10_counterexample :
    jstepIsHttpType (JStep.http "A" 1 0 none) = true ∧
    revStepList [] [JStep.http "A" 1 0 none] = [] := ⟨rfl, rfl⟩
